import Mathlib

/-!
Bimap over two intrusive treaps.

A verification development for the `bimap` container (`bimap.h`) and the treap
engine underneath it (`intrusive_bst.h`, `intrusive_bst.cpp`).

The embedding:

* A pair record (`bimap_value_element`) is a Lean structure holding its address and
  its two immutable values.  A pointer to a live record is the record itself; two
  pointers are equal when the addresses are equal.
* The nodes of one index, linked through `left` / `right` / `parent`, are a
  functional binary tree `Tree`: the children of a node are its `left` and `right`
  links, and the `parent` link of a node is the node above it.  The source keeps
  the `parent` links in step with the child links: `merge`, `split` and `insert`
  assign child links through `set_left` / `set_right` only, and `erase` calls
  `fix_links` on the parent whose slot it has assigned.  Each index has its own
  `heap_key` per node, stored in the tree node.  The root of an index is the
  `left` link of the shared sentinel; the sentinel's `right` link is never set and
  its `parent` link is null.
* A walk along `parent` links is a walk along the list of `Crumb`s that leads from
  a node back to the root (nearest ancestor first).
* Reading a value through a pointer that is null or that is the sentinel (which
  holds no values) is undefined behaviour: `Fault.undefined`.
* The random `heap_key` drawn by `insert` is an argument of the operation.
* `size_` is a natural number: every counted record is a live allocation, so the
  counter stays far below `2 ^ 64`.
-/

set_option linter.unusedSectionVars false

namespace details

/-- The record `bimap_value_element`: `addr` is the address of the allocation,
`left` and `right` are the two stored values. -/
structure bimap_value_element (L R : Type) where
  addr : Nat
  left : L
  right : R
deriving DecidableEq

/-- The nodes of one index as a binary tree.  `nil` is `nullptr`; a `node` is a
`tree_element_base` with its `left` link, the record it belongs to, its `heap_key`
and its `right` link. -/
inductive Tree (L R : Type) where
  | nil : Tree L R
  | node (left : Tree L R) (elem : bimap_value_element L R) (heap_key : Nat)
      (right : Tree L R) : Tree L R
deriving DecidableEq

/-- A value of type `bimap_element const*` (also `node_t*`): null, the sentinel of
the container, or a live pair record. -/
inductive Ptr (L R : Type) where
  | nullptr : Ptr L R
  | sentinel : Ptr L R
  | elem (e : bimap_value_element L R) : Ptr L R
deriving DecidableEq

/-- The child slot of a parent through which a node is reached. -/
inductive Side where
  | left : Side
  | right : Side
deriving DecidableEq

/-- One step of a `parent` chain: the parent record and the slot of the parent
that holds the node below. -/
structure Crumb (L R : Type) where
  parent : bimap_value_element L R
  side : Side
deriving DecidableEq

/-- The ways an operation can fail to return normally: the exception
`std::out_of_range`, undefined behaviour, and, for the loops that are run with a
bound on their number of iterations, reaching that bound. -/
inductive Fault where
  | out_of_range : Fault
  | undefined : Fault
  | out_of_fuel : Fault
deriving DecidableEq

variable {L R T : Type}

/-- Pointer comparison `a == b`: addresses are compared. -/
def Ptr.same : Ptr L R → Ptr L R → Bool
  | .nullptr, .nullptr => true
  | .sentinel, .sentinel => true
  | .elem a, .elem b => a.addr == b.addr
  | _, _ => false

/-- The test `p == nullptr`. -/
def Ptr.is_null : Ptr L R → Bool
  | .nullptr => true
  | _ => false

/-- In-order sequence of the records of a tree. -/
def Tree.inorder : Tree L R → List (bimap_value_element L R)
  | .nil => []
  | .node l e _ r => l.inorder ++ e :: r.inorder

/-- `tree_element_base::minimum` called on a node holding `e` whose `left` link is
the given tree: follow `left` links while they are not null. -/
def minimum (e : bimap_value_element L R) : Tree L R → bimap_value_element L R
  | .nil => e
  | .node l e' _ _ => minimum e' l

/-- `tree_element_base::maximum` called on a node holding `e` whose `right` link is
the given tree. -/
def maximum (e : bimap_value_element L R) : Tree L R → bimap_value_element L R
  | .nil => e
  | .node _ e' _ r => maximum e' r

/-- A node of an index as seen through a pointer to it: its `left` link, the
record it belongs to, its `heap_key`, its `right` link, and its chain of parents
(`path`, nearest ancestor first; the parent of the last one is the sentinel). -/
structure Node (L R : Type) where
  left : Tree L R
  elem : bimap_value_element L R
  heap_key : Nat
  right : Tree L R
  path : List (Crumb L R)
deriving DecidableEq

/-- The loop of `tree_element_base::next`: climb while the node below sits in the
`right` slot of `high`.  At the top of the chain `high` is the sentinel, whose
`right` slot is null, so the loop stops there. -/
def next_climb : List (Crumb L R) → Ptr L R
  | [] => .sentinel
  | c :: rest =>
    match c.side with
    | .right => next_climb rest
    | .left => .elem c.parent

/-- `tree_element_base::next` on a node that holds a pair. -/
def next (n : Node L R) : Ptr L R :=
  match n.right with
  | .node l e _ _ => .elem (minimum e l)
  | .nil => next_climb n.path

/-- The loop of `tree_element_base::prev`: climb while the node below sits in the
`left` slot of `high`.  The root sits in the `left` slot of the sentinel and the
sentinel has no parent, so climbing past the root ends at null. -/
def prev_climb : List (Crumb L R) → Ptr L R
  | [] => .nullptr
  | c :: rest =>
    match c.side with
    | .left => prev_climb rest
    | .right => .elem c.parent

/-- `tree_element_base::prev` on a node that holds a pair. -/
def prev (n : Node L R) : Ptr L R :=
  match n.left with
  | .node _ e _ r => .elem (maximum e r)
  | .nil => prev_climb n.path

/-- Follow a pointer to a pair record inside an index: the node at address `a`,
searched from the node `t` whose chain of parents is `path`. -/
def locate (a : Nat) : Tree L R → List (Crumb L R) → Option (Node L R)
  | .nil, _ => none
  | .node l e k r, path =>
    if e.addr = a then some ⟨l, e, k, r, path⟩
    else
      match locate a l (⟨e, .left⟩ :: path) with
      | some n => some n
      | none => locate a r (⟨e, .right⟩ :: path)

/-- The call `p->next()` for a pointer `p` into the index rooted at `root`.  The
sentinel has no `right` link and no parent, so its `next()` is null. -/
def Ptr.next (root : Tree L R) : Ptr L R → Except Fault (Ptr L R)
  | .nullptr => .error .undefined
  | .sentinel => .ok .nullptr
  | .elem e =>
    match locate e.addr root [] with
    | some n => .ok (details.next n)
    | none => .error .undefined

/-- The call `p->prev()` for a pointer `p` into the index rooted at `root`.  On the
sentinel the `left` link is the root. -/
def Ptr.prev (root : Tree L R) : Ptr L R → Except Fault (Ptr L R)
  | .nullptr => .error .undefined
  | .sentinel =>
    match root with
    | .node _ e _ r => .ok (.elem (maximum e r))
    | .nil => .ok .nullptr
  | .elem e =>
    match locate e.addr root [] with
    | some n => .ok (details.prev n)
    | none => .error .undefined

/-- The helper of `merge` for a non-null `left` node `(ll, le, lk, lr)`:
recursion on the `right` argument, `rec_lr` being `merge lr`. -/
def merge_into (ll : Tree L R) (le : bimap_value_element L R) (lk : Nat) (lr : Tree L R)
    (rec_lr : Tree L R → Tree L R) : Tree L R → Tree L R
  | .nil => .node ll le lk lr
  | .node rl re rk rr =>
    if lk > rk then .node ll le lk (rec_lr (.node rl re rk rr))
    else .node (merge_into ll le lk lr rec_lr rl) re rk rr

/-- `intrusive_bst::merge`; the recursive equations of the source are
`merge_nil_left`, `merge_nil_right` and `merge_node`. -/
def merge : Tree L R → Tree L R → Tree L R
  | .nil => fun right => right
  | .node ll le lk lr => merge_into ll le lk lr (merge lr)

/-- `intrusive_bst::split`. -/
def split (compare : T → T → Bool) (get : bimap_value_element L R → T) (val : T) :
    Tree L R → Tree L R × Tree L R
  | .nil => (.nil, .nil)
  | .node l e k r =>
    if compare (get e) val then
      let split_right := split compare get val r
      (.node l e k split_right.1, split_right.2)
    else
      let split_left := split compare get val l
      (split_left.1, .node split_left.2 e k r)

/-- `intrusive_bst::insert`: `cur` is a fresh node (both links null), `heap_key` is
the value drawn from the random engine. -/
def insert (compare : T → T → Bool) (get : bimap_value_element L R → T)
    (root : Tree L R) (cur : bimap_value_element L R) (heap_key : Nat) : Tree L R :=
  match root with
  | .nil => .node .nil cur heap_key .nil
  | .node l e k r =>
    let lr := split compare get (get cur) (.node l e k r)
    merge lr.1 (merge (.node .nil cur heap_key .nil) lr.2)

/-- `intrusive_bst::erase`: the slot that holds the node at address `cur` receives
`merge(cur->left, cur->right)`. -/
def erase (cur : Nat) : Tree L R → Tree L R
  | .nil => .nil
  | .node l e k r =>
    if e.addr = cur then merge l r
    else .node (erase cur l) e k (erase cur r)

/-- The descent loop of `intrusive_bst::lower_bound`: from the node `cur` go to
`cur->right` when `compare(value(cur), val)` and to `cur->left` otherwise, until
that link is null.  Returns the node the loop stops at. -/
def lower_bound_loop (compare : T → T → Bool) (get : bimap_value_element L R → T)
    (val : T) : Tree L R → List (Crumb L R) → Option (Node L R)
  | .nil, _ => none
  | .node l e k r, path =>
    if compare (get e) val then
      match r with
      | .nil => some ⟨l, e, k, r, path⟩
      | .node rl re rk rr =>
        lower_bound_loop compare get val (.node rl re rk rr) (⟨e, .right⟩ :: path)
    else
      match l with
      | .nil => some ⟨l, e, k, r, path⟩
      | .node ll le lk lr =>
        lower_bound_loop compare get val (.node ll le lk lr) (⟨e, .left⟩ :: path)

/-- The last statement of `intrusive_bst::lower_bound`, for the node `cur` the
descent stopped at: `compare(value(cur), val) ? cur->next() : cur`. -/
def lower_bound_result (compare : T → T → Bool) (get : bimap_value_element L R → T)
    (val : T) (cur : Node L R) : Ptr L R :=
  if compare (get cur.elem) val then next cur else .elem cur.elem

/-- `intrusive_bst::lower_bound`. -/
def lower_bound (compare : T → T → Bool) (get : bimap_value_element L R → T)
    (root : Tree L R) (val : T) : Ptr L R :=
  match root with
  | .nil => .nullptr
  | .node l e k r =>
    match lower_bound_loop compare get val (.node l e k r) [] with
    | some cur => lower_bound_result compare get val cur
    | none => .nullptr

end details

open details

/-- The state of a `bimap<Left, Right, CompareLeft, CompareRight>`: the two
comparators, the two roots hanging off the sentinel, `size_`, and the address the
allocator hands out next. -/
structure bimap (L R : Type) where
  compare_left : L → L → Bool
  compare_right : R → R → Bool
  left_root : Tree L R
  right_root : Tree L R
  size_ : Nat
  next_addr : Nat

/-- The type `bimap::left_iterator`. -/
structure left_iterator (L R : Type) where
  node : Ptr L R
deriving DecidableEq

/-- The type `bimap::right_iterator`. -/
structure right_iterator (L R : Type) where
  node : Ptr L R
deriving DecidableEq

namespace left_iterator

variable {L R : Type}

/-- The operator `*it` of a left iterator. -/
def deref (it : left_iterator L R) : Except Fault L :=
  match it.node with
  | .elem e => .ok e.left
  | _ => .error .undefined

/-- The method `flip`. -/
def flip (it : left_iterator L R) : right_iterator L R := ⟨it.node⟩

/-- The operator `a == b` of left iterators. -/
def eq (a b : left_iterator L R) : Bool := a.node.same b.node

end left_iterator

namespace right_iterator

variable {L R : Type}

/-- The operator `*it` of a right iterator. -/
def deref (it : right_iterator L R) : Except Fault R :=
  match it.node with
  | .elem e => .ok e.right
  | _ => .error .undefined

/-- The method `flip`. -/
def flip (it : right_iterator L R) : left_iterator L R := ⟨it.node⟩

/-- The operator `a == b` of right iterators. -/
def eq (a b : right_iterator L R) : Bool := a.node.same b.node

end right_iterator

namespace bimap

variable {L R : Type}

/-- The constructor `bimap(compare_left, compare_right)`. -/
def empty (compare_left : L → L → Bool) (compare_right : R → R → Bool) : bimap L R :=
  ⟨compare_left, compare_right, .nil, .nil, 0, 0⟩

/-- The method `size`. -/
def size (b : bimap L R) : Nat := b.size_

/-- The method `end_left`. -/
def end_left (_b : bimap L R) : left_iterator L R := ⟨.sentinel⟩

/-- The method `end_right`. -/
def end_right (_b : bimap L R) : right_iterator L R := ⟨.sentinel⟩

/-- The method `begin_left`: `minimum` called on the sentinel. -/
def begin_left (b : bimap L R) : left_iterator L R :=
  match b.left_root with
  | .nil => ⟨.sentinel⟩
  | .node l e _ _ => ⟨.elem (minimum e l)⟩

/-- The method `begin_right`. -/
def begin_right (b : bimap L R) : right_iterator L R :=
  match b.right_root with
  | .nil => ⟨.sentinel⟩
  | .node l e _ _ => ⟨.elem (minimum e l)⟩

/-- The operator `++it` of a left iterator. -/
def incr_left (b : bimap L R) (it : left_iterator L R) : Except Fault (left_iterator L R) :=
  (it.node.next b.left_root).map left_iterator.mk

/-- The operator `++it` of a right iterator. -/
def incr_right (b : bimap L R) (it : right_iterator L R) :
    Except Fault (right_iterator L R) :=
  (it.node.next b.right_root).map right_iterator.mk

/-- The method `lower_bound_left`. -/
def lower_bound_left (b : bimap L R) (left : L) : left_iterator L R :=
  ⟨lower_bound b.compare_left bimap_value_element.left b.left_root left⟩

/-- The method `lower_bound_right`. -/
def lower_bound_right (b : bimap L R) (right : R) : right_iterator L R :=
  ⟨lower_bound b.compare_right bimap_value_element.right b.right_root right⟩

variable [DecidableEq L] [DecidableEq R]

/-- The private method `find_left_node`. -/
def find_left_node (b : bimap L R) (left : L) : Ptr L R :=
  match lower_bound b.compare_left bimap_value_element.left b.left_root left with
  | .nullptr => .nullptr
  | .sentinel => .nullptr
  | .elem p => if ¬ (p.left = left) then .nullptr else .elem p

/-- The private method `find_right_node`. -/
def find_right_node (b : bimap L R) (right : R) : Ptr L R :=
  match lower_bound b.compare_right bimap_value_element.right b.right_root right with
  | .nullptr => .nullptr
  | .sentinel => .nullptr
  | .elem p => if ¬ (p.right = right) then .nullptr else .elem p

/-- The private method `insert_impl`, which every overload of `insert` calls.
`hk_left` and `hk_right` are the heap keys drawn by the two indices. -/
def insert_impl (b : bimap L R) (left : L) (right : R) (hk_left hk_right : Nat) :
    left_iterator L R × bimap L R :=
  if (!(b.find_left_node left).is_null) || (!(b.find_right_node right).is_null) then
    (b.end_left, b)
  else
    let element : bimap_value_element L R := ⟨b.next_addr, left, right⟩
    (⟨.elem element⟩,
      { b with
        left_root := details.insert b.compare_left bimap_value_element.left
          b.left_root element hk_left
        right_root := details.insert b.compare_right bimap_value_element.right
          b.right_root element hk_right
        size_ := b.size_ + 1
        next_addr := b.next_addr + 1 })

/-- The method `insert`. -/
def insert (b : bimap L R) (left : L) (right : R) (hk_left hk_right : Nat) :
    left_iterator L R × bimap L R :=
  b.insert_impl left right hk_left hk_right

/-- The private method `erase(bimap_element*)`, for a pointer to a pair record. -/
def erase (b : bimap L R) (element : bimap_value_element L R) : bimap L R :=
  { b with
    size_ := b.size_ - 1
    left_root := details.erase element.addr b.left_root
    right_root := details.erase element.addr b.right_root }

/-- The method `erase_left(left_iterator)`. -/
def erase_left_it (b : bimap L R) (it : left_iterator L R) :
    Except Fault (left_iterator L R × bimap L R) :=
  match b.incr_left it with
  | .error f => .error f
  | .ok result =>
    match it.node with
    | .elem e => .ok (result, b.erase e)
    | _ => .error .undefined

/-- The method `erase_right(right_iterator)`. -/
def erase_right_it (b : bimap L R) (it : right_iterator L R) :
    Except Fault (right_iterator L R × bimap L R) :=
  match b.incr_right it with
  | .error f => .error f
  | .ok result =>
    match it.node with
    | .elem e => .ok (result, b.erase e)
    | _ => .error .undefined

/-- The method `erase_left(left_t const&)`. -/
def erase_left (b : bimap L R) (left : L) : Bool × bimap L R :=
  match b.find_left_node left with
  | .elem p => (true, b.erase p)
  | _ => (false, b)

/-- The method `erase_right(right_t const&)`. -/
def erase_right (b : bimap L R) (right : R) : Bool × bimap L R :=
  match b.find_right_node right with
  | .elem p => (true, b.erase p)
  | _ => (false, b)

/-- The method `find_left`: the iterator returned by `lower_bound_left` is
dereferenced before anything is known about it. -/
def find_left (b : bimap L R) (left : L) : Except Fault (left_iterator L R) :=
  let it := b.lower_bound_left left
  match it.deref with
  | .error f => .error f
  | .ok v => .ok (if v = left then it else b.end_left)

/-- The method `find_right`. -/
def find_right (b : bimap L R) (right : R) : Except Fault (right_iterator L R) :=
  let it := b.lower_bound_right right
  match it.deref with
  | .error f => .error f
  | .ok v => .ok (if v = right then it else b.end_right)

/-- The method `at_left`; the exception `std::out_of_range` is `Fault.out_of_range`. -/
def at_left (b : bimap L R) (key : L) : Except Fault R :=
  match b.find_left key with
  | .error f => .error f
  | .ok it =>
    if it.eq b.end_left then .error .out_of_range
    else it.flip.deref

/-- The method `at_right`. -/
def at_right (b : bimap L R) (key : R) : Except Fault L :=
  match b.find_right key with
  | .error f => .error f
  | .ok it =>
    if it.eq b.end_right then .error .out_of_range
    else it.flip.deref

/-- The method `at_left_or_default`.  `dflt` is the value-initialised `right_t`.
In the call `erase_left(def)` the argument has type `right_t`, so the overload
taking `left_t const&` is the one chosen and `to_left` is the implicit conversion
from `right_t` to `left_t` it goes through (the identity when both types are the
same). -/
def at_left_or_default (to_left : R → L) (dflt : R) (b : bimap L R) (key : L)
    (hk_left hk_right : Nat) : Except Fault (R × bimap L R) :=
  match b.find_left key with
  | .error f => .error f
  | .ok it =>
    if it.eq b.end_left then
      match b.find_right dflt with
      | .error f => .error f
      | .ok def_it =>
        let erased : Except Fault (bimap L R) :=
          if !(def_it.eq b.end_right) then
            match b.erase_right_it def_it with
            | .error f => .error f
            | .ok (_, b1) => .ok (b1.erase_left (to_left dflt)).2
          else .ok b
        match erased with
        | .error f => .error f
        | .ok b2 =>
          let res := b2.insert key dflt hk_left hk_right
          match res.1.flip.deref with
          | .error f => .error f
          | .ok v => .ok (v, res.2)
    else
      match it.flip.deref with
      | .error f => .error f
      | .ok v => .ok (v, b)

/-- The method `at_right_or_default`, with `to_right` the implicit conversion from
`left_t` to `right_t` used by the call `erase_right(def)`. -/
def at_right_or_default (to_right : L → R) (dflt : L) (b : bimap L R) (key : R)
    (hk_left hk_right : Nat) : Except Fault (L × bimap L R) :=
  match b.find_right key with
  | .error f => .error f
  | .ok it =>
    if it.eq b.end_right then
      match b.find_left dflt with
      | .error f => .error f
      | .ok def_it =>
        let erased : Except Fault (bimap L R) :=
          if !(def_it.eq b.end_left) then
            match b.erase_left_it def_it with
            | .error f => .error f
            | .ok (_, b1) => .ok (b1.erase_right (to_right dflt)).2
          else .ok b
        match erased with
        | .error f => .error f
        | .ok b2 =>
          let res := b2.insert dflt key hk_left hk_right
          match res.1.deref with
          | .error f => .error f
          | .ok v => .ok (v, res.2)
    else
      match it.flip.deref with
      | .error f => .error f
      | .ok v => .ok (v, b)

/-- The method `erase_left(left_iterator first, left_iterator last)`: the loop
`while (first != last) erase_left(first++)`, with `fuel` bounding the number of
iterations. -/
def erase_left_range : Nat → bimap L R → left_iterator L R → left_iterator L R →
    Except Fault (left_iterator L R × bimap L R)
  | 0, _, _, _ => .error .out_of_fuel
  | fuel + 1, b, first, last =>
    if first.eq last then .ok (last, b)
    else
      match b.incr_left first with
      | .error f => .error f
      | .ok first' =>
        match b.erase_left_it first with
        | .error f => .error f
        | .ok res => erase_left_range fuel res.2 first' last

/-- The method `erase_right(right_iterator first, right_iterator last)`. -/
def erase_right_range : Nat → bimap L R → right_iterator L R → right_iterator L R →
    Except Fault (right_iterator L R × bimap L R)
  | 0, _, _, _ => .error .out_of_fuel
  | fuel + 1, b, first, last =>
    if first.eq last then .ok (last, b)
    else
      match b.incr_right first with
      | .error f => .error f
      | .ok first' =>
        match b.erase_right_it first with
        | .error f => .error f
        | .ok res => erase_right_range fuel res.2 first' last

/-- The loop `for (it = first; it != end_left(); ++it)` that reads `*it` and
`*it.flip()` at every position; `fuel` bounds the number of iterations. -/
def walk_left (b : bimap L R) : Nat → left_iterator L R → Except Fault (List (L × R))
  | 0, _ => .error .out_of_fuel
  | fuel + 1, it =>
    if it.eq b.end_left then .ok []
    else
      match it.deref, it.flip.deref, b.incr_left it with
      | .ok l, .ok r, .ok it' =>
        match walk_left b fuel it' with
        | .ok rest => .ok ((l, r) :: rest)
        | .error f => .error f
      | _, _, _ => .error .undefined

/-- The loop `for (it = first; it != end_right(); ++it)` that reads `*it.flip()` and
`*it` at every position; `fuel` bounds the number of iterations. -/
def walk_right (b : bimap L R) : Nat → right_iterator L R → Except Fault (List (L × R))
  | 0, _ => .error .out_of_fuel
  | fuel + 1, it =>
    if it.eq b.end_right then .ok []
    else
      match it.flip.deref, it.deref, b.incr_right it with
      | .ok l, .ok r, .ok it' =>
        match walk_right b fuel it' with
        | .ok rest => .ok ((l, r) :: rest)
        | .error f => .error f
      | _, _, _ => .error .undefined

/-- A run of `insert` calls, each given with its pair and the two heap keys drawn.
Returns the final container and the pairs whose call succeeded, that is, returned
an iterator other than `end_left()`. -/
def insert_all (b : bimap L R) : List (L × R × Nat × Nat) → bimap L R × List (L × R)
  | [] => (b, [])
  | (l, r, hk_left, hk_right) :: rest =>
    let res := b.insert l r hk_left hk_right
    let out := insert_all res.2 rest
    (out.1, if res.1.eq b.end_left then out.2 else (l, r) :: out.2)

/-- The containers that a program can build from the empty container with calls of
`insert`, of the `erase_left` / `erase_right` overloads (by key, by iterator, by
range) and of `at_left_or_default` / `at_right_or_default`; a call that can fail
counts when it returns. -/
inductive Reachable (compare_left : L → L → Bool) (compare_right : R → R → Bool) :
    bimap L R → Prop where
  | empty : Reachable compare_left compare_right (empty compare_left compare_right)
  | insert {b : bimap L R} (left : L) (right : R) (hk_left hk_right : Nat) :
      Reachable compare_left compare_right b →
      Reachable compare_left compare_right (b.insert left right hk_left hk_right).2
  | erase_left {b : bimap L R} (left : L) :
      Reachable compare_left compare_right b →
      Reachable compare_left compare_right (b.erase_left left).2
  | erase_right {b : bimap L R} (right : R) :
      Reachable compare_left compare_right b →
      Reachable compare_left compare_right (b.erase_right right).2
  | erase_left_it {b : bimap L R} (it : left_iterator L R)
      (res : left_iterator L R × bimap L R) :
      Reachable compare_left compare_right b → b.erase_left_it it = .ok res →
      Reachable compare_left compare_right res.2
  | erase_right_it {b : bimap L R} (it : right_iterator L R)
      (res : right_iterator L R × bimap L R) :
      Reachable compare_left compare_right b → b.erase_right_it it = .ok res →
      Reachable compare_left compare_right res.2
  | erase_left_range {b : bimap L R} (fuel : Nat) (first last : left_iterator L R)
      (res : left_iterator L R × bimap L R) :
      Reachable compare_left compare_right b →
      erase_left_range fuel b first last = .ok res →
      Reachable compare_left compare_right res.2
  | erase_right_range {b : bimap L R} (fuel : Nat) (first last : right_iterator L R)
      (res : right_iterator L R × bimap L R) :
      Reachable compare_left compare_right b →
      erase_right_range fuel b first last = .ok res →
      Reachable compare_left compare_right res.2
  | at_left_or_default {b : bimap L R} (to_left : R → L) (dflt : R) (key : L)
      (hk_left hk_right : Nat) (res : R × bimap L R) :
      Reachable compare_left compare_right b →
      at_left_or_default to_left dflt b key hk_left hk_right = .ok res →
      Reachable compare_left compare_right res.2
  | at_right_or_default {b : bimap L R} (to_right : L → R) (dflt : L) (key : R)
      (hk_left hk_right : Nat) (res : L × bimap L R) :
      Reachable compare_left compare_right b →
      at_right_or_default to_right dflt b key hk_left hk_right = .ok res →
      Reachable compare_left compare_right res.2

end bimap


/-! ## Specification vocabulary -/

/-- A comparator that orders its key type totally: irreflexive, transitive, and two
keys neither of which is less than the other are equal. -/
structure StrictTotal {T : Type} (compare : T → T → Bool) : Prop where
  irrefl : ∀ a, compare a a = false
  trans : ∀ a b c, compare a b = true → compare b c = true → compare a c = true
  total : ∀ a b, compare a b = false → compare b a = false → a = b

/-- A strict weak ordering: irreflexive, transitive, and incomparability is
transitive. -/
structure StrictWeak {T : Type} (compare : T → T → Bool) : Prop where
  irrefl : ∀ a, compare a a = false
  trans : ∀ a b c, compare a b = true → compare b c = true → compare a c = true
  incomp_trans : ∀ a b c, compare a b = false → compare b a = false →
    compare b c = false → compare c b = false → compare a c = false ∧ compare c a = false

/-- Key equivalence under a comparator: neither key is less than the other. -/
def key_equiv {T : Type} (compare : T → T → Bool) (a b : T) : Prop :=
  compare a b = false ∧ compare b a = false

namespace details

variable {L R T : Type}

/-- The records of a list are strictly increasing in the key `get` under `compare`. -/
def Increasing (compare : T → T → Bool) (get : bimap_value_element L R → T)
    (xs : List (bimap_value_element L R)) : Prop :=
  xs.Pairwise (fun a b => compare (get a) (get b) = true)

/-- The first record of a list whose key is not less than `val`. -/
def first_not_less (compare : T → T → Bool) (get : bimap_value_element L R → T) (val : T)
    (xs : List (bimap_value_element L R)) : Option (bimap_value_element L R) :=
  xs.find? (fun e => !compare (get e) val)

/-- The pointer to the first record of a list, or `after` when the list is empty. -/
def head_or (after : Ptr L R) : List (bimap_value_element L R) → Ptr L R
  | [] => after
  | y :: _ => .elem y

/-- The successor, in a sequence of records, of the record at address `a`: the
record that follows it, `after` when it is the last one, nothing when no record of
the sequence has this address. -/
def list_next (after : Ptr L R) (a : Nat) : List (bimap_value_element L R) → Option (Ptr L R)
  | [] => none
  | x :: rest => if x.addr = a then some (head_or after rest) else list_next after a rest

end details

namespace bimap

variable {L R : Type}

/-- The pairs of the container in the order of the left index. -/
def left_pairs (b : bimap L R) : List (L × R) :=
  b.left_root.inorder.map (fun e => (e.left, e.right))

/-- The pairs of the container in the order of the right index. -/
def right_pairs (b : bimap L R) : List (L × R) :=
  b.right_root.inorder.map (fun e => (e.left, e.right))

/-- The invariant of a `bimap` over totally ordered keys: both comparators are
strict total orders, each index is in increasing key order, both indices hold the
same records, `size_` counts them, and every record is a distinct allocation
handed out by the allocator. -/
structure WF (b : bimap L R) : Prop where
  left_order : StrictTotal b.compare_left
  right_order : StrictTotal b.compare_right
  left_sorted : Increasing b.compare_left bimap_value_element.left b.left_root.inorder
  right_sorted : Increasing b.compare_right bimap_value_element.right b.right_root.inorder
  same_records : b.left_root.inorder.Perm b.right_root.inorder
  size_eq : b.size_ = b.left_root.inorder.length
  addr_nodup : (b.left_root.inorder.map bimap_value_element.addr).Nodup
  addr_lt : ∀ e ∈ b.left_root.inorder, e.addr < b.next_addr

/-- The state after a successful `insert_impl`. -/
def inserted (b : bimap L R) (left : L) (right : R) (hk_left hk_right : Nat) : bimap L R :=
  { b with
    left_root := details.insert b.compare_left bimap_value_element.left
      b.left_root ⟨b.next_addr, left, right⟩ hk_left
    right_root := details.insert b.compare_right bimap_value_element.right
      b.right_root ⟨b.next_addr, left, right⟩ hk_right
    size_ := b.size_ + 1
    next_addr := b.next_addr + 1 }

end bimap

/-! ## Instances used as examples -/

/-- The comparator `std::less<int>` on natural numbers. -/
def nat_less : Nat → Nat → Bool := fun a b => decide (a < b)

/-- A comparator that orders natural numbers by their tens: a strict weak ordering
under which `1` and `2` are equivalent. -/
def tens_less : Nat → Nat → Bool := fun a b => decide (a / 10 < b / 10)

/-- The container `{(2, 80), (5, 50)}` built by two calls of `insert`. -/
def sample_two : bimap Nat Nat :=
  (((bimap.empty nat_less nat_less).insert 5 50 7 3).2.insert 2 80 9 1).2

/-- The container `{(2, 80), (5, 50), (8, 10)}` built by three calls of `insert`. -/
def sample_three : bimap Nat Nat := (sample_two.insert 8 10 4 6).2

/-- The container `{(2, 80), (8, 10)}`: `sample_three` after `erase_left(5)`. -/
def sample_erased : bimap Nat Nat := (sample_three.erase_left 5).2

/-- Two calls of `insert` on an empty container ordered by tens on both sides: the
pairs `(1, 1)` and `(2, 2)`, whose keys are equivalent but not equal. -/
def tens_run : bimap Nat Nat × List (Nat × Nat) :=
  (bimap.empty tens_less tens_less).insert_all [(1, 1, 0, 0), (2, 2, 0, 0)]

/-- The container `{(1, 1)}` built by one call of `insert`. -/
def sample_one : bimap Nat Nat := ((bimap.empty nat_less nat_less).insert 1 1 0 0).2

/-- The container `{(0, 5), (3, 0), (9, 9)}` of type `bimap<int, int>` built by three
calls of `insert`; the default right value `0` is paired with `3` and the left
value `0` is paired with `5`. -/
def sample_default : bimap Nat Nat :=
  ((((bimap.empty nat_less nat_less).insert 0 5 3 8).2.insert 3 0 6 2).2.insert 9 9 1 5).2

/-! ## Further operations of the container -/

namespace bimap

variable {L R : Type} [DecidableEq L] [DecidableEq R]

/-- The method `empty()` (the name `bimap.empty` is taken by the constructor). -/
def is_empty (b : bimap L R) : Bool := b.size_ == 0

/-- The method `upper_bound_left`: the iterator returned by `lower_bound_left` is
compared with `end_left()` and then dereferenced. -/
def upper_bound_left (b : bimap L R) (left : L) : Except Fault (left_iterator L R) :=
  let it := b.lower_bound_left left
  if it.eq b.end_left then .ok it
  else
    match it.deref with
    | .error f => .error f
    | .ok v => if v = left then b.incr_left it else .ok it

/-- The method `upper_bound_right`. -/
def upper_bound_right (b : bimap L R) (right : R) : Except Fault (right_iterator L R) :=
  let it := b.lower_bound_right right
  if it.eq b.end_right then .ok it
  else
    match it.deref with
    | .error f => .error f
    | .ok v => if v = right then b.incr_right it else .ok it

/-- The lambda `left_not_eq` of `operator==`, built on the comparator of `*this`. -/
def left_not_eq (b : bimap L R) (x y : L) : Bool :=
  b.compare_left x y || b.compare_left y x

/-- The lambda `right_not_eq` of `operator==`. -/
def right_not_eq (b : bimap L R) (x y : R) : Bool :=
  b.compare_right x y || b.compare_right y x

/-- The loop of `operator==`: `it_1` walks `*this`, `it_2` walks `other`, until
`it_1` is `end_left()`; `fuel` bounds the number of iterations. -/
def equal_loop (b other : bimap L R) : Nat → left_iterator L R → left_iterator L R →
    Except Fault Bool
  | 0, _, _ => .error .out_of_fuel
  | fuel + 1, it_1, it_2 =>
    if it_1.eq b.end_left then .ok true
    else
      match it_1.deref, it_2.deref, it_1.flip.deref, it_2.flip.deref with
      | .ok l1, .ok l2, .ok r1, .ok r2 =>
        if b.left_not_eq l1 l2 || b.right_not_eq r1 r2 then .ok false
        else
          match b.incr_left it_1, other.incr_left it_2 with
          | .ok it_1', .ok it_2' => equal_loop b other fuel it_1' it_2'
          | _, _ => .error .undefined
      | _, _, _, _ => .error .undefined

/-- The operator `*this == other`. -/
def equal (b other : bimap L R) (fuel : Nat) : Except Fault Bool :=
  if b.size ≠ other.size then .ok false
  else equal_loop b other fuel b.begin_left other.begin_left

/-- The loop of the copy constructor: `insert(*it, *it.flip())` for every position
of `other` in left order.  The new container has its own random engines; `draws n`
is the pair of heap keys they produce for the insertion made when the new
container holds `n` pairs. -/
def copy_loop (other : bimap L R) (draws : Nat → Nat × Nat) :
    Nat → left_iterator L R → bimap L R → Except Fault (bimap L R)
  | 0, _, _ => .error .out_of_fuel
  | fuel + 1, it, acc =>
    if it.eq other.end_left then .ok acc
    else
      match it.deref, it.flip.deref, other.incr_left it with
      | .ok l, .ok r, .ok it' =>
        copy_loop other draws fuel it'
          (acc.insert l r (draws acc.size).1 (draws acc.size).2).2
      | _, _, _ => .error .undefined

/-- The copy constructor `bimap(bimap const& other)`: an empty container with copies
of the comparators of `other`, then the loop of insertions. -/
def copy (other : bimap L R) (draws : Nat → Nat × Nat) (fuel : Nat) :
    Except Fault (bimap L R) :=
  copy_loop other draws fuel other.begin_left (empty other.compare_left other.compare_right)

/-- The method `swap`: the `left` links of the two sentinels (the roots) are
exchanged in both roles and `fix_links` re-attaches them, the comparators and
`size_` are exchanged.  The address counter of the model goes with the records, so
that the addresses handed out later stay different from the ones in use.  Returns
the new states of `*this` and of `other`. -/
def swap (b other : bimap L R) : bimap L R × bimap L R :=
  ({ b with
      left_root := other.left_root
      right_root := other.right_root
      compare_left := other.compare_left
      compare_right := other.compare_right
      size_ := other.size_
      next_addr := other.next_addr },
   { other with
      left_root := b.left_root
      right_root := b.right_root
      compare_left := b.compare_left
      compare_right := b.compare_right
      size_ := b.size_
      next_addr := b.next_addr })

/-- The move constructor `bimap(bimap&& other) = default`: every member of the new
object is move-constructed from the member of `other`.  The members are the
sentinel (six raw pointers and two integers), the two trees (a comparator, a raw
pointer, the random engine) and `size_`; moving a raw pointer or an integer copies
it and leaves the source as it was.  Returns the new object and `other` after the
call.  The `parent` link of each root and the `sentinel` member of the two trees
of the new object still point at the sentinel of `other`; this value-level state
does not record that. -/
def move_construct (other : bimap L R) : bimap L R × bimap L R :=
  ({ compare_left := other.compare_left
     compare_right := other.compare_right
     left_root := other.left_root
     right_root := other.right_root
     size_ := other.size_
     next_addr := other.next_addr },
   other)

/-- The move assignment `operator=(bimap&& other)` between two different objects:
`bimap copy{std::move(other)}; swap(copy);`, after which `copy`, holding the former
content of `*this`, is destroyed.  Returns the new states of `*this` and of
`other`. -/
def move_assign (b other : bimap L R) : bimap L R × bimap L R :=
  let moved := move_construct other
  ((b.swap moved.1).1, moved.2)

end bimap

/-! ## Specification vocabulary of the engine -/

namespace details

variable {L R T : Type}

/-- The `heap_key` of the root of a tree is at most `k` (true of the empty tree). -/
def root_le (k : Nat) : Tree L R → Prop
  | .nil => True
  | .node _ _ k' _ => k' ≤ k

/-- A tree is a max-heap on `heap_key`: the `heap_key` of every node is greater than
or equal to the `heap_key` of each of its children. -/
def Heap : Tree L R → Prop
  | .nil => True
  | .node l _ k r => root_le k l ∧ root_le k r ∧ Heap l ∧ Heap r

/-- The index trees that the engine builds from the empty tree with calls of
`insert` (any record, any heap key drawn) and `erase` (any address). -/
inductive EngineReachable (compare : T → T → Bool) (get : bimap_value_element L R → T) :
    Tree L R → Prop where
  | empty : EngineReachable compare get .nil
  | insert {root : Tree L R} (cur : bimap_value_element L R) (heap_key : Nat) :
      EngineReachable compare get root →
      EngineReachable compare get (insert compare get root cur heap_key)
  | erase {root : Tree L R} (cur : Nat) :
      EngineReachable compare get root →
      EngineReachable compare get (erase cur root)

end details

/-! ## Further example instances -/

/-- The container `{(1, 1)}` ordered by tens on both sides, built by one call of
`insert`. -/
def tens_one : bimap Nat Nat := ((bimap.empty tens_less tens_less).insert 1 1 0 0).2

/-- An index tree built by the engine: two insertions and one erasure, keyed by the
left value. -/
def engine_tree : details.Tree Nat Nat :=
  details.erase 0
    (details.insert nat_less details.bimap_value_element.left
      (details.insert nat_less details.bimap_value_element.left .nil ⟨0, 5, 50⟩ 7)
      ⟨1, 2, 80⟩ 9)

/-- A heap-ordered tree with the left keys `1` and `3`. -/
def heap_low : details.Tree Nat Nat :=
  .node (.node .nil ⟨0, 1, 10⟩ 2 .nil) ⟨1, 3, 30⟩ 6 .nil

/-- A heap-ordered tree with the left keys `5` and `8`. -/
def heap_high : details.Tree Nat Nat :=
  .node .nil ⟨2, 5, 50⟩ 9 (.node .nil ⟨3, 8, 80⟩ 4 .nil)

/-! ## Stepping backwards -/

namespace bimap

variable {L R : Type}

/-- The operator `--it` of a left iterator. -/
def decr_left (b : bimap L R) (it : left_iterator L R) : Except Fault (left_iterator L R) :=
  (it.node.prev b.left_root).map left_iterator.mk

/-- The operator `--it` of a right iterator. -/
def decr_right (b : bimap L R) (it : right_iterator L R) :
    Except Fault (right_iterator L R) :=
  (it.node.prev b.right_root).map right_iterator.mk

end bimap

namespace details

variable {L R : Type}

/-- The pointer to the last record of a list, or `before` when the list is empty. -/
def last_or (before : Ptr L R) : List (bimap_value_element L R) → Ptr L R
  | [] => before
  | x :: rest => last_or (.elem x) rest

/-- The predecessor, in a sequence of records, of the record at address `a`: the
record that precedes it, `before` when it is the first one, nothing when no record
of the sequence has this address. -/
def list_prev (before : Ptr L R) (a : Nat) : List (bimap_value_element L R) → Option (Ptr L R)
  | [] => none
  | x :: rest => if x.addr = a then some before else list_prev (.elem x) a rest

end details

namespace bimap

variable {L R : Type}

/-- The loop `for (it = first; it != end_left(); ++it)` that notes the position
`it` itself at every step, without reading through it; `fuel` bounds the number
of iterations. -/
def visit_left (b : bimap L R) : Nat → left_iterator L R →
    Except Fault (List (left_iterator L R))
  | 0, _ => .error .out_of_fuel
  | fuel + 1, it =>
    if it.eq b.end_left then .ok []
    else
      match b.incr_left it with
      | .error f => .error f
      | .ok it' =>
        match visit_left b fuel it' with
        | .ok rest => .ok (it :: rest)
        | .error f => .error f

/-- The loop `for (it = first; it != end_right(); ++it)` that notes the position
`it` itself at every step. -/
def visit_right (b : bimap L R) : Nat → right_iterator L R →
    Except Fault (List (right_iterator L R))
  | 0, _ => .error .out_of_fuel
  | fuel + 1, it =>
    if it.eq b.end_right then .ok []
    else
      match b.incr_right it with
      | .error f => .error f
      | .ok it' =>
        match visit_right b fuel it' with
        | .ok rest => .ok (it :: rest)
        | .error f => .error f

/-- The part of the invariant of a `bimap` that says nothing about the
comparators: both indices hold the same pair records, `size_` counts them, and
every record is a distinct allocation handed out by the allocator. -/
structure Consistent (b : bimap L R) : Prop where
  same_records : b.left_root.inorder.Perm b.right_root.inorder
  size_eq : b.size_ = b.left_root.inorder.length
  addr_nodup : (b.left_root.inorder.map bimap_value_element.addr).Nodup
  addr_lt : ∀ e ∈ b.left_root.inorder, e.addr < b.next_addr

end bimap

/-- The run `insert(1, 1)`, `insert(2, 2)`, `insert(1, 1)` on an empty container
with `tens_less` on both sides. -/
def tens_thrice : bimap Nat Nat × List (Nat × Nat) :=
  (bimap.empty tens_less tens_less).insert_all [(1, 1, 0, 0), (2, 2, 0, 0), (1, 1, 0, 0)]

namespace details

variable {L R T : Type}

/-! ## The engine: `merge`, `split`, `insert`, `erase` -/

theorem merge_nil_left (right : Tree L R) : merge .nil right = right := rfl

theorem merge_nil_right (left : Tree L R) : merge left .nil = left := by
  cases left <;> rfl

theorem merge_node (ll : Tree L R) (le : bimap_value_element L R) (lk : Nat) (lr rl : Tree L R)
    (re : bimap_value_element L R) (rk : Nat) (rr : Tree L R) :
    merge (.node ll le lk lr) (.node rl re rk rr) =
      if lk > rk then .node ll le lk (merge lr (.node rl re rk rr))
      else .node (merge (.node ll le lk lr) rl) re rk rr := rfl

theorem inorder_merge (a b : Tree L R) : (merge a b).inorder = a.inorder ++ b.inorder := by
  induction a generalizing b with
  | nil => simp [merge, Tree.inorder]
  | node ll le lk lr _ ihr =>
    induction b with
    | nil => simp [merge_nil_right, Tree.inorder]
    | node rl re rk rr ihl _ =>
      rw [merge_node]
      split
      · simp [Tree.inorder, ihr]
      · simp [Tree.inorder, ihl]

theorem inorder_split (compare : T → T → Bool) (get : bimap_value_element L R → T) (val : T)
    (t : Tree L R) :
    (split compare get val t).1.inorder ++ (split compare get val t).2.inorder = t.inorder := by
  induction t with
  | nil => simp [split, Tree.inorder]
  | node l e k r ihl ihr =>
    simp only [split]
    split
    · simp [Tree.inorder, ihr]
    · simp only [Tree.inorder]
      rw [← List.append_assoc, ihl]

theorem split_fst_lt (compare : T → T → Bool) (get : bimap_value_element L R → T) (val : T)
    (htrans : ∀ a b c, compare a b = true → compare b c = true → compare a c = true)
    (t : Tree L R) (hs : Increasing compare get t.inorder) :
    ∀ x ∈ (split compare get val t).1.inorder, compare (get x) val = true := by
  induction t with
  | nil => simp [split, Tree.inorder]
  | node l e k r ihl ihr =>
    simp only [Tree.inorder, Increasing, List.pairwise_append, List.pairwise_cons] at hs
    obtain ⟨hl, ⟨her, hr⟩, hlr⟩ := hs
    simp only [split]
    split
    · rename_i hlt
      intro x hx
      simp only [Tree.inorder, List.mem_append, List.mem_cons] at hx
      rcases hx with hx | hx | hx
      · exact htrans _ _ _ (hlr x hx e (by simp)) hlt
      · rw [hx]; exact hlt
      · exact ihr hr x hx
    · intro x hx
      exact ihl hl x hx

theorem split_snd_not_lt (compare : T → T → Bool) (get : bimap_value_element L R → T) (val : T)
    (htrans : ∀ a b c, compare a b = true → compare b c = true → compare a c = true)
    (t : Tree L R) (hs : Increasing compare get t.inorder) :
    ∀ x ∈ (split compare get val t).2.inorder, compare (get x) val = false := by
  induction t with
  | nil => simp [split, Tree.inorder]
  | node l e k r ihl ihr =>
    simp only [Tree.inorder, Increasing, List.pairwise_append, List.pairwise_cons] at hs
    obtain ⟨hl, ⟨her, hr⟩, hlr⟩ := hs
    simp only [split]
    split
    · intro x hx
      exact ihr hr x hx
    · rename_i hlt
      intro x hx
      simp only [Tree.inorder, List.mem_append, List.mem_cons] at hx
      rcases hx with hx | hx | hx
      · exact ihl hl x hx
      · rw [hx]; simpa using hlt
      · cases hc : compare (get x) val with
        | false => rfl
        | true => exact absurd (htrans _ _ _ (her x hx) hc) hlt

/-- The in-order sequence after `insert`: the records below the new key, the new
record, the records not below it. -/
theorem inorder_insert (compare : T → T → Bool) (get : bimap_value_element L R → T)
    (root : Tree L R) (cur : bimap_value_element L R) (heap_key : Nat) :
    (insert compare get root cur heap_key).inorder =
      (split compare get (get cur) root).1.inorder ++
        cur :: (split compare get (get cur) root).2.inorder := by
  cases root with
  | nil => simp [insert, split, Tree.inorder]
  | node l e k r => simp [insert, inorder_merge, Tree.inorder]

theorem insert_perm (compare : T → T → Bool) (get : bimap_value_element L R → T)
    (root : Tree L R) (cur : bimap_value_element L R) (heap_key : Nat) :
    (insert compare get root cur heap_key).inorder.Perm (cur :: root.inorder) := by
  rw [inorder_insert]
  have h := inorder_split compare get (get cur) root
  rw [← h]
  exact List.perm_middle

theorem insert_increasing (compare : T → T → Bool) (get : bimap_value_element L R → T)
    (hord : StrictTotal compare)
    (root : Tree L R) (cur : bimap_value_element L R) (heap_key : Nat)
    (hs : Increasing compare get root.inorder)
    (hfresh : ∀ x ∈ root.inorder, get x ≠ get cur) :
    Increasing compare get (insert compare get root cur heap_key).inorder := by
  rw [inorder_insert]
  have happ := inorder_split compare get (get cur) root
  have h1 := split_fst_lt compare get (get cur) hord.trans root hs
  have h2 := split_snd_not_lt compare get (get cur) hord.trans root hs
  rw [← happ] at hs hfresh
  simp only [Increasing, List.pairwise_append, List.pairwise_cons] at hs ⊢
  obtain ⟨ha, hb, hab⟩ := hs
  have hgt : ∀ x ∈ (split compare get (get cur) root).2.inorder,
      compare (get cur) (get x) = true := by
    intro x hx
    cases hc : compare (get cur) (get x) with
    | true => rfl
    | false =>
      exact absurd (hord.total _ _ (h2 x hx) hc) (hfresh x (by simp [hx]))
  refine ⟨ha, ⟨hgt, hb⟩, ?_⟩
  intro a haa b hbb
  simp only [List.mem_cons] at hbb
  rcases hbb with hbb | hbb
  · rw [hbb]; exact h1 a haa
  · exact hab a haa b hbb

end details

namespace details

variable {L R T : Type}

/-- Erasing an address that no node of the tree has changes nothing. -/
theorem erase_absent (a : Nat) (t : Tree L R) (h : ∀ e ∈ t.inorder, e.addr ≠ a) :
    erase a t = t := by
  induction t with
  | nil => rfl
  | node l e k r ihl ihr =>
    simp only [Tree.inorder, List.mem_append, List.mem_cons] at h
    have he : e.addr ≠ a := h e (Or.inr (Or.inl rfl))
    simp only [erase, he, if_false]
    rw [ihl (fun x hx => h x (Or.inl hx)), ihr (fun x hx => h x (Or.inr (Or.inr hx)))]

theorem filter_addr_ne_of_absent (a : Nat) (xs : List (bimap_value_element L R))
    (h : ∀ e ∈ xs, e.addr ≠ a) : xs.filter (fun e => decide (e.addr ≠ a)) = xs := by
  rw [List.filter_eq_self]
  intro e he
  simpa using h e he

/-- The in-order sequence after `erase`: the node at the erased address is gone,
the others keep their order. -/
theorem inorder_erase (a : Nat) (t : Tree L R)
    (hnd : (t.inorder.map bimap_value_element.addr).Nodup) :
    (erase a t).inorder = t.inorder.filter (fun e => decide (e.addr ≠ a)) := by
  induction t with
  | nil => rfl
  | node l e k r ihl ihr =>
    simp only [Tree.inorder, List.map_append, List.map_cons, List.nodup_append,
      List.nodup_cons] at hnd
    obtain ⟨hl, ⟨her, hr⟩, hdis⟩ := hnd
    by_cases he : e.addr = a
    · have hla : ∀ x ∈ l.inorder, x.addr ≠ a := by
        intro x hx hxa
        exact hdis (List.mem_map_of_mem _ hx) (by rw [hxa, ← he]; simp)
      have hra : ∀ x ∈ r.inorder, x.addr ≠ a := by
        intro x hx hxa
        exact her (by rw [he, ← hxa]; exact List.mem_map_of_mem _ hx)
      simp only [erase, he, if_true, inorder_merge, Tree.inorder, List.filter_append,
        List.filter_cons, ne_eq, not_true_eq_false, decide_False]
      rw [filter_addr_ne_of_absent a _ hla, filter_addr_ne_of_absent a _ hra]
      simp
    · simp only [erase, he, if_false, Tree.inorder, List.filter_append, List.filter_cons,
        ne_eq, not_false_eq_true, decide_True, if_true]
      rw [ihl hl, ihr hr]

/-! ## `lower_bound` -/

theorem first_not_less_none_of_lt (compare : T → T → Bool)
    (get : bimap_value_element L R → T) (val : T) (xs : List (bimap_value_element L R))
    (h : ∀ x ∈ xs, compare (get x) val = true) : first_not_less compare get val xs = none := by
  unfold first_not_less
  rw [List.find?_eq_none]
  intro x hx
  simp [h x hx]

/-- The descent of `lower_bound` from a node with a given chain of parents ends at a
node, and the pointer computed from it is the first record of the subtree whose
key is not less than `val`, or else what `next` finds above the subtree. -/
theorem lower_bound_loop_spec (compare : T → T → Bool) (get : bimap_value_element L R → T)
    (val : T)
    (htrans : ∀ a b c, compare a b = true → compare b c = true → compare a c = true)
    (t : Tree L R) (path : List (Crumb L R)) (hne : t ≠ .nil)
    (hs : Increasing compare get t.inorder) :
    ∃ cur, lower_bound_loop compare get val t path = some cur ∧
      lower_bound_result compare get val cur =
        match first_not_less compare get val t.inorder with
        | some x => .elem x
        | none => next_climb path := by
  induction t generalizing path with
  | nil => exact absurd rfl hne
  | node l e k r ihl ihr =>
    simp only [Tree.inorder, Increasing, List.pairwise_append, List.pairwise_cons] at hs
    obtain ⟨hl, ⟨her, hr⟩, hlr⟩ := hs
    by_cases hc : compare (get e) val = true
    · have hlall : ∀ x ∈ l.inorder, compare (get x) val = true :=
        fun x hx => htrans _ _ _ (hlr x hx e (by simp)) hc
      have hnone := first_not_less_none_of_lt compare get val _ hlall
      cases r with
      | nil =>
        refine ⟨⟨l, e, k, .nil, path⟩, by unfold lower_bound_loop; simp [hc], ?_⟩
        unfold first_not_less at hnone ⊢
        simp [lower_bound_result, hc, next, Tree.inorder, List.find?_append, hnone]
      | node rl re rk rr =>
        obtain ⟨cur, hcur, hres⟩ := ihr (⟨e, .right⟩ :: path) (fun h => by cases h) hr
        refine ⟨cur, by unfold lower_bound_loop; simp [hc, hcur], ?_⟩
        rw [hres]
        unfold first_not_less at hnone ⊢
        rw [show (Tree.node l e k (Tree.node rl re rk rr)).inorder =
          l.inorder ++ e :: (Tree.node rl re rk rr).inorder from rfl]
        simp [List.find?_append, hnone, List.find?_cons, hc, next_climb]
    · cases l with
      | nil =>
        refine ⟨⟨.nil, e, k, r, path⟩, by unfold lower_bound_loop; simp [hc], ?_⟩
        simp [lower_bound_result, hc, first_not_less, Tree.inorder, List.find?_cons]
      | node ll le lk lr =>
        obtain ⟨cur, hcur, hres⟩ := ihl (⟨e, .left⟩ :: path) (fun h => by cases h) hl
        refine ⟨cur, by unfold lower_bound_loop; simp [hc, hcur], ?_⟩
        rw [hres]
        unfold first_not_less
        rw [show (Tree.node (Tree.node ll le lk lr) e k r).inorder =
          (Tree.node ll le lk lr).inorder ++ e :: r.inorder from rfl]
        rw [List.find?_append]
        cases hf : List.find? (fun e => !compare (get e) val) (Tree.node ll le lk lr).inorder with
        | some x => simp
        | none => simp [List.find?_cons, hc, next_climb]

/-- What `lower_bound` returns on an index that is not empty and whose keys are
increasing: the first record whose key is not less than `val`, or the sentinel
when every key is less than `val`.  On the empty index it returns null. -/
theorem lower_bound_spec (compare : T → T → Bool) (get : bimap_value_element L R → T)
    (htrans : ∀ a b c, compare a b = true → compare b c = true → compare a c = true)
    (root : Tree L R) (val : T) (hne : root ≠ .nil)
    (hs : Increasing compare get root.inorder) :
    lower_bound compare get root val =
      match first_not_less compare get val root.inorder with
      | some x => .elem x
      | none => .sentinel := by
  obtain ⟨cur, hcur, hres⟩ := lower_bound_loop_spec compare get val htrans root [] hne hs
  cases root with
  | nil => exact absurd rfl hne
  | node l e k r =>
    simp only [lower_bound, hcur, hres]
    rfl

/-- On increasing keys under a total order, the first record not less than the key
of a stored record is that record. -/
theorem first_not_less_of_mem (compare : T → T → Bool) (get : bimap_value_element L R → T)
    (hirr : ∀ a, compare a a = false)
    (xs : List (bimap_value_element L R)) (hs : Increasing compare get xs)
    (e : bimap_value_element L R) (he : e ∈ xs) :
    first_not_less compare get (get e) xs = some e := by
  induction xs with
  | nil => cases he
  | cons y ys ih =>
    simp only [Increasing, List.pairwise_cons] at hs
    obtain ⟨hy, hys⟩ := hs
    simp only [List.mem_cons] at he
    unfold first_not_less
    rw [List.find?_cons]
    rcases he with he | he
    · subst he
      simp [hirr]
    · have := hy e he
      simp only [this, Bool.not_true]
      exact ih hys he

theorem first_not_less_mem (compare : T → T → Bool) (get : bimap_value_element L R → T)
    (val : T) (xs : List (bimap_value_element L R)) (x : bimap_value_element L R)
    (h : first_not_less compare get val xs = some x) : x ∈ xs ∧ compare (get x) val = false := by
  unfold first_not_less at h
  refine ⟨List.mem_of_find?_eq_some h, ?_⟩
  have := List.find?_some h
  simpa using this

end details

namespace details

variable {L R T : Type}

/-! ## `next` and in-order iteration -/

theorem list_next_absent (after : Ptr L R) (a : Nat) (xs : List (bimap_value_element L R))
    (h : ∀ x ∈ xs, x.addr ≠ a) : list_next after a xs = none := by
  induction xs with
  | nil => rfl
  | cons x rest ih =>
    have hx : x.addr ≠ a := h x (by simp)
    simp only [list_next, hx, if_false]
    exact ih (fun y hy => h y (by simp [hy]))

theorem list_next_append (after : Ptr L R) (a : Nat) (xs ys : List (bimap_value_element L R)) :
    list_next after a (xs ++ ys) =
      match list_next (head_or after ys) a xs with
      | some p => some p
      | none => list_next after a ys := by
  induction xs with
  | nil => rfl
  | cons x rest ih =>
    by_cases hx : x.addr = a
    · cases rest <;> cases ys <;> simp [list_next, hx, head_or]
    · simp only [List.cons_append, list_next, hx, if_false]
      exact ih

theorem inorder_node_eq_minimum_cons (l : Tree L R) (e : bimap_value_element L R) (k : Nat)
    (r : Tree L R) : ∃ rest, (Tree.node l e k r).inorder = minimum e l :: rest := by
  induction l generalizing e k r with
  | nil => exact ⟨r.inorder, rfl⟩
  | node ll le lk lr ihl _ =>
    obtain ⟨rest, hrest⟩ := ihl le lk lr
    refine ⟨rest ++ e :: r.inorder, ?_⟩
    rw [show (Tree.node (Tree.node ll le lk lr) e k r).inorder =
      (Tree.node ll le lk lr).inorder ++ e :: r.inorder from rfl, hrest]
    rfl

theorem head_or_inorder (after : Ptr L R) (t : Tree L R) :
    head_or after t.inorder =
      match t with
      | .nil => after
      | .node l e _ _ => .elem (minimum e l) := by
  cases t with
  | nil => rfl
  | node l e k r =>
    obtain ⟨rest, hrest⟩ := inorder_node_eq_minimum_cons l e k r
    rw [hrest]
    rfl

/-- Following a pointer into a tree and calling `next` yields the in-order
successor; above the tree, `next_climb` of the chain of parents takes over. -/
theorem locate_next (a : Nat) (t : Tree L R) (path : List (Crumb L R))
    (hnd : (t.inorder.map bimap_value_element.addr).Nodup) :
    (locate a t path).map next = list_next (next_climb path) a t.inorder := by
  induction t generalizing path with
  | nil => rfl
  | node l e k r ihl ihr =>
    simp only [Tree.inorder, List.map_append, List.map_cons, List.nodup_append,
      List.nodup_cons] at hnd
    obtain ⟨hl, ⟨her, hr⟩, hdis⟩ := hnd
    rw [show (Tree.node l e k r).inorder = l.inorder ++ e :: r.inorder from rfl,
      list_next_append]
    by_cases he : e.addr = a
    · have hla : ∀ x ∈ l.inorder, x.addr ≠ a := by
        intro x hx hxa
        exact hdis (List.mem_map_of_mem _ hx) (by rw [hxa, ← he]; simp)
      rw [list_next_absent _ a _ hla]
      simp only [locate, he, if_true, Option.map_some', list_next]
      rw [head_or_inorder]
      cases r <;> rfl
    · have ihl' := ihl (⟨e, .left⟩ :: path) hl
      have ihr' := ihr (⟨e, .right⟩ :: path) hr
      simp only [locate, he, if_false]
      have hclimb : next_climb (⟨e, .left⟩ :: path) = head_or (next_climb path) (e :: r.inorder) :=
        rfl
      rw [hclimb] at ihl'
      cases hloc : locate a l (⟨e, .left⟩ :: path) with
      | some n =>
        rw [hloc] at ihl'
        rw [← ihl']
        rfl
      | none =>
        rw [hloc] at ihl'
        rw [← ihl']
        simp only [list_next, he, if_false]
        exact ihr'

theorem list_next_mid (after : Ptr L R) (pre : List (bimap_value_element L R))
    (x : bimap_value_element L R) (post : List (bimap_value_element L R))
    (hnd : ((pre ++ x :: post).map bimap_value_element.addr).Nodup) :
    list_next after x.addr (pre ++ x :: post) = some (head_or after post) := by
  rw [list_next_append]
  have hpre : ∀ y ∈ pre, y.addr ≠ x.addr := by
    intro y hy hyx
    simp only [List.map_append, List.map_cons, List.nodup_append, List.nodup_cons] at hnd
    exact hnd.2.2 (List.mem_map_of_mem _ hy) (by rw [hyx]; simp)
  rw [list_next_absent _ _ _ hpre]
  simp [list_next]

/-- The call `next()` on a pointer to the record `x` of an index whose in-order
sequence is `pre ++ x :: post`. -/
theorem ptr_next_mid (root : Tree L R) (pre : List (bimap_value_element L R))
    (x : bimap_value_element L R) (post : List (bimap_value_element L R))
    (hin : root.inorder = pre ++ x :: post)
    (hnd : (root.inorder.map bimap_value_element.addr).Nodup) :
    Ptr.next root (.elem x) = .ok (head_or .sentinel post) := by
  have h := locate_next x.addr root [] hnd
  rw [hin, list_next_mid _ pre x post (by rw [← hin]; exact hnd)] at h
  simp only [Ptr.next]
  cases hloc : locate x.addr root [] with
  | none => rw [hloc] at h; cases h
  | some n =>
    rw [hloc] at h
    simp only [Option.map_some', Option.some.injEq] at h
    simp only [h]
    rfl

end details

namespace details

variable {L R T : Type}

theorem lower_bound_of_mem (compare : T → T → Bool) (get : bimap_value_element L R → T)
    (hord : StrictTotal compare) (root : Tree L R)
    (hs : Increasing compare get root.inorder)
    (e : bimap_value_element L R) (he : e ∈ root.inorder) :
    lower_bound compare get root (get e) = .elem e := by
  have hne : root ≠ .nil := by
    intro hnil
    rw [hnil] at he
    cases he
  rw [lower_bound_spec compare get hord.trans root (get e) hne hs,
    first_not_less_of_mem compare get hord.irrefl _ hs e he]

theorem lower_bound_cases (compare : T → T → Bool) (get : bimap_value_element L R → T)
    (htrans : ∀ a b c, compare a b = true → compare b c = true → compare a c = true)
    (root : Tree L R) (hs : Increasing compare get root.inorder) (val : T) :
    lower_bound compare get root val = .nullptr ∨
    lower_bound compare get root val = .sentinel ∨
    ∃ x ∈ root.inorder, compare (get x) val = false ∧
      lower_bound compare get root val = .elem x := by
  by_cases hne : root = .nil
  · rw [hne]
    exact Or.inl rfl
  · rw [lower_bound_spec compare get htrans root val hne hs]
    cases hf : first_not_less compare get val root.inorder with
    | none => exact Or.inr (Or.inl rfl)
    | some x =>
      obtain ⟨hx, hc⟩ := first_not_less_mem compare get val _ x hf
      exact Or.inr (Or.inr ⟨x, hx, hc, rfl⟩)

theorem locate_some_mem (a : Nat) (t : Tree L R) (path : List (Crumb L R)) (n : Node L R)
    (h : locate a t path = some n) : a ∈ t.inorder.map bimap_value_element.addr := by
  induction t generalizing path n with
  | nil => cases h
  | node l e k r ihl ihr =>
    simp only [locate] at h
    simp only [Tree.inorder, List.map_append, List.map_cons, List.mem_append, List.mem_cons]
    by_cases he : e.addr = a
    · exact Or.inr (Or.inl he.symm)
    · simp only [he, if_false] at h
      cases hloc : locate a l (⟨e, .left⟩ :: path) with
      | some m => exact Or.inl (ihl _ _ hloc)
      | none =>
        rw [hloc] at h
        exact Or.inr (Or.inr (ihr _ _ h))

theorem length_filter_addr_ne (a : Nat) (xs : List (bimap_value_element L R))
    (hnd : (xs.map bimap_value_element.addr).Nodup)
    (ha : a ∈ xs.map bimap_value_element.addr) :
    (xs.filter (fun e => decide (e.addr ≠ a))).length + 1 = xs.length := by
  induction xs with
  | nil => cases ha
  | cons x rest ih =>
    simp only [List.map_cons, List.nodup_cons] at hnd
    by_cases hx : x.addr = a
    · have hrest : ∀ y ∈ rest, y.addr ≠ a := by
        intro y hy hya
        exact hnd.1 (by rw [hx, ← hya]; exact List.mem_map_of_mem _ hy)
      simp only [List.filter_cons, hx, ne_eq, not_true_eq_false, decide_False]
      rw [filter_addr_ne_of_absent a rest hrest]
      simp
    · simp only [List.map_cons, List.mem_cons] at ha
      have ha' : a ∈ rest.map bimap_value_element.addr := by
        rcases ha with ha | ha
        · exact absurd ha.symm hx
        · exact ha
      simp only [List.filter_cons, hx, ne_eq, not_false_eq_true, decide_True, if_true,
        List.length_cons]
      rw [ih hnd.2 ha']

end details

namespace bimap

variable {L R : Type}

theorem WF.mem_right {b : bimap L R} (hb : b.WF) (e : bimap_value_element L R) :
    e ∈ b.right_root.inorder ↔ e ∈ b.left_root.inorder :=
  (hb.same_records.mem_iff).symm

theorem WF.addr_nodup_right {b : bimap L R} (hb : b.WF) :
    (b.right_root.inorder.map bimap_value_element.addr).Nodup :=
  (hb.same_records.map _).nodup_iff.mp hb.addr_nodup

theorem WF_empty (compare_left : L → L → Bool) (compare_right : R → R → Bool)
    (hl : StrictTotal compare_left) (hr : StrictTotal compare_right) :
    (empty compare_left compare_right).WF where
  left_order := hl
  right_order := hr
  left_sorted := List.Pairwise.nil
  right_sorted := List.Pairwise.nil
  same_records := List.Perm.refl _
  size_eq := rfl
  addr_nodup := List.nodup_nil
  addr_lt := fun _ h => by cases h

variable [DecidableEq L] [DecidableEq R]

theorem find_left_node_of_mem {b : bimap L R} (hb : b.WF) (e : bimap_value_element L R)
    (he : e ∈ b.left_root.inorder) : b.find_left_node e.left = .elem e := by
  unfold find_left_node
  rw [lower_bound_of_mem b.compare_left bimap_value_element.left hb.left_order _
    hb.left_sorted e he]
  simp

theorem find_right_node_of_mem {b : bimap L R} (hb : b.WF) (e : bimap_value_element L R)
    (he : e ∈ b.left_root.inorder) : b.find_right_node e.right = .elem e := by
  unfold find_right_node
  rw [lower_bound_of_mem b.compare_right bimap_value_element.right hb.right_order _
    hb.right_sorted e ((hb.mem_right e).mpr he)]
  simp

theorem find_left_node_of_absent {b : bimap L R} (hb : b.WF) (left : L)
    (h : ∀ e ∈ b.left_root.inorder, e.left ≠ left) : b.find_left_node left = .nullptr := by
  unfold find_left_node
  rcases lower_bound_cases b.compare_left bimap_value_element.left hb.left_order.trans
    b.left_root hb.left_sorted left with h1 | h1 | ⟨x, hx, _, h1⟩
  · rw [h1]
  · rw [h1]
  · rw [h1]
    simp [h x hx]

theorem find_right_node_of_absent {b : bimap L R} (hb : b.WF) (right : R)
    (h : ∀ e ∈ b.left_root.inorder, e.right ≠ right) : b.find_right_node right = .nullptr := by
  unfold find_right_node
  rcases lower_bound_cases b.compare_right bimap_value_element.right hb.right_order.trans
    b.right_root hb.right_sorted right with h1 | h1 | ⟨x, hx, _, h1⟩
  · rw [h1]
  · rw [h1]
  · rw [h1]
    simp [h x ((hb.mem_right x).mp hx)]

/-- The result of `find_left_node` is null or a stored record with the key. -/
theorem find_left_node_cases {b : bimap L R} (hb : b.WF) (left : L) :
    (b.find_left_node left = .nullptr ∧ ∀ e ∈ b.left_root.inorder, e.left ≠ left) ∨
    ∃ e ∈ b.left_root.inorder, e.left = left ∧ b.find_left_node left = .elem e := by
  by_cases h : ∃ e ∈ b.left_root.inorder, e.left = left
  · obtain ⟨e, he, hel⟩ := h
    exact Or.inr ⟨e, he, hel, by rw [← hel]; exact find_left_node_of_mem hb e he⟩
  · have h' : ∀ e ∈ b.left_root.inorder, e.left ≠ left := fun e he hel => h ⟨e, he, hel⟩
    exact Or.inl ⟨find_left_node_of_absent hb left h', h'⟩

theorem find_right_node_cases {b : bimap L R} (hb : b.WF) (right : R) :
    (b.find_right_node right = .nullptr ∧ ∀ e ∈ b.left_root.inorder, e.right ≠ right) ∨
    ∃ e ∈ b.left_root.inorder, e.right = right ∧ b.find_right_node right = .elem e := by
  by_cases h : ∃ e ∈ b.left_root.inorder, e.right = right
  · obtain ⟨e, he, hel⟩ := h
    exact Or.inr ⟨e, he, hel, by rw [← hel]; exact find_right_node_of_mem hb e he⟩
  · have h' : ∀ e ∈ b.left_root.inorder, e.right ≠ right := fun e he hel => h ⟨e, he, hel⟩
    exact Or.inl ⟨find_right_node_of_absent hb right h', h'⟩

/-- The method `find_left` on the key of a stored record returns the iterator to that
record. -/
theorem find_left_of_mem {b : bimap L R} (hb : b.WF) (e : bimap_value_element L R)
    (he : e ∈ b.left_root.inorder) : b.find_left e.left = .ok ⟨.elem e⟩ := by
  unfold find_left lower_bound_left
  rw [lower_bound_of_mem b.compare_left bimap_value_element.left hb.left_order _
    hb.left_sorted e he]
  simp [left_iterator.deref]

theorem find_right_of_mem {b : bimap L R} (hb : b.WF) (e : bimap_value_element L R)
    (he : e ∈ b.left_root.inorder) : b.find_right e.right = .ok ⟨.elem e⟩ := by
  unfold find_right lower_bound_right
  rw [lower_bound_of_mem b.compare_right bimap_value_element.right hb.right_order _
    hb.right_sorted e ((hb.mem_right e).mpr he)]
  simp [right_iterator.deref]

end bimap

namespace bimap

variable {L R : Type} [DecidableEq L] [DecidableEq R]

/-! ## `insert` -/

theorem insert_of_absent {b : bimap L R} (hb : b.WF) (left : L) (right : R)
    (hk_left hk_right : Nat)
    (hl : ∀ e ∈ b.left_root.inorder, e.left ≠ left)
    (hr : ∀ e ∈ b.left_root.inorder, e.right ≠ right) :
    b.insert left right hk_left hk_right =
      (⟨.elem ⟨b.next_addr, left, right⟩⟩, b.inserted left right hk_left hk_right) := by
  unfold insert insert_impl
  rw [find_left_node_of_absent hb left hl, find_right_node_of_absent hb right hr]
  rfl

theorem insert_of_present {b : bimap L R} (hb : b.WF) (left : L) (right : R)
    (hk_left hk_right : Nat)
    (h : (∃ e ∈ b.left_root.inorder, e.left = left) ∨
      (∃ e ∈ b.left_root.inorder, e.right = right)) :
    b.insert left right hk_left hk_right = (b.end_left, b) := by
  unfold insert insert_impl
  rcases h with ⟨e, he, hel⟩ | ⟨e, he, her⟩
  · rw [← hel, find_left_node_of_mem hb e he]
    rfl
  · rw [← her, find_right_node_of_mem hb e he]
    simp [Ptr.is_null]

theorem inserted_left_perm (b : bimap L R) (left : L) (right : R) (hk_left hk_right : Nat) :
    (b.inserted left right hk_left hk_right).left_root.inorder.Perm
      (⟨b.next_addr, left, right⟩ :: b.left_root.inorder) :=
  insert_perm _ _ _ _ _

theorem inserted_right_perm (b : bimap L R) (left : L) (right : R) (hk_left hk_right : Nat) :
    (b.inserted left right hk_left hk_right).right_root.inorder.Perm
      (⟨b.next_addr, left, right⟩ :: b.right_root.inorder) :=
  insert_perm _ _ _ _ _

theorem WF_inserted {b : bimap L R} (hb : b.WF) (left : L) (right : R)
    (hk_left hk_right : Nat)
    (hl : ∀ e ∈ b.left_root.inorder, e.left ≠ left)
    (hr : ∀ e ∈ b.left_root.inorder, e.right ≠ right) :
    (b.inserted left right hk_left hk_right).WF where
  left_order := hb.left_order
  right_order := hb.right_order
  left_sorted :=
    insert_increasing _ _ hb.left_order _ _ _ hb.left_sorted (fun x hx => hl x hx)
  right_sorted :=
    insert_increasing _ _ hb.right_order _ _ _ hb.right_sorted
      (fun x hx => hr x ((hb.mem_right x).mp hx))
  same_records :=
    (inserted_left_perm b left right hk_left hk_right).trans
      ((List.Perm.cons _ hb.same_records).trans
        (inserted_right_perm b left right hk_left hk_right).symm)
  size_eq := by
    rw [(inserted_left_perm b left right hk_left hk_right).length_eq]
    simp [inserted, hb.size_eq]
  addr_nodup := by
    rw [((inserted_left_perm b left right hk_left hk_right).map _).nodup_iff]
    simp only [List.map_cons, List.nodup_cons]
    refine ⟨?_, hb.addr_nodup⟩
    intro hmem
    obtain ⟨e, he, hea⟩ := List.mem_map.mp hmem
    have := hb.addr_lt e he
    omega
  addr_lt := by
    intro e he
    rw [(inserted_left_perm b left right hk_left hk_right).mem_iff] at he
    simp only [List.mem_cons] at he
    rcases he with he | he
    · subst he
      simp [inserted]
    · have := hb.addr_lt e he
      simp only [inserted]
      omega

/-- Every call of `insert` keeps the invariant. -/
theorem WF_insert {b : bimap L R} (hb : b.WF) (left : L) (right : R)
    (hk_left hk_right : Nat) : (b.insert left right hk_left hk_right).2.WF := by
  rcases find_left_node_cases hb left with ⟨_, hl⟩ | ⟨e, he, hel, _⟩
  · rcases find_right_node_cases hb right with ⟨_, hr⟩ | ⟨e, he, her, _⟩
    · rw [insert_of_absent hb left right hk_left hk_right hl hr]
      exact WF_inserted hb left right hk_left hk_right hl hr
    · rw [insert_of_present hb left right hk_left hk_right (Or.inr ⟨e, he, her⟩)]
      exact hb
  · rw [insert_of_present hb left right hk_left hk_right (Or.inl ⟨e, he, hel⟩)]
    exact hb

/-! ## `erase` -/

theorem erase_left_inorder {b : bimap L R} (hb : b.WF) (p : bimap_value_element L R) :
    (b.erase p).left_root.inorder =
      b.left_root.inorder.filter (fun e => decide (e.addr ≠ p.addr)) :=
  inorder_erase p.addr b.left_root hb.addr_nodup

theorem erase_right_inorder {b : bimap L R} (hb : b.WF) (p : bimap_value_element L R) :
    (b.erase p).right_root.inorder =
      b.right_root.inorder.filter (fun e => decide (e.addr ≠ p.addr)) :=
  inorder_erase p.addr b.right_root hb.addr_nodup_right

/-- The private `erase` of a record whose address is in the container keeps the
invariant. -/
theorem WF_erase {b : bimap L R} (hb : b.WF) (p : bimap_value_element L R)
    (hp : p.addr ∈ b.left_root.inorder.map bimap_value_element.addr) : (b.erase p).WF where
  left_order := hb.left_order
  right_order := hb.right_order
  left_sorted := by
    rw [erase_left_inorder hb]
    exact List.Pairwise.filter _ hb.left_sorted
  right_sorted := by
    rw [erase_right_inorder hb]
    exact List.Pairwise.filter _ hb.right_sorted
  same_records := by
    rw [erase_left_inorder hb, erase_right_inorder hb]
    exact hb.same_records.filter _
  size_eq := by
    rw [erase_left_inorder hb]
    have := length_filter_addr_ne p.addr _ hb.addr_nodup hp
    have hs := hb.size_eq
    simp only [erase]
    omega
  addr_nodup := by
    rw [erase_left_inorder hb]
    exact (List.filter_sublist _).map _ |>.nodup hb.addr_nodup
  addr_lt := by
    intro e he
    rw [erase_left_inorder hb] at he
    exact hb.addr_lt e (List.mem_of_mem_filter he)

theorem WF_erase_left {b : bimap L R} (hb : b.WF) (left : L) : (b.erase_left left).2.WF := by
  unfold erase_left
  rcases find_left_node_cases hb left with ⟨h, _⟩ | ⟨e, he, _, h⟩
  · rw [h]; exact hb
  · rw [h]; exact WF_erase hb e (List.mem_map_of_mem _ he)

theorem WF_erase_right {b : bimap L R} (hb : b.WF) (right : R) :
    (b.erase_right right).2.WF := by
  unfold erase_right
  rcases find_right_node_cases hb right with ⟨h, _⟩ | ⟨e, he, _, h⟩
  · rw [h]; exact hb
  · rw [h]; exact WF_erase hb e (List.mem_map_of_mem _ he)

theorem WF_erase_left_it {b : bimap L R} (hb : b.WF) (it : left_iterator L R)
    (res : left_iterator L R × bimap L R) (h : b.erase_left_it it = .ok res) : res.2.WF := by
  unfold erase_left_it incr_left at h
  cases hn : it.node with
  | nullptr => simp [hn, Ptr.next, Except.map] at h
  | sentinel => simp [hn, Ptr.next, Except.map] at h
  | elem e =>
    simp only [hn, Ptr.next] at h
    cases hloc : locate e.addr b.left_root [] with
    | none => simp [hloc, Except.map] at h
    | some n =>
      simp only [hloc, Except.map, Except.ok.injEq] at h
      rw [← h]
      exact WF_erase hb e (locate_some_mem _ _ _ _ hloc)

theorem WF_erase_right_it {b : bimap L R} (hb : b.WF) (it : right_iterator L R)
    (res : right_iterator L R × bimap L R) (h : b.erase_right_it it = .ok res) : res.2.WF := by
  unfold erase_right_it incr_right at h
  cases hn : it.node with
  | nullptr => simp [hn, Ptr.next, Except.map] at h
  | sentinel => simp [hn, Ptr.next, Except.map] at h
  | elem e =>
    simp only [hn, Ptr.next] at h
    cases hloc : locate e.addr b.right_root [] with
    | none => simp [hloc, Except.map] at h
    | some n =>
      simp only [hloc, Except.map, Except.ok.injEq] at h
      rw [← h]
      refine WF_erase hb e ?_
      have := locate_some_mem _ _ _ _ hloc
      exact ((hb.same_records.map _).mem_iff).mpr this

end bimap

namespace bimap

variable {L R : Type} [DecidableEq L] [DecidableEq R]

/-! ## Iteration -/

/-- Iterating the left index from the record `x` to `end_left()` reads `x` and the
records after it, in order. -/
theorem walk_left_from {b : bimap L R}
    (hnd : (b.left_root.inorder.map bimap_value_element.addr).Nodup)
    (post pre : List (bimap_value_element L R)) (x : bimap_value_element L R) (fuel : Nat)
    (hin : b.left_root.inorder = pre ++ x :: post) (hfuel : post.length + 2 ≤ fuel) :
    b.walk_left fuel ⟨.elem x⟩ = .ok ((x :: post).map (fun e => (e.left, e.right))) := by
  induction post generalizing pre x fuel with
  | nil =>
    obtain ⟨f, rfl⟩ : ∃ f, fuel = f + 1 := ⟨fuel - 1, by simp at hfuel; omega⟩
    obtain ⟨g, rfl⟩ : ∃ g, f = g + 1 := ⟨f - 1, by simp at hfuel; omega⟩
    have hnext := ptr_next_mid b.left_root pre x [] hin hnd
    simp [walk_left, left_iterator.eq, end_left, Ptr.same, left_iterator.deref,
      left_iterator.flip, right_iterator.deref, incr_left, hnext, Except.map, head_or]
  | cons y post ih =>
    obtain ⟨f, rfl⟩ : ∃ f, fuel = f + 1 := ⟨fuel - 1, by simp at hfuel; omega⟩
    have hnext := ptr_next_mid b.left_root pre x (y :: post) hin hnd
    have hrec := ih (pre ++ [x]) y f (by simp [hin]) (by simp at hfuel ⊢; omega)
    simp only [walk_left, left_iterator.eq, end_left, Ptr.same, left_iterator.deref,
      left_iterator.flip, right_iterator.deref, incr_left, hnext, Except.map, head_or]
    simp [hrec]

/-- Iterating from `begin_left()` to `end_left()` ends within `size() + 1` steps of
the loop and reads the pairs in the order of the left index. -/
theorem walk_left_begin {b : bimap L R}
    (hnd : (b.left_root.inorder.map bimap_value_element.addr).Nodup) (fuel : Nat)
    (hfuel : b.left_root.inorder.length + 1 ≤ fuel) :
    b.walk_left fuel b.begin_left = .ok b.left_pairs := by
  unfold begin_left left_pairs
  cases hroot : b.left_root with
  | nil =>
    obtain ⟨f, rfl⟩ : ∃ f, fuel = f + 1 := ⟨fuel - 1, by omega⟩
    simp [walk_left, left_iterator.eq, end_left, Ptr.same, Tree.inorder]
  | node l e k r =>
    obtain ⟨rest, hrest⟩ := inorder_node_eq_minimum_cons l e k r
    simp only []
    rw [hroot, hrest] at hfuel
    have := walk_left_from hnd rest [] (minimum e l) fuel (by rw [hroot, hrest]; rfl)
      (by simp at hfuel ⊢; omega)
    rw [this, hrest]

theorem walk_right_from {b : bimap L R}
    (hnd : (b.right_root.inorder.map bimap_value_element.addr).Nodup)
    (post pre : List (bimap_value_element L R)) (x : bimap_value_element L R) (fuel : Nat)
    (hin : b.right_root.inorder = pre ++ x :: post) (hfuel : post.length + 2 ≤ fuel) :
    b.walk_right fuel ⟨.elem x⟩ = .ok ((x :: post).map (fun e => (e.left, e.right))) := by
  induction post generalizing pre x fuel with
  | nil =>
    obtain ⟨f, rfl⟩ : ∃ f, fuel = f + 1 := ⟨fuel - 1, by simp at hfuel; omega⟩
    obtain ⟨g, rfl⟩ : ∃ g, f = g + 1 := ⟨f - 1, by simp at hfuel; omega⟩
    have hnext := ptr_next_mid b.right_root pre x [] hin hnd
    simp [walk_right, right_iterator.eq, end_right, Ptr.same, left_iterator.deref,
      right_iterator.flip, right_iterator.deref, incr_right, hnext, Except.map, head_or]
  | cons y post ih =>
    obtain ⟨f, rfl⟩ : ∃ f, fuel = f + 1 := ⟨fuel - 1, by simp at hfuel; omega⟩
    have hnext := ptr_next_mid b.right_root pre x (y :: post) hin hnd
    have hrec := ih (pre ++ [x]) y f (by simp [hin]) (by simp at hfuel ⊢; omega)
    simp only [walk_right, right_iterator.eq, end_right, Ptr.same, left_iterator.deref,
      right_iterator.flip, right_iterator.deref, incr_right, hnext, Except.map, head_or]
    simp [hrec]

theorem walk_right_begin {b : bimap L R}
    (hnd : (b.right_root.inorder.map bimap_value_element.addr).Nodup) (fuel : Nat)
    (hfuel : b.right_root.inorder.length + 1 ≤ fuel) :
    b.walk_right fuel b.begin_right = .ok b.right_pairs := by
  unfold begin_right right_pairs
  cases hroot : b.right_root with
  | nil =>
    obtain ⟨f, rfl⟩ : ∃ f, fuel = f + 1 := ⟨fuel - 1, by omega⟩
    simp [walk_right, right_iterator.eq, end_right, Ptr.same, Tree.inorder]
  | node l e k r =>
    obtain ⟨rest, hrest⟩ := inorder_node_eq_minimum_cons l e k r
    simp only []
    rw [hroot, hrest] at hfuel
    have := walk_right_from hnd rest [] (minimum e l) fuel (by rw [hroot, hrest]; rfl)
      (by simp at hfuel ⊢; omega)
    rw [this, hrest]

/-! ## Reachable containers -/

theorem WF_erase_left_range (fuel : Nat) {b : bimap L R} (hb : b.WF)
    (first last : left_iterator L R) (res : left_iterator L R × bimap L R)
    (h : erase_left_range fuel b first last = .ok res) : res.2.WF := by
  induction fuel generalizing b first with
  | zero => simp [erase_left_range] at h
  | succ fuel ih =>
    simp only [erase_left_range] at h
    split at h
    · simp only [Except.ok.injEq] at h
      rw [← h]; exact hb
    · split at h
      · cases h
      · split at h
        · cases h
        · rename_i res1 hres1
          exact ih (WF_erase_left_it hb first res1 hres1) _ h

theorem WF_erase_right_range (fuel : Nat) {b : bimap L R} (hb : b.WF)
    (first last : right_iterator L R) (res : right_iterator L R × bimap L R)
    (h : erase_right_range fuel b first last = .ok res) : res.2.WF := by
  induction fuel generalizing b first with
  | zero => simp [erase_right_range] at h
  | succ fuel ih =>
    simp only [erase_right_range] at h
    split at h
    · simp only [Except.ok.injEq] at h
      rw [← h]; exact hb
    · split at h
      · cases h
      · split at h
        · cases h
        · rename_i res1 hres1
          exact ih (WF_erase_right_it hb first res1 hres1) _ h

/-- The state in which `at_left_or_default` calls `insert`: the container itself,
or the container after `erase_right(def_it)` and `erase_left(def)`. -/
theorem at_left_or_default_cases (to_left : R → L) (dflt : R) (b : bimap L R) (key : L)
    (hk_left hk_right : Nat) (res : R × bimap L R)
    (h : at_left_or_default to_left dflt b key hk_left hk_right = .ok res) :
    res.2 = b ∨ res.2 = (b.insert key dflt hk_left hk_right).2 ∨
    ∃ def_it res1, b.erase_right_it def_it = .ok res1 ∧
      res.2 = ((res1.2.erase_left (to_left dflt)).2.insert key dflt hk_left hk_right).2 := by
  unfold at_left_or_default at h
  cases hfl : b.find_left key with
  | error f => simp [hfl] at h
  | ok it =>
    simp only [hfl] at h
    by_cases hit : it.eq b.end_left = true
    · simp only [hit, if_true] at h
      cases hfr : b.find_right dflt with
      | error f => simp [hfr] at h
      | ok def_it =>
        simp only [hfr] at h
        by_cases hd : def_it.eq b.end_right = true
        · simp only [hd, Bool.not_true, Bool.false_eq_true, if_false] at h
          split at h
          · cases h
          · simp only [Except.ok.injEq] at h
            rw [← h]
            exact Or.inr (Or.inl rfl)
        · have hd' : def_it.eq b.end_right = false := by simpa using hd
          simp only [hd', Bool.not_false, if_true] at h
          cases her : b.erase_right_it def_it with
          | error f => simp [her] at h
          | ok res1 =>
            simp only [her] at h
            split at h
            · cases h
            · simp only [Except.ok.injEq] at h
              rw [← h]
              exact Or.inr (Or.inr ⟨def_it, res1, her, rfl⟩)
    · have hit' : it.eq b.end_left = false := by simpa using hit
      simp only [hit', Bool.false_eq_true, if_false] at h
      split at h
      · cases h
      · simp only [Except.ok.injEq] at h
        rw [← h]
        exact Or.inl rfl

theorem at_right_or_default_cases (to_right : L → R) (dflt : L) (b : bimap L R) (key : R)
    (hk_left hk_right : Nat) (res : L × bimap L R)
    (h : at_right_or_default to_right dflt b key hk_left hk_right = .ok res) :
    res.2 = b ∨ res.2 = (b.insert dflt key hk_left hk_right).2 ∨
    ∃ def_it res1, b.erase_left_it def_it = .ok res1 ∧
      res.2 = ((res1.2.erase_right (to_right dflt)).2.insert dflt key hk_left hk_right).2 := by
  unfold at_right_or_default at h
  cases hfl : b.find_right key with
  | error f => simp [hfl] at h
  | ok it =>
    simp only [hfl] at h
    by_cases hit : it.eq b.end_right = true
    · simp only [hit, if_true] at h
      cases hfr : b.find_left dflt with
      | error f => simp [hfr] at h
      | ok def_it =>
        simp only [hfr] at h
        by_cases hd : def_it.eq b.end_left = true
        · simp only [hd, Bool.not_true, Bool.false_eq_true, if_false] at h
          split at h
          · cases h
          · simp only [Except.ok.injEq] at h
            rw [← h]
            exact Or.inr (Or.inl rfl)
        · have hd' : def_it.eq b.end_left = false := by simpa using hd
          simp only [hd', Bool.not_false, if_true] at h
          cases her : b.erase_left_it def_it with
          | error f => simp [her] at h
          | ok res1 =>
            simp only [her] at h
            split at h
            · cases h
            · simp only [Except.ok.injEq] at h
              rw [← h]
              exact Or.inr (Or.inr ⟨def_it, res1, her, rfl⟩)
    · have hit' : it.eq b.end_right = false := by simpa using hit
      simp only [hit', Bool.false_eq_true, if_false] at h
      split at h
      · cases h
      · simp only [Except.ok.injEq] at h
        rw [← h]
        exact Or.inl rfl

theorem WF_at_left_or_default {b : bimap L R} (hb : b.WF) (to_left : R → L) (dflt : R)
    (key : L) (hk_left hk_right : Nat) (res : R × bimap L R)
    (h : at_left_or_default to_left dflt b key hk_left hk_right = .ok res) : res.2.WF := by
  rcases at_left_or_default_cases to_left dflt b key hk_left hk_right res h with
    h1 | h1 | ⟨def_it, res1, her, h1⟩
  · rw [h1]; exact hb
  · rw [h1]; exact WF_insert hb _ _ _ _
  · rw [h1]
    exact WF_insert (WF_erase_left (WF_erase_right_it hb def_it res1 her) _) _ _ _ _

theorem WF_at_right_or_default {b : bimap L R} (hb : b.WF) (to_right : L → R) (dflt : L)
    (key : R) (hk_left hk_right : Nat) (res : L × bimap L R)
    (h : at_right_or_default to_right dflt b key hk_left hk_right = .ok res) : res.2.WF := by
  rcases at_right_or_default_cases to_right dflt b key hk_left hk_right res h with
    h1 | h1 | ⟨def_it, res1, her, h1⟩
  · rw [h1]; exact hb
  · rw [h1]; exact WF_insert hb _ _ _ _
  · rw [h1]
    exact WF_insert (WF_erase_right (WF_erase_left_it hb def_it res1 her) _) _ _ _ _

/-- Every container built from the empty one over totally ordered keys satisfies the
invariant. -/
theorem Reachable.wf {compare_left : L → L → Bool} {compare_right : R → R → Bool}
    (hl : StrictTotal compare_left) (hr : StrictTotal compare_right) {b : bimap L R}
    (h : Reachable compare_left compare_right b) : b.WF := by
  induction h with
  | empty => exact WF_empty _ _ hl hr
  | insert left right hk_left hk_right _ ih => exact WF_insert ih _ _ _ _
  | erase_left left _ ih => exact WF_erase_left ih _
  | erase_right right _ ih => exact WF_erase_right ih _
  | erase_left_it it res _ hres ih => exact WF_erase_left_it ih it res hres
  | erase_right_it it res _ hres ih => exact WF_erase_right_it ih it res hres
  | erase_left_range fuel first last res _ hres ih =>
    exact WF_erase_left_range fuel ih first last res hres
  | erase_right_range fuel first last res _ hres ih =>
    exact WF_erase_right_range fuel ih first last res hres
  | at_left_or_default to_left dflt key hk_left hk_right res _ hres ih =>
    exact WF_at_left_or_default ih to_left dflt key hk_left hk_right res hres
  | at_right_or_default to_right dflt key hk_left hk_right res _ hres ih =>
    exact WF_at_right_or_default ih to_right dflt key hk_left hk_right res hres

theorem insert_compare (b : bimap L R) (left : L) (right : R) (hk_left hk_right : Nat) :
    (b.insert left right hk_left hk_right).2.compare_left = b.compare_left ∧
    (b.insert left right hk_left hk_right).2.compare_right = b.compare_right := by
  unfold insert insert_impl
  split <;> exact ⟨rfl, rfl⟩

theorem erase_left_compare (b : bimap L R) (left : L) :
    (b.erase_left left).2.compare_left = b.compare_left ∧
    (b.erase_left left).2.compare_right = b.compare_right := by
  unfold erase_left
  split <;> exact ⟨rfl, rfl⟩

theorem erase_right_compare (b : bimap L R) (right : R) :
    (b.erase_right right).2.compare_left = b.compare_left ∧
    (b.erase_right right).2.compare_right = b.compare_right := by
  unfold erase_right
  split <;> exact ⟨rfl, rfl⟩

theorem erase_left_it_compare (b : bimap L R) (it : left_iterator L R)
    (res : left_iterator L R × bimap L R) (h : b.erase_left_it it = .ok res) :
    res.2.compare_left = b.compare_left ∧ res.2.compare_right = b.compare_right := by
  unfold erase_left_it at h
  split at h
  · cases h
  · split at h
    · simp only [Except.ok.injEq] at h
      rw [← h]; exact ⟨rfl, rfl⟩
    · cases h

theorem erase_right_it_compare (b : bimap L R) (it : right_iterator L R)
    (res : right_iterator L R × bimap L R) (h : b.erase_right_it it = .ok res) :
    res.2.compare_left = b.compare_left ∧ res.2.compare_right = b.compare_right := by
  unfold erase_right_it at h
  split at h
  · cases h
  · split at h
    · simp only [Except.ok.injEq] at h
      rw [← h]; exact ⟨rfl, rfl⟩
    · cases h

theorem erase_left_range_compare (fuel : Nat) (b : bimap L R)
    (first last : left_iterator L R) (res : left_iterator L R × bimap L R)
    (h : erase_left_range fuel b first last = .ok res) :
    res.2.compare_left = b.compare_left ∧ res.2.compare_right = b.compare_right := by
  induction fuel generalizing b first with
  | zero => simp [erase_left_range] at h
  | succ fuel ih =>
    simp only [erase_left_range] at h
    split at h
    · simp only [Except.ok.injEq] at h
      rw [← h]; exact ⟨rfl, rfl⟩
    · split at h
      · cases h
      · split at h
        · cases h
        · rename_i res1 hres1
          have h1 := erase_left_it_compare b first res1 hres1
          have h2 := ih _ _ h
          exact ⟨h2.1.trans h1.1, h2.2.trans h1.2⟩

theorem erase_right_range_compare (fuel : Nat) (b : bimap L R)
    (first last : right_iterator L R) (res : right_iterator L R × bimap L R)
    (h : erase_right_range fuel b first last = .ok res) :
    res.2.compare_left = b.compare_left ∧ res.2.compare_right = b.compare_right := by
  induction fuel generalizing b first with
  | zero => simp [erase_right_range] at h
  | succ fuel ih =>
    simp only [erase_right_range] at h
    split at h
    · simp only [Except.ok.injEq] at h
      rw [← h]; exact ⟨rfl, rfl⟩
    · split at h
      · cases h
      · split at h
        · cases h
        · rename_i res1 hres1
          have h1 := erase_right_it_compare b first res1 hres1
          have h2 := ih _ _ h
          exact ⟨h2.1.trans h1.1, h2.2.trans h1.2⟩

theorem at_left_or_default_compare (b : bimap L R) (to_left : R → L) (dflt : R)
    (key : L) (hk_left hk_right : Nat) (res : R × bimap L R)
    (h : at_left_or_default to_left dflt b key hk_left hk_right = .ok res) :
    res.2.compare_left = b.compare_left ∧ res.2.compare_right = b.compare_right := by
  rcases at_left_or_default_cases to_left dflt b key hk_left hk_right res h with
    h1 | h1 | ⟨def_it, res1, her, h1⟩
  · rw [h1]; exact ⟨rfl, rfl⟩
  · rw [h1]; exact insert_compare b _ _ _ _
  · rw [h1]
    have h2 := erase_right_it_compare b def_it res1 her
    have h3 := erase_left_compare res1.2 (to_left dflt)
    have h4 := insert_compare (res1.2.erase_left (to_left dflt)).2 key dflt hk_left hk_right
    exact ⟨h4.1.trans (h3.1.trans h2.1), h4.2.trans (h3.2.trans h2.2)⟩

theorem at_right_or_default_compare (b : bimap L R) (to_right : L → R) (dflt : L)
    (key : R) (hk_left hk_right : Nat) (res : L × bimap L R)
    (h : at_right_or_default to_right dflt b key hk_left hk_right = .ok res) :
    res.2.compare_left = b.compare_left ∧ res.2.compare_right = b.compare_right := by
  rcases at_right_or_default_cases to_right dflt b key hk_left hk_right res h with
    h1 | h1 | ⟨def_it, res1, her, h1⟩
  · rw [h1]; exact ⟨rfl, rfl⟩
  · rw [h1]; exact insert_compare b _ _ _ _
  · rw [h1]
    have h2 := erase_left_it_compare b def_it res1 her
    have h3 := erase_right_compare res1.2 (to_right dflt)
    have h4 := insert_compare (res1.2.erase_right (to_right dflt)).2 dflt key hk_left hk_right
    exact ⟨h4.1.trans (h3.1.trans h2.1), h4.2.trans (h3.2.trans h2.2)⟩

/-- The comparators of a reachable container are the ones it was constructed with. -/
theorem Reachable.compare_eq {compare_left : L → L → Bool} {compare_right : R → R → Bool}
    {b : bimap L R} (h : Reachable compare_left compare_right b) :
    b.compare_left = compare_left ∧ b.compare_right = compare_right := by
  induction h with
  | empty => exact ⟨rfl, rfl⟩
  | @insert b left right hk_left hk_right _ ih =>
    have := insert_compare b left right hk_left hk_right
    exact ⟨this.1.trans ih.1, this.2.trans ih.2⟩
  | @erase_left b left _ ih =>
    have := erase_left_compare b left
    exact ⟨this.1.trans ih.1, this.2.trans ih.2⟩
  | @erase_right b right _ ih =>
    have := erase_right_compare b right
    exact ⟨this.1.trans ih.1, this.2.trans ih.2⟩
  | @erase_left_it b it res _ hres ih =>
    have := erase_left_it_compare b it res hres
    exact ⟨this.1.trans ih.1, this.2.trans ih.2⟩
  | @erase_right_it b it res _ hres ih =>
    have := erase_right_it_compare b it res hres
    exact ⟨this.1.trans ih.1, this.2.trans ih.2⟩
  | @erase_left_range b fuel first last res _ hres ih =>
    have := erase_left_range_compare fuel b first last res hres
    exact ⟨this.1.trans ih.1, this.2.trans ih.2⟩
  | @erase_right_range b fuel first last res _ hres ih =>
    have := erase_right_range_compare fuel b first last res hres
    exact ⟨this.1.trans ih.1, this.2.trans ih.2⟩
  | @at_left_or_default b to_left dflt key hk_left hk_right res _ hres ih =>
    have := at_left_or_default_compare b to_left dflt key hk_left hk_right res hres
    exact ⟨this.1.trans ih.1, this.2.trans ih.2⟩
  | @at_right_or_default b to_right dflt key hk_left hk_right res _ hres ih =>
    have := at_right_or_default_compare b to_right dflt key hk_left hk_right res hres
    exact ⟨this.1.trans ih.1, this.2.trans ih.2⟩

end bimap

namespace bimap

variable {L R : Type} [DecidableEq L] [DecidableEq R]

/-! ## Pairs and lookups -/

theorem mem_left_pairs {b : bimap L R} (p : L × R) :
    p ∈ b.left_pairs ↔ ∃ e ∈ b.left_root.inorder, e.left = p.1 ∧ e.right = p.2 := by
  unfold left_pairs
  simp only [List.mem_map]
  constructor
  · rintro ⟨e, he, rfl⟩
    exact ⟨e, he, rfl, rfl⟩
  · rintro ⟨e, he, h1, h2⟩
    exact ⟨e, he, by rw [h1, h2]⟩

theorem right_pairs_perm {b : bimap L R} (hb : b.WF) : b.left_pairs.Perm b.right_pairs :=
  hb.same_records.map _

/-- A stored pair is found from the left side. -/
theorem find_left_of_pair {b : bimap L R} (hb : b.WF) (p : L × R) (hp : p ∈ b.left_pairs) :
    ∃ it, b.find_left p.1 = .ok it ∧ it.eq b.end_left = false ∧
      it.deref = .ok p.1 ∧ it.flip.deref = .ok p.2 := by
  obtain ⟨e, he, h1, h2⟩ := (mem_left_pairs p).mp hp
  refine ⟨⟨.elem e⟩, ?_, rfl, ?_, ?_⟩
  · rw [← h1]; exact find_left_of_mem hb e he
  · rw [← h1]; rfl
  · rw [← h2]; rfl

/-- A stored pair is found from the right side. -/
theorem find_right_of_pair {b : bimap L R} (hb : b.WF) (p : L × R) (hp : p ∈ b.left_pairs) :
    ∃ it, b.find_right p.2 = .ok it ∧ it.eq b.end_right = false ∧
      it.deref = .ok p.2 ∧ it.flip.deref = .ok p.1 := by
  obtain ⟨e, he, h1, h2⟩ := (mem_left_pairs p).mp hp
  refine ⟨⟨.elem e⟩, ?_, rfl, ?_, ?_⟩
  · rw [← h2]; exact find_right_of_mem hb e he
  · rw [← h2]; rfl
  · rw [← h1]; rfl

/-- Under the invariant no two distinct stored records have left values that are
equivalent under `CompareLeft`. -/
theorem WF.left_unique {b : bimap L R} (hb : b.WF) (e1 e2 : bimap_value_element L R)
    (h1 : e1 ∈ b.left_root.inorder) (h2 : e2 ∈ b.left_root.inorder)
    (heq : key_equiv b.compare_left e1.left e2.left) : e1 = e2 := by
  have hk : e1.left = e2.left := hb.left_order.total _ _ heq.1 heq.2
  have f1 := find_left_node_of_mem hb e1 h1
  have f2 := find_left_node_of_mem hb e2 h2
  rw [hk, f2] at f1
  exact (Ptr.elem.inj f1).symm

/-- Under the invariant no two distinct stored records have right values that are
equivalent under `CompareRight`. -/
theorem WF.right_unique {b : bimap L R} (hb : b.WF) (e1 e2 : bimap_value_element L R)
    (h1 : e1 ∈ b.left_root.inorder) (h2 : e2 ∈ b.left_root.inorder)
    (heq : key_equiv b.compare_right e1.right e2.right) : e1 = e2 := by
  have hk : e1.right = e2.right := hb.right_order.total _ _ heq.1 heq.2
  have f1 := find_right_node_of_mem hb e1 h1
  have f2 := find_right_node_of_mem hb e2 h2
  rw [hk, f2] at f1
  exact (Ptr.elem.inj f1).symm

theorem inserted_left_pairs_perm (b : bimap L R) (left : L) (right : R)
    (hk_left hk_right : Nat) :
    (b.inserted left right hk_left hk_right).left_pairs.Perm ((left, right) :: b.left_pairs) :=
  (inserted_left_perm b left right hk_left hk_right).map _

theorem inserted_right_pairs_perm (b : bimap L R) (left : L) (right : R)
    (hk_left hk_right : Nat) :
    (b.inserted left right hk_left hk_right).right_pairs.Perm
      ((left, right) :: b.right_pairs) :=
  (inserted_right_perm b left right hk_left hk_right).map _

theorem absent_of_pairs {b : bimap L R} (left : L) (h : ∀ p ∈ b.left_pairs, p.1 ≠ left) :
    ∀ e ∈ b.left_root.inorder, e.left ≠ left :=
  fun e he => h (e.left, e.right) ((mem_left_pairs _).mpr ⟨e, he, rfl, rfl⟩)

theorem absent_of_pairs_right {b : bimap L R} (right : R)
    (h : ∀ p ∈ b.left_pairs, p.2 ≠ right) :
    ∀ e ∈ b.left_root.inorder, e.right ≠ right :=
  fun e he => h (e.left, e.right) ((mem_left_pairs _).mpr ⟨e, he, rfl, rfl⟩)

/-- After a run of `insert` calls the invariant holds, and the pairs stored before
the run and the pairs whose call succeeded are all stored. -/
theorem insert_all_spec (calls : List (L × R × Nat × Nat)) {b : bimap L R} (hb : b.WF) :
    (b.insert_all calls).1.WF ∧
    ∀ p, (p ∈ b.left_pairs ∨ p ∈ (b.insert_all calls).2) →
      p ∈ (b.insert_all calls).1.left_pairs := by
  induction calls generalizing b with
  | nil =>
    refine ⟨hb, ?_⟩
    intro p hp
    rcases hp with hp | hp
    · exact hp
    · cases hp
  | cons c rest ih =>
    obtain ⟨l, r, hk_left, hk_right⟩ := c
    rcases find_left_node_cases hb l with ⟨_, hl⟩ | ⟨e, he, hel, _⟩
    · rcases find_right_node_cases hb r with ⟨_, hr⟩ | ⟨e, he, her, _⟩
      · have hins := insert_of_absent hb l r hk_left hk_right hl hr
        have hwf := WF_inserted hb l r hk_left hk_right hl hr
        obtain ⟨ih1, ih2⟩ := ih hwf
        simp only [insert_all, hins]
        refine ⟨ih1, ?_⟩
        intro p hp
        apply ih2
        have hperm := inserted_left_pairs_perm b l r hk_left hk_right
        rcases hp with hp | hp
        · exact Or.inl (hperm.mem_iff.mpr (List.mem_cons_of_mem _ hp))
        · simp only [left_iterator.eq, end_left, Ptr.same, Bool.false_eq_true, if_false,
            List.mem_cons] at hp
          rcases hp with hp | hp
          · exact Or.inl (hperm.mem_iff.mpr (by rw [hp]; exact List.mem_cons_self _ _))
          · exact Or.inr hp
      · have hins := insert_of_present hb l r hk_left hk_right (Or.inr ⟨e, he, her⟩)
        obtain ⟨ih1, ih2⟩ := ih hb
        simp only [insert_all, hins]
        refine ⟨ih1, ?_⟩
        intro p hp
        apply ih2
        simpa [left_iterator.eq, end_left, Ptr.same] using hp
    · have hins := insert_of_present hb l r hk_left hk_right (Or.inl ⟨e, he, hel⟩)
      obtain ⟨ih1, ih2⟩ := ih hb
      simp only [insert_all, hins]
      refine ⟨ih1, ?_⟩
      intro p hp
      apply ih2
      simpa [left_iterator.eq, end_left, Ptr.same] using hp

end bimap


/-! ## Facts about the example instances -/

theorem nat_less_strict_total : StrictTotal nat_less where
  irrefl := by intro a; simp [nat_less]
  trans := by
    intro a b c h1 h2
    simp only [nat_less, decide_eq_true_eq] at *
    omega
  total := by
    intro a b h1 h2
    simp only [nat_less, decide_eq_false_iff_not] at *
    omega

theorem tens_less_strict_weak : StrictWeak tens_less where
  irrefl := by intro a; simp [tens_less]
  trans := by
    intro a b c h1 h2
    simp only [tens_less, decide_eq_true_eq] at *
    omega
  incomp_trans := by
    intro a b c h1 h2 h3 h4
    simp only [tens_less, decide_eq_false_iff_not] at *
    omega

theorem sample_two_reachable : bimap.Reachable nat_less nat_less sample_two :=
  .insert 2 80 9 1 (.insert 5 50 7 3 .empty)

theorem sample_three_reachable : bimap.Reachable nat_less nat_less sample_three :=
  .insert 8 10 4 6 sample_two_reachable

theorem sample_two_wf : sample_two.WF :=
  sample_two_reachable.wf nat_less_strict_total nat_less_strict_total

theorem sample_three_wf : sample_three.WF :=
  sample_three_reachable.wf nat_less_strict_total nat_less_strict_total

theorem sample_erased_reachable : bimap.Reachable nat_less nat_less sample_erased :=
  .erase_left 5 sample_three_reachable

/-! ## The claims

The statements about `insert`, `find_left`, iteration, `operator==` and the copy
constructor are first proved over totally ordered keys; what the same calls do
under a strict weak ordering whose equivalence is coarser than equality is
evaluated at the end of the file. -/

namespace bimap

variable {L R : Type} [DecidableEq L] [DecidableEq R]

/-- Over totally ordered keys, in a container that satisfies the invariant `WF`,
`insert(l, r)` of a pair whose left value is not stored on the left and whose
right value is not stored on the right, with any heap keys drawn, returns a left
iterator that dereferences to `l` and whose `flip()` dereferences to `r`;
`size()` grows by one; the invariant still holds; the pairs of the left index
and of the right index are the earlier ones plus `(l, r)`, and iteration from
`begin_left()` reads exactly them; `find_left(l)` returns the iterator that
`insert` returned; every pair stored before is still found by `find_left` and by
`find_right`, with the same counterpart. -/
theorem insert_fresh_pair (b : bimap L R) (hb : b.WF) (l : L) (r : R)
    (hk_left hk_right : Nat)
    (hl : ∀ p ∈ b.left_pairs, p.1 ≠ l) (hr : ∀ p ∈ b.left_pairs, p.2 ≠ r) :
    (b.insert l r hk_left hk_right).1.deref = .ok l ∧
    (b.insert l r hk_left hk_right).1.flip.deref = .ok r ∧
    (b.insert l r hk_left hk_right).2.size = b.size + 1 ∧
    (b.insert l r hk_left hk_right).2.WF ∧
    (b.insert l r hk_left hk_right).2.left_pairs.Perm ((l, r) :: b.left_pairs) ∧
    (b.insert l r hk_left hk_right).2.right_pairs.Perm ((l, r) :: b.right_pairs) ∧
    (b.insert l r hk_left hk_right).2.walk_left
        ((b.insert l r hk_left hk_right).2.size + 1)
        (b.insert l r hk_left hk_right).2.begin_left =
      .ok (b.insert l r hk_left hk_right).2.left_pairs ∧
    (b.insert l r hk_left hk_right).2.find_left l = .ok (b.insert l r hk_left hk_right).1 ∧
    (∀ p ∈ b.left_pairs, ∃ it,
      (b.insert l r hk_left hk_right).2.find_left p.1 = .ok it ∧
      it.deref = .ok p.1 ∧ it.flip.deref = .ok p.2) ∧
    (∀ p ∈ b.left_pairs, ∃ it,
      (b.insert l r hk_left hk_right).2.find_right p.2 = .ok it ∧
      it.deref = .ok p.2 ∧ it.flip.deref = .ok p.1) := by
  have hl' := absent_of_pairs l hl
  have hr' := absent_of_pairs_right r hr
  have hwf := WF_inserted hb l r hk_left hk_right hl' hr'
  have hperm := inserted_left_pairs_perm b l r hk_left hk_right
  rw [insert_of_absent hb l r hk_left hk_right hl' hr']
  refine ⟨rfl, rfl, rfl, hwf, hperm, inserted_right_pairs_perm b l r hk_left hk_right,
    ?_, ?_, ?_, ?_⟩
  · exact walk_left_begin hwf.addr_nodup _ (by rw [size, hwf.size_eq])
  · exact find_left_of_mem hwf ⟨b.next_addr, l, r⟩
      ((inserted_left_perm b l r hk_left hk_right).mem_iff.mpr (List.mem_cons_self _ _))
  · intro p hp
    obtain ⟨it, h1, _, h2, h3⟩ :=
      find_left_of_pair hwf p (hperm.mem_iff.mpr (List.mem_cons_of_mem _ hp))
    exact ⟨it, h1, h2, h3⟩
  · intro p hp
    obtain ⟨it, h1, _, h2, h3⟩ :=
      find_right_of_pair hwf p (hperm.mem_iff.mpr (List.mem_cons_of_mem _ hp))
    exact ⟨it, h1, h2, h3⟩

/-- Over totally ordered keys, in a container that satisfies the invariant `WF`,
`insert(l, r)` with `l` stored on the left or `r` stored on the right returns
`end_left()` and leaves the container as it was: the same state, hence the same
`size()` and the same sequences read by iterating the left index and the right
index. -/
theorem insert_present_rejected (b : bimap L R) (hb : b.WF) (l : L) (r : R)
    (hk_left hk_right : Nat)
    (h : (∃ p ∈ b.left_pairs, p.1 = l) ∨ (∃ p ∈ b.left_pairs, p.2 = r)) :
    (b.insert l r hk_left hk_right).1 = b.end_left ∧
    (b.insert l r hk_left hk_right).2 = b ∧
    (b.insert l r hk_left hk_right).2.size = b.size ∧
    (∀ fuel, (b.insert l r hk_left hk_right).2.walk_left fuel
        (b.insert l r hk_left hk_right).2.begin_left = b.walk_left fuel b.begin_left) ∧
    (∀ fuel, (b.insert l r hk_left hk_right).2.walk_right fuel
        (b.insert l r hk_left hk_right).2.begin_right = b.walk_right fuel b.begin_right) := by
  have h' : (∃ e ∈ b.left_root.inorder, e.left = l) ∨
      (∃ e ∈ b.left_root.inorder, e.right = r) := by
    rcases h with ⟨p, hp, hpl⟩ | ⟨p, hp, hpr⟩
    · obtain ⟨e, he, h1, _⟩ := (mem_left_pairs p).mp hp
      exact Or.inl ⟨e, he, h1.trans hpl⟩
    · obtain ⟨e, he, _, h2⟩ := (mem_left_pairs p).mp hp
      exact Or.inr ⟨e, he, h2.trans hpr⟩
  rw [insert_of_present hb l r hk_left hk_right h']
  exact ⟨rfl, rfl, rfl, fun _ => rfl, fun _ => rfl⟩

/-- After any run of `insert` calls on an empty container over totally ordered
keys, for each pair `(l, r)` whose call succeeded, `find_left(l)` returns an
iterator that dereferences to `l` and whose `flip()` dereferences to `r`, and
`find_right(r)` returns an iterator that dereferences to `r` and whose `flip()`
dereferences to `l`. -/
theorem find_after_inserts (compare_left : L → L → Bool) (compare_right : R → R → Bool)
    (hcl : StrictTotal compare_left) (hcr : StrictTotal compare_right)
    (calls : List (L × R × Nat × Nat)) (l : L) (r : R)
    (h : (l, r) ∈ ((empty compare_left compare_right).insert_all calls).2) :
    (∃ it, ((empty compare_left compare_right).insert_all calls).1.find_left l = .ok it ∧
      it.deref = .ok l ∧ it.flip.deref = .ok r) ∧
    (∃ it, ((empty compare_left compare_right).insert_all calls).1.find_right r = .ok it ∧
      it.deref = .ok r ∧ it.flip.deref = .ok l) := by
  obtain ⟨hwf, hmem⟩ := insert_all_spec calls (WF_empty compare_left compare_right hcl hcr)
  have hp := hmem (l, r) (Or.inr h)
  obtain ⟨it, h1, _, h2, h3⟩ := find_left_of_pair hwf (l, r) hp
  obtain ⟨it', h1', _, h2', h3'⟩ := find_right_of_pair hwf (l, r) hp
  exact ⟨⟨it, h1, h2, h3⟩, ⟨it', h1', h2', h3'⟩⟩

/-- For every container built from the empty one, over totally ordered keys, by
calls of `insert` and of the `erase_left` / `erase_right` overloads (and of
`at_left_or_default` / `at_right_or_default`, which erase and insert), iterating from
`begin_left()` to `end_left()` ends within `size() + 1` steps and reads left values
that are strictly increasing under `CompareLeft`, and iterating from
`begin_right()` to `end_right()` reads right values that are strictly increasing
under `CompareRight`. -/
theorem iteration_strictly_increasing (compare_left : L → L → Bool)
    (compare_right : R → R → Bool)
    (hcl : StrictTotal compare_left) (hcr : StrictTotal compare_right)
    (b : bimap L R) (h : Reachable compare_left compare_right b) :
    ∃ ls rs, b.walk_left (b.size + 1) b.begin_left = .ok ls ∧
      (ls.map Prod.fst).Pairwise (fun x y => compare_left x y = true) ∧
      b.walk_right (b.size + 1) b.begin_right = .ok rs ∧
      (rs.map Prod.snd).Pairwise (fun x y => compare_right x y = true) := by
  have hwf := h.wf hcl hcr
  obtain ⟨hc1, hc2⟩ := h.compare_eq
  refine ⟨b.left_pairs, b.right_pairs, ?_, ?_, ?_, ?_⟩
  · exact walk_left_begin hwf.addr_nodup _ (by rw [size, hwf.size_eq])
  · have := hwf.left_sorted
    rw [hc1] at this
    simpa [left_pairs, List.pairwise_map, Increasing] using this
  · exact walk_right_begin hwf.addr_nodup_right _
      (by rw [size, hwf.size_eq, hwf.same_records.length_eq])
  · have := hwf.right_sorted
    rw [hc2] at this
    simpa [right_pairs, List.pairwise_map, Increasing] using this

end bimap

/-- An instance of `insert_fresh_pair`: `insert(8, 10)` into the container
`{(2, 80), (5, 50)}`. -/
theorem insert_fresh_pair_witness :
    sample_two.WF ∧ (∀ p ∈ sample_two.left_pairs, p.1 ≠ 8) ∧
    (∀ p ∈ sample_two.left_pairs, p.2 ≠ 10) ∧
    (sample_two.insert 8 10 4 6).1.deref = .ok 8 ∧
    (sample_two.insert 8 10 4 6).1.flip.deref = .ok 10 ∧
    (sample_two.insert 8 10 4 6).2.size = sample_two.size + 1 ∧
    (sample_two.insert 8 10 4 6).2.left_pairs.Perm ((8, 10) :: sample_two.left_pairs) :=
  have h := bimap.insert_fresh_pair sample_two sample_two_wf 8 10 4 6 (by decide) (by decide)
  ⟨sample_two_wf, by decide, by decide, h.1, h.2.1, h.2.2.1, h.2.2.2.2.1⟩

/-- An instance of `insert_present_rejected`: `insert(5, 99)` into the container
`{(2, 80), (5, 50)}`, whose left side already holds `5`. -/
theorem insert_present_rejected_witness :
    sample_two.WF ∧
    ((∃ p ∈ sample_two.left_pairs, p.1 = 5) ∨ (∃ p ∈ sample_two.left_pairs, p.2 = 99)) ∧
    (sample_two.insert 5 99 1 1).1 = sample_two.end_left ∧
    (sample_two.insert 5 99 1 1).2.size = sample_two.size :=
  have hp : (∃ p ∈ sample_two.left_pairs, p.1 = 5) ∨
      (∃ p ∈ sample_two.left_pairs, p.2 = 99) := Or.inl ⟨(5, 50), by decide, rfl⟩
  have h := bimap.insert_present_rejected sample_two sample_two_wf 5 99 1 1 hp
  ⟨sample_two_wf, hp, h.1, h.2.2.1⟩

/-- C3: with the comparator `tens_less`, a strict weak ordering, on both sides, the
two calls `insert(1, 1)` and `insert(2, 2)` on an empty container both succeed, and
the container then stores two pairs whose left values `1` and `2` are equivalent
under the comparator and whose right values are equivalent as well; the stored
pair `(1, 1)` is no longer found by `find_left(1)`. -/
theorem equivalent_keys_both_stored :
    StrictWeak tens_less ∧
    tens_run.2 = [(1, 1), (2, 2)] ∧
    tens_run.1.left_pairs = [(2, 2), (1, 1)] ∧
    tens_run.1.right_pairs = [(2, 2), (1, 1)] ∧
    tens_run.1.size = 2 ∧
    key_equiv tens_less 1 2 ∧
    tens_run.1.find_left 1 = .ok tens_run.1.end_left :=
  ⟨tens_less_strict_weak, by decide, by decide, by decide, by decide,
    ⟨by decide, by decide⟩, rfl⟩

/-- An instance of `find_after_inserts`: the run `insert(5, 50)`, `insert(2, 80)`,
`insert(5, 7)`; the first call succeeded. -/
theorem find_after_inserts_witness :
    StrictTotal nat_less ∧
    (5, 50) ∈ ((bimap.empty nat_less nat_less).insert_all
      [(5, 50, 7, 3), (2, 80, 9, 1), (5, 7, 1, 1)]).2 ∧
    (∃ it, ((bimap.empty nat_less nat_less).insert_all
        [(5, 50, 7, 3), (2, 80, 9, 1), (5, 7, 1, 1)]).1.find_left 5 = .ok it ∧
      it.deref = .ok 5 ∧ it.flip.deref = .ok 50) ∧
    (∃ it, ((bimap.empty nat_less nat_less).insert_all
        [(5, 50, 7, 3), (2, 80, 9, 1), (5, 7, 1, 1)]).1.find_right 50 = .ok it ∧
      it.deref = .ok 50 ∧ it.flip.deref = .ok 5) :=
  have h := bimap.find_after_inserts nat_less nat_less nat_less_strict_total
    nat_less_strict_total [(5, 50, 7, 3), (2, 80, 9, 1), (5, 7, 1, 1)] 5 50 (by decide)
  ⟨nat_less_strict_total, by decide, h.1, h.2⟩

/-- An instance of `iteration_strictly_increasing`: the container
`{(2, 80), (8, 10)}` reached by three calls of `insert` and one of `erase_left`. -/
theorem iteration_strictly_increasing_witness :
    StrictTotal nat_less ∧ bimap.Reachable nat_less nat_less sample_erased ∧
    ∃ ls rs, sample_erased.walk_left (sample_erased.size + 1) sample_erased.begin_left = .ok ls ∧
      (ls.map Prod.fst).Pairwise (fun x y => nat_less x y = true) ∧
      sample_erased.walk_right (sample_erased.size + 1) sample_erased.begin_right = .ok rs ∧
      (rs.map Prod.snd).Pairwise (fun x y => nat_less x y = true) :=
  ⟨nat_less_strict_total, sample_erased_reachable,
    bimap.iteration_strictly_increasing nat_less nat_less nat_less_strict_total
      nat_less_strict_total sample_erased sample_erased_reachable⟩

namespace bimap

variable {L R : Type} [DecidableEq L] [DecidableEq R]

/-! ## Lookups of absent keys -/

/-- On an empty container `lower_bound_left` returns an iterator that holds null. -/
theorem lower_bound_left_empty (compare_left : L → L → Bool) (compare_right : R → R → Bool)
    (k : L) : (empty compare_left compare_right).lower_bound_left k = ⟨.nullptr⟩ := rfl

theorem lower_bound_right_empty (compare_left : L → L → Bool) (compare_right : R → R → Bool)
    (k : R) : (empty compare_left compare_right).lower_bound_right k = ⟨.nullptr⟩ := rfl

/-- On a container that is not empty, `lower_bound_left` returns the iterator to the
first record in left order whose left value is not less than the key, and
`end_left()` when there is none. -/
theorem lower_bound_left_of_nonempty {b : bimap L R} (hb : b.WF) (k : L)
    (hne : b.left_root ≠ .nil) :
    b.lower_bound_left k =
      match first_not_less b.compare_left bimap_value_element.left k b.left_root.inorder with
      | some x => ⟨.elem x⟩
      | none => b.end_left := by
  unfold lower_bound_left
  rw [lower_bound_spec b.compare_left bimap_value_element.left hb.left_order.trans
    b.left_root k hne hb.left_sorted]
  split <;> rfl

/-- The method `find_left` on a container that is not empty, with a key greater than
every stored left value, dereferences the sentinel. -/
theorem find_left_above_all {b : bimap L R} (hb : b.WF) (k : L)
    (hne : b.left_root ≠ .nil)
    (h : ∀ p ∈ b.left_pairs, b.compare_left p.1 k = true) :
    b.find_left k = .error .undefined := by
  unfold find_left
  rw [lower_bound_left_of_nonempty hb k hne]
  rw [first_not_less_none_of_lt]
  · rfl
  · intro x hx
    exact h (x.left, x.right) ((mem_left_pairs _).mpr ⟨x, hx, rfl, rfl⟩)

/-- The method `find_left` with an absent key that is less than some stored left
value returns `end_left()`. -/
theorem find_left_absent_below {b : bimap L R} (hb : b.WF) (k : L)
    (habs : ∀ p ∈ b.left_pairs, p.1 ≠ k)
    (h : ∃ p ∈ b.left_pairs, b.compare_left p.1 k = false) :
    b.find_left k = .ok b.end_left := by
  obtain ⟨p, hp, hpk⟩ := h
  obtain ⟨e, he, h1, _⟩ := (mem_left_pairs p).mp hp
  have hne : b.left_root ≠ .nil := by
    intro hnil
    rw [hnil] at he
    cases he
  unfold find_left
  rw [lower_bound_left_of_nonempty hb k hne]
  cases hf : first_not_less b.compare_left bimap_value_element.left k b.left_root.inorder with
  | none =>
    unfold first_not_less at hf
    rw [List.find?_eq_none] at hf
    have := hf e he
    rw [h1] at this
    simp [hpk] at this
  | some x =>
    obtain ⟨hx, _⟩ := first_not_less_mem _ _ _ _ _ hf
    have hxk : x.left ≠ k := absent_of_pairs k habs x hx
    simp [left_iterator.deref, hxk]

/-- The method `at_left` with the left value of a stored pair returns its right
value. -/
theorem at_left_of_pair {b : bimap L R} (hb : b.WF) (p : L × R) (hp : p ∈ b.left_pairs) :
    b.at_left p.1 = .ok p.2 := by
  obtain ⟨it, h1, h2, _, h4⟩ := find_left_of_pair hb p hp
  unfold at_left
  rw [h1]
  simp only [h2, Bool.false_eq_true, if_false]
  exact h4

/-- The method `at_left` with an absent key that is less than some stored left value
fails with `std::out_of_range`. -/
theorem at_left_absent_below {b : bimap L R} (hb : b.WF) (k : L)
    (habs : ∀ p ∈ b.left_pairs, p.1 ≠ k)
    (h : ∃ p ∈ b.left_pairs, b.compare_left p.1 k = false) :
    b.at_left k = .error .out_of_range := by
  unfold at_left
  rw [find_left_absent_below hb k habs h]
  rfl

/-! ## `erase_left(key)` -/

theorem erase_left_of_absent {b : bimap L R} (hb : b.WF) (k : L)
    (h : ∀ p ∈ b.left_pairs, p.1 ≠ k) : b.erase_left k = (false, b) := by
  unfold erase_left
  rw [find_left_node_of_absent hb k (absent_of_pairs k h)]

theorem erase_right_of_absent {b : bimap L R} (hb : b.WF) (k : R)
    (h : ∀ p ∈ b.left_pairs, p.2 ≠ k) : b.erase_right k = (false, b) := by
  unfold erase_right
  rw [find_right_node_of_absent hb k (absent_of_pairs_right k h)]

/-- The method `erase_left(key)` with a stored key returns `true`, takes one off
`size()`, keeps the invariant, removes the record with that key from both indices
and keeps the other records in their order. -/
theorem erase_left_of_present {b : bimap L R} (hb : b.WF) (e : bimap_value_element L R)
    (he : e ∈ b.left_root.inorder) :
    (b.erase_left e.left).1 = true ∧
    (b.erase_left e.left).2.WF ∧
    (b.erase_left e.left).2.size + 1 = b.size ∧
    (b.erase_left e.left).2.left_root.inorder =
      b.left_root.inorder.filter (fun x => decide (x.addr ≠ e.addr)) ∧
    (b.erase_left e.left).2.right_root.inorder =
      b.right_root.inorder.filter (fun x => decide (x.addr ≠ e.addr)) := by
  have hmem : e.addr ∈ b.left_root.inorder.map bimap_value_element.addr :=
    List.mem_map_of_mem _ he
  have hwf := WF_erase hb e hmem
  unfold erase_left
  rw [find_left_node_of_mem hb e he]
  refine ⟨rfl, hwf, ?_, erase_left_inorder hb e, erase_right_inorder hb e⟩
  have := length_filter_addr_ne e.addr _ hb.addr_nodup hmem
  rw [← erase_left_inorder hb e] at this
  rw [size, size, hwf.size_eq, hb.size_eq]
  exact this

end bimap

/-! ## The claims that the code does not meet -/

/-- C6: `erase_left(8)` on the container `{(2, 80), (5, 50), (8, 10)}` returns `true`
and leaves `{(2, 80), (5, 50)}` with `size() == 2`, but the `find_left(8)` that
follows dereferences the sentinel instead of returning `end_left()`; after
`erase_left(1)` on `{(1, 1)}` the `find_left(1)` that follows dereferences null. -/
theorem find_left_after_erase_left_undefined :
    (sample_three.erase_left 8).1 = true ∧
    (sample_three.erase_left 8).2.left_pairs = [(2, 80), (5, 50)] ∧
    (sample_three.erase_left 8).2.size = 2 ∧
    (sample_three.erase_left 8).2.find_left 8 = .error .undefined ∧
    (sample_one.erase_left 1).1 = true ∧
    (sample_one.erase_left 1).2.size = 0 ∧
    (sample_one.erase_left 1).2.find_left 1 = .error .undefined :=
  ⟨rfl, rfl, rfl, rfl, rfl, rfl, rfl⟩

/-- C7: on the `bimap<int, int>` holding `{(0, 5), (3, 0), (9, 9)}`,
`at_left_or_default(4)` returns the default `0` and leaves `{(4, 0), (9, 9)}` with
`size() == 2`: besides the pair `(3, 0)` that held the default right value, the
pair `(0, 5)` is removed as well.  On an empty container the call dereferences
null. -/
theorem at_left_or_default_removes_two_pairs :
    (bimap.at_left_or_default id 0 sample_default 4 1 1).map
        (fun res => (res.1, res.2.left_pairs, res.2.size)) =
      .ok (0, [(4, 0), (9, 9)], 2) ∧
    sample_default.left_pairs = [(0, 5), (3, 0), (9, 9)] ∧
    sample_default.size = 3 ∧
    (bimap.at_left_or_default id 0 (bimap.empty nat_less nat_less) 4 1 1).map
        (fun res => (res.1, res.2.left_pairs, res.2.size)) =
      .error .undefined :=
  ⟨rfl, rfl, rfl, rfl⟩

/-- C8: `find_left(k)` on an empty container dereferences null, and `find_left(9)` on
the container `{(2, 80), (5, 50), (8, 10)}` dereferences the sentinel; neither call
returns `end_left()`.  The same holds for `find_right`. -/
theorem find_absent_key_undefined :
    (∀ k : Nat, (bimap.empty nat_less nat_less).find_left k = .error .undefined) ∧
    (∀ k : Nat, (bimap.empty nat_less nat_less).find_right k = .error .undefined) ∧
    sample_three.find_left 9 = .error .undefined ∧
    sample_three.find_right 90 = .error .undefined :=
  ⟨fun _ => rfl, fun _ => rfl, rfl, rfl⟩

/-- C9: `at_left(k)` on an empty container dereferences null, and `at_left(9)` on the
container `{(2, 80), (5, 50), (8, 10)}` dereferences the sentinel; neither call
fails with `std::out_of_range`, which the absent key `3` does produce. -/
theorem at_left_absent_key_undefined :
    (∀ k : Nat, (bimap.empty nat_less nat_less).at_left k = .error .undefined) ∧
    (∀ k : Nat, (bimap.empty nat_less nat_less).at_right k = .error .undefined) ∧
    sample_three.at_left 9 = .error .undefined ∧
    sample_three.at_right 90 = .error .undefined ∧
    sample_three.at_left 3 = .error .out_of_range ∧
    sample_three.at_left 5 = .ok 50 :=
  ⟨fun _ => rfl, fun _ => rfl, rfl, rfl, rfl, rfl⟩

/-- C10: on an empty container `lower_bound_left(k)` returns an iterator that holds
null, which does not compare equal to `end_left()`; likewise `lower_bound_right`. -/
theorem lower_bound_empty_not_end :
    (∀ k : Nat, (bimap.empty nat_less nat_less).lower_bound_left k = ⟨.nullptr⟩) ∧
    (∀ k : Nat, ((bimap.empty nat_less nat_less).lower_bound_left k).eq
      (bimap.empty nat_less nat_less).end_left = false) ∧
    (∀ k : Nat, ((bimap.empty nat_less nat_less).lower_bound_right k).eq
      (bimap.empty nat_less nat_less).end_right = false) :=
  ⟨fun _ => rfl, fun _ => rfl, fun _ => rfl⟩

/-! ## Heap order of the engine -/

namespace details

variable {L R T : Type}

theorem root_le_mono {k k' : Nat} (h : k ≤ k') (t : Tree L R) (ht : root_le k t) :
    root_le k' t := by
  cases t with
  | nil => trivial
  | node l e kt r => exact Nat.le_trans ht h

theorem root_le_merge (k : Nat) (a b : Tree L R) (ha : root_le k a) (hb : root_le k b) :
    root_le k (merge a b) := by
  cases a with
  | nil => exact hb
  | node ll le lk lr =>
    cases b with
    | nil => rw [merge_nil_right]; exact ha
    | node rl re rk rr =>
      rw [merge_node]
      split
      · exact ha
      · exact hb

/-- The result of `merge` on two heap-ordered trees is heap-ordered. -/
theorem heap_merge (a b : Tree L R) (ha : Heap a) (hb : Heap b) : Heap (merge a b) := by
  induction a generalizing b with
  | nil => exact hb
  | node ll le lk lr _ ihr =>
    induction b with
    | nil => rw [merge_nil_right]; exact ha
    | node rl re rk rr ihl _ =>
      rw [merge_node]
      obtain ⟨ha1, ha2, ha3, ha4⟩ := ha
      obtain ⟨hb1, hb2, hb3, hb4⟩ := hb
      split
      · rename_i hgt
        refine ⟨ha1, ?_, ha3, ihr _ ha4 ⟨hb1, hb2, hb3, hb4⟩⟩
        exact root_le_merge lk lr _ ha2 (Nat.le_of_lt hgt)
      · rename_i hgt
        refine ⟨?_, hb2, ihl hb3, hb4⟩
        exact root_le_merge rk _ rl (Nat.le_of_not_lt hgt) hb1

theorem root_le_split (compare : T → T → Bool) (get : bimap_value_element L R → T) (val : T)
    (k : Nat) (t : Tree L R) (ht : Heap t) (hk : root_le k t) :
    root_le k (split compare get val t).1 ∧ root_le k (split compare get val t).2 := by
  induction t with
  | nil => exact ⟨trivial, trivial⟩
  | node l e kt r ihl ihr =>
    obtain ⟨h1, h2, h3, h4⟩ := ht
    simp only [split]
    split
    · exact ⟨hk, (ihr h4 (root_le_mono hk r h2)).2⟩
    · exact ⟨(ihl h3 (root_le_mono hk l h1)).1, hk⟩

/-- Both results of `split` on a heap-ordered tree are heap-ordered. -/
theorem heap_split (compare : T → T → Bool) (get : bimap_value_element L R → T) (val : T)
    (t : Tree L R) (ht : Heap t) :
    Heap (split compare get val t).1 ∧ Heap (split compare get val t).2 := by
  induction t with
  | nil => exact ⟨trivial, trivial⟩
  | node l e k r ihl ihr =>
    obtain ⟨h1, h2, h3, h4⟩ := ht
    simp only [split]
    split
    · exact ⟨⟨h1, (root_le_split compare get val k r h4 h2).1, h3, (ihr h4).1⟩, (ihr h4).2⟩
    · exact ⟨(ihl h3).1, ⟨(root_le_split compare get val k l h3 h1).2, h2, (ihl h3).2, h4⟩⟩

/-- The engine's `insert` keeps the heap order, whatever heap key is drawn. -/
theorem heap_insert (compare : T → T → Bool) (get : bimap_value_element L R → T)
    (root : Tree L R) (cur : bimap_value_element L R) (heap_key : Nat) (h : Heap root) :
    Heap (insert compare get root cur heap_key) := by
  cases root with
  | nil => exact ⟨trivial, trivial, trivial, trivial⟩
  | node l e k r =>
    have hs := heap_split compare get (get cur) (.node l e k r) h
    simp only [insert]
    exact heap_merge _ _ hs.1 (heap_merge _ _ ⟨trivial, trivial, trivial, trivial⟩ hs.2)

theorem root_le_erase (cur : Nat) (k : Nat) (t : Tree L R) (ht : Heap t) (hk : root_le k t) :
    root_le k (erase cur t) := by
  cases t with
  | nil => trivial
  | node l e kt r =>
    obtain ⟨h1, h2, _, _⟩ := ht
    simp only [erase]
    split
    · exact root_le_merge k l r (root_le_mono hk l h1) (root_le_mono hk r h2)
    · exact hk

/-- The engine's `erase` keeps the heap order. -/
theorem heap_erase (cur : Nat) (t : Tree L R) (ht : Heap t) : Heap (erase cur t) := by
  induction t with
  | nil => trivial
  | node l e k r ihl ihr =>
    obtain ⟨h1, h2, h3, h4⟩ := ht
    simp only [erase]
    split
    · exact heap_merge l r h3 h4
    · exact ⟨root_le_erase cur k l h3 h1, root_le_erase cur k r h4 h2, ihl h3, ihr h4⟩

theorem EngineReachable.heap {compare : T → T → Bool} {get : bimap_value_element L R → T}
    {t : Tree L R} (h : EngineReachable compare get t) : Heap t := by
  induction h with
  | empty => trivial
  | insert cur heap_key _ ih => exact heap_insert compare get _ cur heap_key ih
  | erase cur _ ih => exact heap_erase cur _ ih

/-- The in-order sequence of `merge` is increasing in the keys when both arguments
are and every key of the first precedes every key of the second. -/
theorem merge_increasing (compare : T → T → Bool) (get : bimap_value_element L R → T)
    (a b : Tree L R) (ha : Increasing compare get a.inorder)
    (hb : Increasing compare get b.inorder)
    (hab : ∀ x ∈ a.inorder, ∀ y ∈ b.inorder, compare (get x) (get y) = true) :
    Increasing compare get (merge a b).inorder := by
  rw [inorder_merge]
  exact List.pairwise_append.mpr ⟨ha, hb, hab⟩

theorem Ptr.same_refl (p : Ptr L R) : p.same p = true := by
  cases p <;> simp [Ptr.same]

end details

/-! ## `erase` by iterator and by range -/

namespace details

variable {L R : Type}

end details

namespace bimap

variable {L R : Type} [DecidableEq L] [DecidableEq R]

end bimap

/-! ## Runs of insertions, `operator==` and the copy constructor -/

namespace bimap

variable {L R : Type} [DecidableEq L] [DecidableEq R]

theorem insert_all_compare (calls : List (L × R × Nat × Nat)) (b : bimap L R) :
    (b.insert_all calls).1.compare_left = b.compare_left ∧
    (b.insert_all calls).1.compare_right = b.compare_right := by
  induction calls generalizing b with
  | nil => exact ⟨rfl, rfl⟩
  | cons c rest ih =>
    obtain ⟨l, r, hk_left, hk_right⟩ := c
    have h1 := insert_compare b l r hk_left hk_right
    have h2 := ih (b.insert l r hk_left hk_right).2
    exact ⟨h2.1.trans h1.1, h2.2.trans h1.2⟩

/-- A run of `insert` calls whose left values are pairwise different, whose right
values are pairwise different, and none of which is stored yet: every call
succeeds and the container ends up with the earlier pairs plus the pairs of the
run. -/
theorem insert_all_distinct (calls : List (L × R × Nat × Nat)) {b : bimap L R} (hb : b.WF)
    (hl : (calls.map (fun c => c.1)).Nodup) (hr : (calls.map (fun c => c.2.1)).Nodup)
    (hbl : ∀ c ∈ calls, ∀ p ∈ b.left_pairs, p.1 ≠ c.1)
    (hbr : ∀ c ∈ calls, ∀ p ∈ b.left_pairs, p.2 ≠ c.2.1) :
    (b.insert_all calls).1.WF ∧
    (b.insert_all calls).1.left_pairs.Perm
      (calls.map (fun c => (c.1, c.2.1)) ++ b.left_pairs) ∧
    (b.insert_all calls).2 = calls.map (fun c => (c.1, c.2.1)) := by
  induction calls generalizing b with
  | nil => exact ⟨hb, List.Perm.refl _, rfl⟩
  | cons c rest ih =>
    obtain ⟨l, r, hk_left, hk_right⟩ := c
    simp only [List.map_cons, List.nodup_cons] at hl hr
    have hl0 := absent_of_pairs l (hbl (l, r, hk_left, hk_right) (by simp))
    have hr0 := absent_of_pairs_right r (hbr (l, r, hk_left, hk_right) (by simp))
    have hins := insert_of_absent hb l r hk_left hk_right hl0 hr0
    have hwf := WF_inserted hb l r hk_left hk_right hl0 hr0
    have hperm := inserted_left_pairs_perm b l r hk_left hk_right
    have hbl' : ∀ c ∈ rest, ∀ p ∈ (b.inserted l r hk_left hk_right).left_pairs, p.1 ≠ c.1 := by
      intro c hc p hp
      rw [hperm.mem_iff, List.mem_cons] at hp
      rcases hp with hp | hp
      · rw [hp]
        intro heq
        exact hl.1 (List.mem_map.mpr ⟨c, hc, heq.symm⟩)
      · exact hbl c (List.mem_cons_of_mem _ hc) p hp
    have hbr' : ∀ c ∈ rest, ∀ p ∈ (b.inserted l r hk_left hk_right).left_pairs,
        p.2 ≠ c.2.1 := by
      intro c hc p hp
      rw [hperm.mem_iff, List.mem_cons] at hp
      rcases hp with hp | hp
      · rw [hp]
        intro heq
        exact hr.1 (List.mem_map.mpr ⟨c, hc, heq.symm⟩)
      · exact hbr c (List.mem_cons_of_mem _ hc) p hp
    obtain ⟨ih1, ih2, ih3⟩ := ih hwf hl.2 hr.2 hbl' hbr'
    simp only [insert_all, hins, List.map_cons]
    refine ⟨ih1, ?_, ?_⟩
    · refine ih2.trans ?_
      refine (List.Perm.append_left _ hperm).trans ?_
      exact List.perm_middle
    · simp only [left_iterator.eq, end_left, Ptr.same, Bool.false_eq_true, if_false, ih3]

theorem left_pairs_sorted {b : bimap L R} (hb : b.WF) :
    b.left_pairs.Pairwise (fun p q => b.compare_left p.1 q.1 = true) := by
  have := hb.left_sorted
  simpa [left_pairs, List.pairwise_map, Increasing] using this

theorem right_pairs_sorted {b : bimap L R} (hb : b.WF) :
    b.right_pairs.Pairwise (fun p q => b.compare_right p.2 q.2 = true) := by
  have := hb.right_sorted
  simpa [right_pairs, List.pairwise_map, Increasing] using this

/-- Two lists that hold the same elements and are both strictly increasing under a
strict order on a component are the same list. -/
theorem eq_of_perm_of_increasing {α T : Type} (compare : T → T → Bool)
    (hord : StrictTotal compare) (key : α → T) (xs ys : List α) (hp : xs.Perm ys)
    (hx : xs.Pairwise (fun p q => compare (key p) (key q) = true))
    (hy : ys.Pairwise (fun p q => compare (key p) (key q) = true)) : xs = ys := by
  haveI : IsAntisymm α (fun p q => compare (key p) (key q) = true) :=
    ⟨fun p q h1 h2 => by
      have := hord.trans _ _ _ h1 h2
      rw [hord.irrefl] at this
      cases this⟩
  exact List.eq_of_perm_of_sorted hp hx hy

/-- Two containers with the same comparator that hold the same pairs list them in
the same left order. -/
theorem left_pairs_eq_of_perm {a b : bimap L R} (ha : a.WF) (hb : b.WF)
    (hc : a.compare_left = b.compare_left) (hp : a.left_pairs.Perm b.left_pairs) :
    a.left_pairs = b.left_pairs := by
  refine eq_of_perm_of_increasing a.compare_left ha.left_order Prod.fst _ _ hp
    (left_pairs_sorted ha) ?_
  rw [hc]
  exact left_pairs_sorted hb

theorem right_pairs_eq_of_perm {a b : bimap L R} (ha : a.WF) (hb : b.WF)
    (hc : a.compare_right = b.compare_right) (hp : a.right_pairs.Perm b.right_pairs) :
    a.right_pairs = b.right_pairs := by
  refine eq_of_perm_of_increasing a.compare_right ha.right_order Prod.snd _ _ hp
    (right_pairs_sorted ha) ?_
  rw [hc]
  exact right_pairs_sorted hb

theorem begin_left_eq (b : bimap L R) :
    b.begin_left = ⟨head_or .sentinel b.left_root.inorder⟩ := by
  unfold begin_left
  rw [head_or_inorder]
  cases b.left_root <;> rfl

theorem begin_right_eq (b : bimap L R) :
    b.begin_right = ⟨head_or .sentinel b.right_root.inorder⟩ := by
  unfold begin_right
  rw [head_or_inorder]
  cases b.right_root <;> rfl

/-- The loop of `operator==`, started at two positions from which both containers
list the same pairs, returns `true`. -/
theorem equal_loop_same {a b : bimap L R}
    (hna : (a.left_root.inorder.map bimap_value_element.addr).Nodup)
    (hnb : (b.left_root.inorder.map bimap_value_element.addr).Nodup)
    (hil : ∀ x, a.compare_left x x = false) (hir : ∀ x, a.compare_right x x = false)
    (xs ys pa pb : List (bimap_value_element L R)) (fuel : Nat)
    (hina : a.left_root.inorder = pa ++ xs) (hinb : b.left_root.inorder = pb ++ ys)
    (hsame : xs.map (fun e => (e.left, e.right)) = ys.map (fun e => (e.left, e.right)))
    (hfuel : xs.length + 1 ≤ fuel) :
    equal_loop a b fuel ⟨head_or .sentinel xs⟩ ⟨head_or .sentinel ys⟩ = .ok true := by
  induction xs generalizing ys pa pb fuel with
  | nil =>
    obtain ⟨f, rfl⟩ : ∃ f, fuel = f + 1 := ⟨fuel - 1, by omega⟩
    simp [equal_loop, left_iterator.eq, end_left, Ptr.same, head_or]
  | cons x xs ih =>
    obtain ⟨f, rfl⟩ : ∃ f, fuel = f + 1 := ⟨fuel - 1, by omega⟩
    cases ys with
    | nil => simp at hsame
    | cons y ys =>
      simp only [List.map_cons, List.cons.injEq, Prod.mk.injEq] at hsame
      obtain ⟨⟨hl, hr⟩, hrest⟩ := hsame
      have hnext_a := ptr_next_mid a.left_root pa x xs hina hna
      have hnext_b := ptr_next_mid b.left_root pb y ys hinb hnb
      have hrec := ih ys (pa ++ [x]) (pb ++ [y]) f (by simp [hina]) (by simp [hinb]) hrest
        (by simp at hfuel ⊢; omega)
      simp only [equal_loop, left_iterator.eq, end_left, Ptr.same, head_or,
        left_iterator.deref, left_iterator.flip, right_iterator.deref, Bool.false_eq_true,
        if_false, left_not_eq, right_not_eq, hl, hr, hil, hir, Bool.or_self, incr_left,
        hnext_a, hnext_b, Except.map]
      exact hrec

/-- Two containers that list the same pairs in left order compare equal. -/
theorem equal_of_same_pairs {a b : bimap L R} (ha : a.WF) (hb : b.WF)
    (hsame : a.left_pairs = b.left_pairs) (fuel : Nat) (hfuel : a.size + 1 ≤ fuel) :
    a.equal b fuel = .ok true := by
  have hlen : a.size = b.size := by
    rw [size, size, ha.size_eq, hb.size_eq]
    have := congrArg List.length hsame
    simpa [left_pairs] using this
  unfold equal
  simp only [hlen, ne_eq, not_true_eq_false, if_false]
  rw [begin_left_eq, begin_left_eq]
  exact equal_loop_same ha.addr_nodup hb.addr_nodup ha.left_order.irrefl
    ha.right_order.irrefl _ _ [] [] fuel rfl rfl hsame (by rw [← ha.size_eq]; exact hfuel)

/-- Two containers of different sizes compare unequal. -/
theorem equal_of_size_ne (a b : bimap L R) (h : a.size ≠ b.size) (fuel : Nat) :
    a.equal b fuel = .ok false := by
  unfold equal
  simp [h]

end bimap

namespace bimap

variable {L R : Type} [DecidableEq L] [DecidableEq R]

/-- In a container that satisfies the invariant, a record of a prefix of the left
order and the record that follows the prefix differ in both values. -/
theorem prefix_keys_ne {b : bimap L R} (hb : b.WF)
    (pre : List (bimap_value_element L R)) (x : bimap_value_element L R)
    (post : List (bimap_value_element L R))
    (hin : b.left_root.inorder = pre ++ x :: post)
    (e : bimap_value_element L R) (he : e ∈ pre) :
    e.left ≠ x.left ∧ e.right ≠ x.right := by
  have hnd := hb.addr_nodup
  rw [hin] at hnd
  simp only [List.map_append, List.map_cons, List.nodup_append, List.nodup_cons] at hnd
  have hne : e ≠ x := by
    intro hex
    exact hnd.2.2 (List.mem_map_of_mem _ he) (by rw [hex]; simp)
  have hem : e ∈ b.left_root.inorder := by rw [hin]; simp [he]
  have hxm : x ∈ b.left_root.inorder := by rw [hin]; simp
  constructor
  · intro h
    exact hne (hb.left_unique e x hem hxm
      ⟨by rw [h]; exact hb.left_order.irrefl _, by rw [h]; exact hb.left_order.irrefl _⟩)
  · intro h
    exact hne (hb.right_unique e x hem hxm
      ⟨by rw [h]; exact hb.right_order.irrefl _, by rw [h]; exact hb.right_order.irrefl _⟩)

/-- The loop of the copy constructor, started at a position of `other` with a new
container that holds the pairs before that position, ends and yields a container
that holds the pairs of `other`. -/
theorem copy_loop_spec {other : bimap L R} (ho : other.WF) (draws : Nat → Nat × Nat)
    (xs pre : List (bimap_value_element L R)) (acc : bimap L R) (fuel : Nat)
    (hin : other.left_root.inorder = pre ++ xs) (hacc : acc.WF)
    (hcl : acc.compare_left = other.compare_left)
    (hcr : acc.compare_right = other.compare_right)
    (hpairs : acc.left_pairs.Perm (pre.map (fun e => (e.left, e.right))))
    (hfuel : xs.length + 1 ≤ fuel) :
    ∃ c, copy_loop other draws fuel ⟨head_or .sentinel xs⟩ acc = .ok c ∧ c.WF ∧
      c.left_pairs.Perm other.left_pairs ∧
      c.compare_left = other.compare_left ∧ c.compare_right = other.compare_right := by
  induction xs generalizing pre acc fuel with
  | nil =>
    obtain ⟨f, rfl⟩ : ∃ f, fuel = f + 1 := ⟨fuel - 1, by omega⟩
    refine ⟨acc, ?_, hacc, ?_, hcl, hcr⟩
    · simp [copy_loop, left_iterator.eq, end_left, Ptr.same, head_or]
    · have : other.left_pairs = pre.map (fun e => (e.left, e.right)) := by
        rw [left_pairs, hin, List.append_nil]
      rw [this]
      exact hpairs
  | cons x xs ih =>
    obtain ⟨f, rfl⟩ : ∃ f, fuel = f + 1 := ⟨fuel - 1, by omega⟩
    have hnext := ptr_next_mid other.left_root pre x xs hin ho.addr_nodup
    have hl : ∀ e ∈ acc.left_root.inorder, e.left ≠ x.left := by
      apply absent_of_pairs
      intro p hp
      rw [hpairs.mem_iff, List.mem_map] at hp
      obtain ⟨e, he, rfl⟩ := hp
      exact (prefix_keys_ne ho pre x xs hin e he).1
    have hr : ∀ e ∈ acc.left_root.inorder, e.right ≠ x.right := by
      apply absent_of_pairs_right
      intro p hp
      rw [hpairs.mem_iff, List.mem_map] at hp
      obtain ⟨e, he, rfl⟩ := hp
      exact (prefix_keys_ne ho pre x xs hin e he).2
    have hins := insert_of_absent hacc x.left x.right (draws acc.size).1 (draws acc.size).2
      hl hr
    have hwf := WF_inserted hacc x.left x.right (draws acc.size).1 (draws acc.size).2 hl hr
    have hperm := inserted_left_pairs_perm acc x.left x.right (draws acc.size).1
      (draws acc.size).2
    have hpairs' : (acc.inserted x.left x.right (draws acc.size).1
        (draws acc.size).2).left_pairs.Perm
        ((pre ++ [x]).map (fun e => (e.left, e.right))) := by
      refine hperm.trans ?_
      rw [List.map_append]
      refine (List.Perm.cons _ hpairs).trans ?_
      simp only [List.map_cons, List.map_nil]
      exact (List.perm_append_singleton _ _).symm
    obtain ⟨c, h1, h2, h3, h4, h5⟩ := ih (pre ++ [x]) _ f (by simp [hin]) hwf hcl hcr hpairs'
      (by simp at hfuel ⊢; omega)
    refine ⟨c, ?_, h2, h3, h4, h5⟩
    simp only [copy_loop, left_iterator.eq, end_left, Ptr.same, head_or,
      left_iterator.deref, left_iterator.flip, right_iterator.deref, Bool.false_eq_true,
      if_false, incr_left, hnext, Except.map, hins]
    exact h1

/-- The copy constructor on a container that satisfies the invariant ends within
`size() + 1` steps of its loop; the copy satisfies the invariant, has the
comparators of the source and lists the same pairs in both orders. -/
theorem copy_spec {other : bimap L R} (ho : other.WF) (draws : Nat → Nat × Nat) (fuel : Nat)
    (hfuel : other.size + 1 ≤ fuel) :
    ∃ c, other.copy draws fuel = .ok c ∧ c.WF ∧
      c.left_pairs = other.left_pairs ∧ c.right_pairs = other.right_pairs ∧
      c.size = other.size ∧
      c.compare_left = other.compare_left ∧ c.compare_right = other.compare_right := by
  obtain ⟨c, h1, h2, h3, h4, h5⟩ := copy_loop_spec ho draws other.left_root.inorder []
    (empty other.compare_left other.compare_right) fuel rfl
    (WF_empty _ _ ho.left_order ho.right_order) rfl rfl (List.Perm.refl _)
    (by rw [← ho.size_eq]; exact hfuel)
  have hleft := left_pairs_eq_of_perm h2 ho h4 h3
  have hright : c.right_pairs = other.right_pairs := by
    refine right_pairs_eq_of_perm h2 ho h5 ?_
    exact (right_pairs_perm h2).symm.trans (h3.trans (right_pairs_perm ho))
  refine ⟨c, ?_, h2, hleft, hright, ?_, h4, h5⟩
  · unfold copy
    rw [begin_left_eq]
    exact h1
  · rw [size, size, h2.size_eq, ho.size_eq]
    have := congrArg List.length hleft
    simpa [left_pairs] using this

/-! ## `upper_bound` -/

/-- On a container that is not empty, over totally ordered keys, `upper_bound_left`
returns the iterator to the first record in left order whose left value is greater
than the key, and `end_left()` when there is none. -/
theorem upper_bound_left_of_nonempty {b : bimap L R} (hb : b.WF) (k : L)
    (hne : b.left_root ≠ .nil) :
    b.upper_bound_left k =
      .ok (match b.left_root.inorder.find? (fun e => b.compare_left k e.left) with
        | some x => ⟨.elem x⟩
        | none => b.end_left) := by
  have hasym : ∀ x y, b.compare_left x y = true → b.compare_left y x = false := by
    intro x y h
    cases hc : b.compare_left y x with
    | false => rfl
    | true =>
      have := hb.left_order.trans _ _ _ h hc
      rw [hb.left_order.irrefl] at this
      cases this
  unfold upper_bound_left
  rw [lower_bound_left_of_nonempty hb k hne]
  cases hf : first_not_less b.compare_left bimap_value_element.left k b.left_root.inorder with
  | none =>
    have hall : ∀ e ∈ b.left_root.inorder, b.compare_left e.left k = true := by
      unfold first_not_less at hf
      rw [List.find?_eq_none] at hf
      intro e he
      simpa using hf e he
    have hnone : b.left_root.inorder.find? (fun e => b.compare_left k e.left) = none := by
      rw [List.find?_eq_none]
      intro e he
      simp [hasym _ _ (hall e he)]
    simp [hnone, left_iterator.eq, end_left, Ptr.same]
  | some x =>
    unfold first_not_less at hf
    obtain ⟨hx, pre, post, hin, hpre⟩ := List.find?_eq_some.mp hf
    have hxk : b.compare_left x.left k = false := by simpa using hx
    have hprelt : ∀ e ∈ pre, b.compare_left e.left k = true := by
      intro e he
      simpa using hpre e he
    have hsorted := hb.left_sorted
    rw [hin] at hsorted
    simp only [Increasing, List.pairwise_append, List.pairwise_cons] at hsorted
    obtain ⟨_, ⟨hxpost, _⟩, _⟩ := hsorted
    have hprefind : pre.find? (fun e => b.compare_left k e.left) = none := by
      rw [List.find?_eq_none]
      intro e he
      simp [hasym _ _ (hprelt e he)]
    simp only [left_iterator.eq, end_left, Ptr.same, Bool.false_eq_true, if_false,
      left_iterator.deref]
    rw [hin, List.find?_append, hprefind, Option.none_or, List.find?_cons]
    by_cases hk : x.left = k
    · have hnext := ptr_next_mid b.left_root pre x post hin hb.addr_nodup
      simp only [hk, if_true, incr_left, hnext, Except.map, hb.left_order.irrefl]
      cases post with
      | nil => rfl
      | cons y rest =>
        have := hxpost y (by simp)
        rw [hk] at this
        simp [List.find?_cons, this, head_or]
    · have hkx : b.compare_left k x.left = true := by
        cases hc : b.compare_left k x.left with
        | true => rfl
        | false => exact absurd (hb.left_order.total _ _ hxk hc) hk
      simp [hk, hkx]

end bimap

/-! ## The claims on bounds, erasure, comparison, copies and swaps -/

namespace bimap

variable {L R : Type} [DecidableEq L] [DecidableEq R]

/-- Over totally ordered keys, two runs of `insert` calls on empty containers
that insert the same pairs (pairwise different left values, pairwise different
right values) in two orders, with any heap keys, give containers that compare
equal with `operator==`, in both directions.  After one further pair is inserted
into one of them, or one stored pair is erased from it, the two compare unequal,
in both directions. -/
theorem equal_whatever_insertion_order (compare_left : L → L → Bool)
    (compare_right : R → R → Bool)
    (hcl : StrictTotal compare_left) (hcr : StrictTotal compare_right)
    (calls1 calls2 : List (L × R × Nat × Nat))
    (hperm : (calls1.map (fun c => (c.1, c.2.1))).Perm (calls2.map (fun c => (c.1, c.2.1))))
    (hl : (calls1.map (fun c => c.1)).Nodup) (hr : (calls1.map (fun c => c.2.1)).Nodup) :
    ((empty compare_left compare_right).insert_all calls1).1.equal
        ((empty compare_left compare_right).insert_all calls2).1
        (((empty compare_left compare_right).insert_all calls1).1.size + 1) = .ok true ∧
    ((empty compare_left compare_right).insert_all calls2).1.equal
        ((empty compare_left compare_right).insert_all calls1).1
        (((empty compare_left compare_right).insert_all calls2).1.size + 1) = .ok true ∧
    (∀ (l : L) (r : R) (hk_left hk_right fuel : Nat),
      (∀ p ∈ ((empty compare_left compare_right).insert_all calls1).1.left_pairs, p.1 ≠ l) →
      (∀ p ∈ ((empty compare_left compare_right).insert_all calls1).1.left_pairs, p.2 ≠ r) →
      ((((empty compare_left compare_right).insert_all calls1).1.insert l r hk_left
          hk_right).2.equal ((empty compare_left compare_right).insert_all calls2).1 fuel =
        .ok false ∧
       ((empty compare_left compare_right).insert_all calls2).1.equal
          (((empty compare_left compare_right).insert_all calls1).1.insert l r hk_left
            hk_right).2 fuel = .ok false)) ∧
    (∀ (p : L × R) (fuel : Nat),
      p ∈ ((empty compare_left compare_right).insert_all calls1).1.left_pairs →
      ((((empty compare_left compare_right).insert_all calls1).1.erase_left p.1).2.equal
          ((empty compare_left compare_right).insert_all calls2).1 fuel = .ok false ∧
       ((empty compare_left compare_right).insert_all calls2).1.equal
          (((empty compare_left compare_right).insert_all calls1).1.erase_left p.1).2 fuel =
        .ok false)) := by
  have hwf0 := WF_empty compare_left compare_right hcl hcr
  have hl2 : (calls2.map (fun c => c.1)).Nodup := by
    have h1 := hperm.map Prod.fst
    simp only [List.map_map] at h1
    exact (h1.nodup_iff).mp hl
  have hr2 : (calls2.map (fun c => c.2.1)).Nodup := by
    have h1 := hperm.map Prod.snd
    simp only [List.map_map] at h1
    exact (h1.nodup_iff).mp hr
  obtain ⟨ha, hpa, _⟩ := insert_all_distinct calls1 hwf0 hl hr
    (fun _ _ p hp => by cases hp) (fun _ _ p hp => by cases hp)
  obtain ⟨hb, hpb, _⟩ := insert_all_distinct calls2 hwf0 hl2 hr2
    (fun _ _ p hp => by cases hp) (fun _ _ p hp => by cases hp)
  have hca := insert_all_compare calls1 (empty compare_left compare_right)
  have hcb := insert_all_compare calls2 (empty compare_left compare_right)
  have hpairs : ((empty compare_left compare_right).insert_all calls1).1.left_pairs.Perm
      ((empty compare_left compare_right).insert_all calls2).1.left_pairs := by
    have e1 : (empty compare_left compare_right).left_pairs = [] := rfl
    rw [e1, List.append_nil] at hpa hpb
    exact hpa.trans (hperm.trans hpb.symm)
  have hsame := left_pairs_eq_of_perm ha hb (hca.1.trans hcb.1.symm) hpairs
  have hsize : ((empty compare_left compare_right).insert_all calls1).1.size =
      ((empty compare_left compare_right).insert_all calls2).1.size := by
    rw [size, size, ha.size_eq, hb.size_eq]
    have := congrArg List.length hsame
    simpa [left_pairs] using this
  refine ⟨equal_of_same_pairs ha hb hsame _ (Nat.le_refl _),
    equal_of_same_pairs hb ha hsame.symm _ (Nat.le_refl _), ?_, ?_⟩
  · intro l r hk_left hk_right fuel hfl hfr
    have hins := insert_of_absent ha l r hk_left hk_right (absent_of_pairs l hfl)
      (absent_of_pairs_right r hfr)
    have hs : (((empty compare_left compare_right).insert_all calls1).1.insert l r hk_left
        hk_right).2.size = ((empty compare_left compare_right).insert_all calls1).1.size + 1 := by
      rw [hins]; rfl
    constructor
    · apply equal_of_size_ne
      rw [hs, hsize]; omega
    · apply equal_of_size_ne
      rw [hs, hsize]; omega
  · intro p fuel hp
    obtain ⟨e, he, h1, _⟩ := (mem_left_pairs p).mp hp
    obtain ⟨_, _, hs, _, _⟩ := erase_left_of_present ha e he
    rw [h1] at hs
    constructor
    · apply equal_of_size_ne
      rw [← hsize]; omega
    · apply equal_of_size_ne
      rw [← hsize]; omega

/-- Over totally ordered keys, for a container `b` that satisfies the invariant `WF`
and any heap keys drawn by the engines of the new container, the copy constructor
ends within `size() + 1` steps of its loop; the copy has the `size()` of `b`,
lists the pairs of `b` in left order and in right order, which is also what
iterating the copy reads, and compares equal to `b` with `operator==` in both
directions.  The constructor takes `b` by reference to const and the copy is
built from new records, so `b` is the same afterwards. -/
theorem copy_constructed (b : bimap L R) (hb : b.WF) (draws : Nat → Nat × Nat) :
    ∃ c, b.copy draws (b.size + 1) = .ok c ∧
      c.size = b.size ∧
      c.left_pairs = b.left_pairs ∧ c.right_pairs = b.right_pairs ∧
      c.walk_left (c.size + 1) c.begin_left = .ok b.left_pairs ∧
      c.walk_right (c.size + 1) c.begin_right = .ok b.right_pairs ∧
      c.equal b (c.size + 1) = .ok true ∧ b.equal c (b.size + 1) = .ok true ∧
      c.WF := by
  obtain ⟨c, h1, h2, h3, h4, h5, _, _⟩ := copy_spec hb draws (b.size + 1) (Nat.le_refl _)
  refine ⟨c, h1, h5, h3, h4, ?_, ?_, ?_, ?_, h2⟩
  · rw [← h3]
    exact walk_left_begin h2.addr_nodup _ (by rw [size, h2.size_eq])
  · rw [← h4]
    exact walk_right_begin h2.addr_nodup_right _
      (by rw [size, h2.size_eq, h2.same_records.length_eq])
  · exact equal_of_same_pairs h2 hb h3 _ (Nat.le_refl _)
  · exact equal_of_same_pairs hb h2 h3.symm _ (Nat.le_refl _)

/-- C16: for any two containers, after `a.swap(b)` the first holds what the second
held and the second what the first held: the states are exchanged, hence `size()`,
the pairs in left and right order, what iteration reads and what `find_left` and
`find_right` return; a second `swap` restores both. -/
theorem swap_exchanges (a b : bimap L R) :
    (a.swap b).1 = b ∧ (a.swap b).2 = a ∧
    (a.swap b).1.size = b.size ∧ (a.swap b).2.size = a.size ∧
    (a.swap b).1.left_pairs = b.left_pairs ∧ (a.swap b).2.left_pairs = a.left_pairs ∧
    (a.swap b).1.right_pairs = b.right_pairs ∧ (a.swap b).2.right_pairs = a.right_pairs ∧
    (∀ fuel, (a.swap b).1.walk_left fuel (a.swap b).1.begin_left =
      b.walk_left fuel b.begin_left) ∧
    (∀ fuel, (a.swap b).2.walk_left fuel (a.swap b).2.begin_left =
      a.walk_left fuel a.begin_left) ∧
    (∀ fuel, (a.swap b).1.walk_right fuel (a.swap b).1.begin_right =
      b.walk_right fuel b.begin_right) ∧
    (∀ fuel, (a.swap b).2.walk_right fuel (a.swap b).2.begin_right =
      a.walk_right fuel a.begin_right) ∧
    (∀ k, (a.swap b).1.find_left k = b.find_left k) ∧
    (∀ k, (a.swap b).2.find_left k = a.find_left k) ∧
    (∀ k, (a.swap b).1.find_right k = b.find_right k) ∧
    (∀ k, (a.swap b).2.find_right k = a.find_right k) ∧
    (a.swap b).1.swap (a.swap b).2 = (a, b) := by
  have h1 : (a.swap b).1 = b := by cases a; cases b; rfl
  have h2 : (a.swap b).2 = a := by cases a; cases b; rfl
  rw [h1, h2]
  refine ⟨rfl, rfl, rfl, rfl, rfl, rfl, rfl, rfl, fun _ => rfl, fun _ => rfl, fun _ => rfl,
    fun _ => rfl, fun _ => rfl, fun _ => rfl, fun _ => rfl, fun _ => rfl, ?_⟩
  cases a; cases b; rfl

/-- C17: for every left iterator, `it.flip().flip() == it` (the two hold the same
node), and `flip()` maps `end_left()` to `end_right()`; for every right iterator,
`it.flip().flip() == it`, and `flip()` maps `end_right()` to `end_left()`. -/
theorem flip_involutive (b : bimap L R) (it : left_iterator L R) (rit : right_iterator L R) :
    it.flip.flip.eq it = true ∧ it.flip.flip = it ∧
    b.end_left.flip = b.end_right ∧ b.end_left.flip.eq b.end_right = true ∧
    rit.flip.flip.eq rit = true ∧ rit.flip.flip = rit ∧
    b.end_right.flip = b.end_left ∧ b.end_right.flip.eq b.end_left = true :=
  ⟨Ptr.same_refl _, rfl, rfl, rfl, Ptr.same_refl _, rfl, rfl, rfl⟩

/-- For every container built from the empty one, over totally ordered keys, by
calls of `insert`, of the `erase_left` / `erase_right` overloads and of
`at_left_or_default` / `at_right_or_default`: iterating the left index and
iterating the right index both end within `size() + 1` steps, read the same pairs
(one sequence is a rearrangement of the other), read no pair twice, `size()` is
the number of pairs read, and `empty()` holds exactly when
`begin_left() == end_left()`. -/
theorem indices_hold_same_pairs (compare_left : L → L → Bool) (compare_right : R → R → Bool)
    (hcl : StrictTotal compare_left) (hcr : StrictTotal compare_right)
    (b : bimap L R) (h : Reachable compare_left compare_right b) :
    ∃ ls rs, b.walk_left (b.size + 1) b.begin_left = .ok ls ∧
      b.walk_right (b.size + 1) b.begin_right = .ok rs ∧
      ls.Perm rs ∧ ls.Nodup ∧ rs.Nodup ∧
      b.size = ls.length ∧ b.size = rs.length ∧
      (b.is_empty = true ↔ b.begin_left.eq b.end_left = true) := by
  have hwf := h.wf hcl hcr
  have hnd : b.left_pairs.Nodup := by
    refine (left_pairs_sorted hwf).imp ?_
    intro p q hpq heq
    rw [heq, hwf.left_order.irrefl] at hpq
    cases hpq
  have hperm := right_pairs_perm hwf
  refine ⟨b.left_pairs, b.right_pairs, ?_, ?_, hperm, hnd, (hperm.nodup_iff).mp hnd,
    ?_, ?_, ?_⟩
  · exact walk_left_begin hwf.addr_nodup _ (by rw [size, hwf.size_eq])
  · exact walk_right_begin hwf.addr_nodup_right _
      (by rw [size, hwf.size_eq, hwf.same_records.length_eq])
  · rw [size, hwf.size_eq, left_pairs, List.length_map]
  · rw [size, hwf.size_eq, hwf.same_records.length_eq, right_pairs, List.length_map]
  · rw [begin_left_eq, is_empty, hwf.size_eq]
    cases b.left_root.inorder with
    | nil => simp [left_iterator.eq, end_left, Ptr.same, head_or]
    | cons x rest => simp [left_iterator.eq, end_left, Ptr.same, head_or]

end bimap

/-- C20: every index tree that the engine builds from the empty tree with calls of
`insert` (any record, any heap key drawn) and `erase` is a max-heap on `heap_key`:
the `heap_key` of every node is greater than or equal to the `heap_key` of each of
its children.  And `merge(a, b)` of two heap-ordered trees with increasing keys,
every key of `a` preceding every key of `b`, is heap-ordered, its in-order
sequence is that of `a` followed by that of `b`, and its keys are increasing. -/
theorem details.engine_heap_order {L R T : Type} (compare : T → T → Bool)
    (get : details.bimap_value_element L R → T) (t : details.Tree L R)
    (ht : details.EngineReachable compare get t) (a b : details.Tree L R)
    (ha : details.Heap a) (hb : details.Heap b)
    (hsa : details.Increasing compare get a.inorder)
    (hsb : details.Increasing compare get b.inorder)
    (hab : ∀ x ∈ a.inorder, ∀ y ∈ b.inorder, compare (get x) (get y) = true) :
    details.Heap t ∧ details.Heap (details.merge a b) ∧
    (details.merge a b).inorder = a.inorder ++ b.inorder ∧
    details.Increasing compare get (details.merge a b).inorder :=
  ⟨ht.heap, details.heap_merge a b ha hb, details.inorder_merge a b,
    details.merge_increasing compare get a b hsa hsb hab⟩

/-! ## Witnesses and evaluations for the claims above -/

/-- C11: on an empty container `upper_bound_left(k)` dereferences the null iterator
that `lower_bound_left` returned, and `upper_bound_right` does the same.  With the
strict weak ordering `tens_less` and the container `{(1, 1)}`,
`upper_bound_left(2)` returns the iterator to the pair `(1, 1)`, although `2` does
not compare less than `1`: no stored left value is greater than `2`, and the call
should have returned `end_left()`. -/
theorem upper_bound_wrong_results :
    (∀ k : Nat, (bimap.empty nat_less nat_less).upper_bound_left k = .error .undefined) ∧
    (∀ k : Nat, (bimap.empty nat_less nat_less).upper_bound_right k = .error .undefined) ∧
    StrictWeak tens_less ∧
    tens_one.left_pairs = [(1, 1)] ∧
    tens_one.upper_bound_left 2 = .ok ⟨.elem ⟨0, 1, 1⟩⟩ ∧
    tens_less 2 1 = false ∧
    tens_one.upper_bound_right 2 = .ok ⟨.elem ⟨0, 1, 1⟩⟩ :=
  ⟨fun _ => rfl, fun _ => rfl, tens_less_strict_weak, rfl, rfl, rfl, rfl⟩

/-- An instance of `equal_whatever_insertion_order`: the pairs `(5, 50)` and
`(2, 80)` inserted in the two possible orders, with different heap keys. -/
theorem equal_whatever_insertion_order_witness :
    StrictTotal nat_less ∧
    ([(5, 50, 7, 3), (2, 80, 9, 1)].map (fun c : Nat × Nat × Nat × Nat => (c.1, c.2.1))).Perm
      ([(2, 80, 1, 1), (5, 50, 2, 2)].map (fun c : Nat × Nat × Nat × Nat => (c.1, c.2.1))) ∧
    ((bimap.empty nat_less nat_less).insert_all [(5, 50, 7, 3), (2, 80, 9, 1)]).1.equal
        ((bimap.empty nat_less nat_less).insert_all [(2, 80, 1, 1), (5, 50, 2, 2)]).1
        (((bimap.empty nat_less nat_less).insert_all
          [(5, 50, 7, 3), (2, 80, 9, 1)]).1.size + 1) = .ok true :=
  have hperm : ([(5, 50, 7, 3), (2, 80, 9, 1)].map
      (fun c : Nat × Nat × Nat × Nat => (c.1, c.2.1))).Perm
      ([(2, 80, 1, 1), (5, 50, 2, 2)].map (fun c : Nat × Nat × Nat × Nat => (c.1, c.2.1))) :=
    by decide
  have h := bimap.equal_whatever_insertion_order nat_less nat_less nat_less_strict_total
    nat_less_strict_total [(5, 50, 7, 3), (2, 80, 9, 1)] [(2, 80, 1, 1), (5, 50, 2, 2)]
    hperm (by decide) (by decide)
  ⟨nat_less_strict_total, hperm, h.1⟩

/-- An instance of `copy_constructed`: the copy of the container
`{(2, 80), (5, 50), (8, 10)}` with the heap keys `(n, 2 n)` drawn for the `n`-th
insertion. -/
theorem copy_constructed_witness :
    sample_three.WF ∧
    ∃ c, sample_three.copy (fun n => (n, 2 * n)) (sample_three.size + 1) = .ok c ∧
      c.size = sample_three.size ∧
      c.left_pairs = sample_three.left_pairs ∧ c.right_pairs = sample_three.right_pairs ∧
      c.equal sample_three (c.size + 1) = .ok true :=
  ⟨sample_three_wf,
    (bimap.copy_constructed sample_three sample_three_wf (fun n => (n, 2 * n))).imp
      (fun _ hc => ⟨hc.1, hc.2.1, hc.2.2.1, hc.2.2.2.1, hc.2.2.2.2.2.2.1⟩)⟩

/-- C18: move-constructing from the container `{(2, 80), (5, 50)}` leaves the source
with `size() == 2` and `begin_left() != end_left()`, and the new object and the
source hold the same records; move-assigning it to an empty container does the
same.  The source is not emptied. -/
theorem move_leaves_source_unchanged :
    (bimap.move_construct sample_two).2.size = 2 ∧
    (bimap.move_construct sample_two).2.begin_left.eq
      (bimap.move_construct sample_two).2.end_left = false ∧
    (bimap.move_construct sample_two).1.left_pairs = [(2, 80), (5, 50)] ∧
    (bimap.move_construct sample_two).2.left_pairs = [(2, 80), (5, 50)] ∧
    (bimap.move_construct sample_two).1.left_root =
      (bimap.move_construct sample_two).2.left_root ∧
    ((bimap.empty nat_less nat_less).move_assign sample_two).2.size = 2 ∧
    ((bimap.empty nat_less nat_less).move_assign sample_two).1.left_root =
      ((bimap.empty nat_less nat_less).move_assign sample_two).2.left_root :=
  ⟨rfl, rfl, rfl, rfl, rfl, rfl, rfl⟩

/-- An instance of `indices_hold_same_pairs`: the container `{(2, 80), (8, 10)}`
reached by three calls of `insert` and one of `erase_left`. -/
theorem indices_hold_same_pairs_witness :
    StrictTotal nat_less ∧ bimap.Reachable nat_less nat_less sample_erased ∧
    ∃ ls rs, sample_erased.walk_left (sample_erased.size + 1) sample_erased.begin_left = .ok ls ∧
      sample_erased.walk_right (sample_erased.size + 1) sample_erased.begin_right = .ok rs ∧
      ls.Perm rs ∧ ls.Nodup ∧ rs.Nodup ∧
      sample_erased.size = ls.length ∧ sample_erased.size = rs.length ∧
      (sample_erased.is_empty = true ↔
        sample_erased.begin_left.eq sample_erased.end_left = true) :=
  ⟨nat_less_strict_total, sample_erased_reachable,
    bimap.indices_hold_same_pairs nat_less nat_less nat_less_strict_total
      nat_less_strict_total sample_erased sample_erased_reachable⟩

/-- Witness of C20: the tree `engine_tree` built by two insertions and one erasure,
and the heap-ordered trees `heap_low` (keys `1`, `3`) and `heap_high` (keys `5`,
`8`). -/
theorem engine_heap_order_witness :
    details.EngineReachable nat_less details.bimap_value_element.left engine_tree ∧
    details.Heap heap_low ∧ details.Heap heap_high ∧
    details.Heap engine_tree ∧ details.Heap (details.merge heap_low heap_high) ∧
    (details.merge heap_low heap_high).inorder = heap_low.inorder ++ heap_high.inorder :=
  have hreach : details.EngineReachable nat_less details.bimap_value_element.left
      engine_tree := .erase 0 (.insert ⟨1, 2, 80⟩ 9 (.insert ⟨0, 5, 50⟩ 7 .empty))
  have hlow : details.Heap heap_low := by
    simp [heap_low, details.Heap, details.root_le]
  have hhigh : details.Heap heap_high := by
    simp [heap_high, details.Heap, details.root_le]
  have h := details.engine_heap_order nat_less details.bimap_value_element.left engine_tree
    hreach heap_low heap_high hlow hhigh
    (by simp [details.Increasing, heap_low, details.Tree.inorder, nat_less])
    (by simp [details.Increasing, heap_high, details.Tree.inorder, nat_less])
    (by decide)
  ⟨hreach, hlow, hhigh, h.1, h.2.1, h.2.2.1⟩

/-! ## `prev` and stepping back -/

namespace details

variable {L R T : Type}

theorem last_or_append (before : Ptr L R) (xs ys : List (bimap_value_element L R)) :
    last_or before (xs ++ ys) = last_or (last_or before xs) ys := by
  induction xs generalizing before with
  | nil => rfl
  | cons x rest ih => exact ih (.elem x)

theorem last_or_concat (before : Ptr L R) (xs : List (bimap_value_element L R))
    (m : bimap_value_element L R) : last_or before (xs ++ [m]) = .elem m := by
  rw [last_or_append]
  rfl

theorem list_prev_absent (before : Ptr L R) (a : Nat) (xs : List (bimap_value_element L R))
    (h : ∀ x ∈ xs, x.addr ≠ a) : list_prev before a xs = none := by
  induction xs generalizing before with
  | nil => rfl
  | cons x rest ih =>
    have hx : x.addr ≠ a := h x (by simp)
    simp only [list_prev, hx, if_false]
    exact ih _ (fun y hy => h y (by simp [hy]))

theorem list_prev_append (before : Ptr L R) (a : Nat) (xs ys : List (bimap_value_element L R)) :
    list_prev before a (xs ++ ys) =
      match list_prev before a xs with
      | some p => some p
      | none => list_prev (last_or before xs) a ys := by
  induction xs generalizing before with
  | nil => rfl
  | cons x rest ih =>
    by_cases hx : x.addr = a
    · simp [list_prev, hx]
    · simp only [List.cons_append, list_prev, hx, if_false, last_or]
      exact ih _

/-- The last record of the in-order sequence of a node is what `maximum` finds. -/
theorem last_or_inorder_node (before : Ptr L R) (l : Tree L R) (e : bimap_value_element L R)
    (k : Nat) (r : Tree L R) :
    last_or before (Tree.node l e k r).inorder = .elem (maximum e r) := by
  induction r generalizing before l e k with
  | nil =>
    rw [show (Tree.node l e k Tree.nil).inorder = l.inorder ++ [e] from rfl, last_or_concat]
    rfl
  | node rl re rk rr _ ihr =>
    rw [show (Tree.node l e k (Tree.node rl re rk rr)).inorder =
      l.inorder ++ e :: (Tree.node rl re rk rr).inorder from rfl, last_or_append]
    simp only [last_or]
    rw [ihr]
    rfl

theorem last_or_inorder (before : Ptr L R) (t : Tree L R) :
    last_or before t.inorder =
      match t with
      | .nil => before
      | .node _ e _ r => .elem (maximum e r) := by
  cases t with
  | nil => rfl
  | node l e k r => exact last_or_inorder_node before l e k r

/-- Following a pointer into a tree and calling `prev` yields the in-order
predecessor; above the tree, `prev_climb` of the chain of parents takes over. -/
theorem locate_prev (a : Nat) (t : Tree L R) (path : List (Crumb L R))
    (hnd : (t.inorder.map bimap_value_element.addr).Nodup) :
    (locate a t path).map prev = list_prev (prev_climb path) a t.inorder := by
  induction t generalizing path with
  | nil => rfl
  | node l e k r ihl ihr =>
    simp only [Tree.inorder, List.map_append, List.map_cons, List.nodup_append,
      List.nodup_cons] at hnd
    obtain ⟨hl, ⟨her, hr⟩, hdis⟩ := hnd
    rw [show (Tree.node l e k r).inorder = l.inorder ++ e :: r.inorder from rfl,
      list_prev_append]
    by_cases he : e.addr = a
    · have hla : ∀ x ∈ l.inorder, x.addr ≠ a := by
        intro x hx hxa
        exact hdis (List.mem_map_of_mem _ hx) (by rw [hxa, ← he]; simp)
      rw [list_prev_absent _ a _ hla]
      simp only [locate, he, if_true, Option.map_some', list_prev]
      rw [last_or_inorder]
      cases l <;> rfl
    · have ihl' := ihl (⟨e, .left⟩ :: path) hl
      have ihr' := ihr (⟨e, .right⟩ :: path) hr
      simp only [locate, he, if_false]
      have hclimb : prev_climb (⟨e, .left⟩ :: path) = prev_climb path := rfl
      rw [hclimb] at ihl'
      cases hloc : locate a l (⟨e, .left⟩ :: path) with
      | some n =>
        rw [hloc] at ihl'
        rw [← ihl']
        rfl
      | none =>
        rw [hloc] at ihl'
        rw [← ihl']
        simp only [list_prev, he, if_false]
        exact ihr'

theorem list_prev_mid (before : Ptr L R) (pre : List (bimap_value_element L R))
    (x : bimap_value_element L R) (post : List (bimap_value_element L R))
    (hnd : ((pre ++ x :: post).map bimap_value_element.addr).Nodup) :
    list_prev before x.addr (pre ++ x :: post) = some (last_or before pre) := by
  rw [list_prev_append]
  have hpre : ∀ y ∈ pre, y.addr ≠ x.addr := by
    intro y hy hyx
    simp only [List.map_append, List.map_cons, List.nodup_append, List.nodup_cons] at hnd
    exact hnd.2.2 (List.mem_map_of_mem _ hy) (by rw [hyx]; simp)
  rw [list_prev_absent _ _ _ hpre]
  simp [list_prev]

/-- The call `prev()` on a pointer to the record `x` of an index whose in-order
sequence is `pre ++ x :: post`: the last record of `pre`, or null when `x` is the
first record. -/
theorem ptr_prev_mid (root : Tree L R) (pre : List (bimap_value_element L R))
    (x : bimap_value_element L R) (post : List (bimap_value_element L R))
    (hin : root.inorder = pre ++ x :: post)
    (hnd : (root.inorder.map bimap_value_element.addr).Nodup) :
    Ptr.prev root (.elem x) = .ok (last_or .nullptr pre) := by
  have h := locate_prev x.addr root [] hnd
  rw [hin, list_prev_mid _ pre x post (by rw [← hin]; exact hnd)] at h
  simp only [Ptr.prev]
  cases hloc : locate x.addr root [] with
  | none => rw [hloc] at h; cases h
  | some n =>
    rw [hloc] at h
    simp only [Option.map_some', Option.some.injEq] at h
    simp only [h]
    rfl

/-- The call `prev()` on the sentinel of an index that is not empty yields the last
record of the in-order sequence. -/
theorem ptr_prev_sentinel (root : Tree L R) (init : List (bimap_value_element L R))
    (m : bimap_value_element L R) (hlast : root.inorder = init ++ [m]) :
    Ptr.prev root .sentinel = .ok (.elem m) := by
  have h := last_or_inorder (.nullptr : Ptr L R) root
  rw [hlast, last_or_concat] at h
  cases root with
  | nil => cases init <;> cases hlast
  | node l e k r =>
    simp only [] at h
    simp only [Ptr.prev, h]

/-- The call `next()` on a record followed by `prev()` on the result comes back to
the record. -/
theorem ptr_next_prev (root : Tree L R) (pre : List (bimap_value_element L R))
    (x : bimap_value_element L R) (post : List (bimap_value_element L R))
    (hin : root.inorder = pre ++ x :: post)
    (hnd : (root.inorder.map bimap_value_element.addr).Nodup) :
    Ptr.prev root (head_or .sentinel post) = .ok (.elem x) := by
  cases post with
  | nil => exact ptr_prev_sentinel root pre x hin
  | cons y rest =>
    have hin' : root.inorder = (pre ++ [x]) ++ y :: rest := by simp [hin]
    rw [show head_or Ptr.sentinel (y :: rest) = Ptr.elem y from rfl,
      ptr_prev_mid root (pre ++ [x]) y rest hin' hnd, last_or_concat]

end details

/-- C21: for every index tree whose nodes are distinct allocations (the links of
the tree are the `left`, `right` and `parent` links of the nodes, the root hangs
off the `left` slot of the sentinel) and every record `x` of it, with `x` between
`pre` and `post` in the in-order sequence and `m` the last record of that
sequence: `x.next()` is the record that follows `x`, or the sentinel when `x` is
the last one; `x.next().prev()` is `x`; `prev()` of the sentinel is `m`, whose key
is greater than every other key when the keys are increasing.  Hence, in every
container that has this tree as its left index or as its right index,
incrementing and then decrementing the iterator to `x` gives the iterator to `x`,
and decrementing the end iterator gives the iterator to `m`. -/
theorem details.next_prev_round_trip {L R : Type} (root : details.Tree L R)
    (hnd : (root.inorder.map details.bimap_value_element.addr).Nodup)
    (pre post init : List (details.bimap_value_element L R))
    (x m : details.bimap_value_element L R)
    (hin : root.inorder = pre ++ x :: post) (hlast : root.inorder = init ++ [m]) :
    details.Ptr.next root (.elem x) =
      .ok (match post with
        | [] => .sentinel
        | y :: _ => .elem y) ∧
    (∃ p, details.Ptr.next root (.elem x) = .ok p ∧
      details.Ptr.prev root p = .ok (.elem x)) ∧
    details.Ptr.prev root .sentinel = .ok (.elem m) ∧
    (∀ (T : Type) (compare : T → T → Bool) (get : details.bimap_value_element L R → T),
      details.Increasing compare get root.inorder →
      ∀ e ∈ init, compare (get e) (get m) = true) ∧
    (∀ b : bimap L R, b.left_root = root →
      (∃ it, b.incr_left ⟨.elem x⟩ = .ok it ∧ b.decr_left it = .ok ⟨.elem x⟩) ∧
      b.decr_left b.end_left = .ok ⟨.elem m⟩) ∧
    (∀ b : bimap L R, b.right_root = root →
      (∃ it, b.incr_right ⟨.elem x⟩ = .ok it ∧ b.decr_right it = .ok ⟨.elem x⟩) ∧
      b.decr_right b.end_right = .ok ⟨.elem m⟩) := by
  have hnext := details.ptr_next_mid root pre x post hin hnd
  have hback := details.ptr_next_prev root pre x post hin hnd
  have hend := details.ptr_prev_sentinel root init m hlast
  refine ⟨?_, ⟨_, hnext, hback⟩, hend, ?_, ?_, ?_⟩
  · rw [hnext]
    cases post <;> rfl
  · intro T compare get hs e he
    rw [hlast] at hs
    simp only [details.Increasing, List.pairwise_append, List.pairwise_cons] at hs
    exact hs.2.2 e he m (by simp)
  · intro b hb
    subst hb
    refine ⟨⟨⟨details.head_or .sentinel post⟩, ?_, ?_⟩, ?_⟩
    · simp only [bimap.incr_left, hnext, Except.map]
    · simp only [bimap.decr_left, hback, Except.map]
    · simp only [bimap.decr_left, bimap.end_left, hend, Except.map]
  · intro b hb
    subst hb
    refine ⟨⟨⟨details.head_or .sentinel post⟩, ?_, ?_⟩, ?_⟩
    · simp only [bimap.incr_right, hnext, Except.map]
    · simp only [bimap.decr_right, hback, Except.map]
    · simp only [bimap.decr_right, bimap.end_right, hend, Except.map]

/-- Witness of C21: the left index of the container `{(2, 80), (5, 50), (8, 10)}`,
with `x` the record `(5, 50)` and `m` the record `(8, 10)`. -/
theorem next_prev_round_trip_witness :
    (sample_three.left_root.inorder.map details.bimap_value_element.addr).Nodup ∧
    sample_three.left_root.inorder = [⟨1, 2, 80⟩] ++ ⟨0, 5, 50⟩ :: [⟨2, 8, 10⟩] ∧
    sample_three.left_root.inorder = [⟨1, 2, 80⟩, ⟨0, 5, 50⟩] ++ [⟨2, 8, 10⟩] ∧
    details.Ptr.next sample_three.left_root (.elem ⟨0, 5, 50⟩) = .ok (.elem ⟨2, 8, 10⟩) ∧
    (∃ p, details.Ptr.next sample_three.left_root (.elem ⟨0, 5, 50⟩) = .ok p ∧
      details.Ptr.prev sample_three.left_root p = .ok (.elem ⟨0, 5, 50⟩)) ∧
    details.Ptr.prev sample_three.left_root .sentinel = .ok (.elem ⟨2, 8, 10⟩) ∧
    (∃ it, sample_three.incr_left ⟨.elem ⟨0, 5, 50⟩⟩ = .ok it ∧
      sample_three.decr_left it = .ok ⟨.elem ⟨0, 5, 50⟩⟩) ∧
    sample_three.decr_left sample_three.end_left = .ok ⟨.elem ⟨2, 8, 10⟩⟩ :=
  have hnd : (sample_three.left_root.inorder.map details.bimap_value_element.addr).Nodup :=
    by decide
  have h := details.next_prev_round_trip sample_three.left_root hnd [⟨1, 2, 80⟩] [⟨2, 8, 10⟩]
    [⟨1, 2, 80⟩, ⟨0, 5, 50⟩] ⟨0, 5, 50⟩ ⟨2, 8, 10⟩ rfl rfl
  ⟨hnd, rfl, rfl, h.1, h.2.1, h.2.2.1, (h.2.2.2.2.1 sample_three rfl).1,
    (h.2.2.2.2.1 sample_three rfl).2⟩

/-! ## What holds for every comparator

The lemmas below assume nothing about the comparators: whatever the descents of
`lower_bound` do, the record they return is one of the tree, so `insert` and the
`erase` overloads keep both indices on the same records. -/

namespace details

variable {L R T : Type}

/-- A record returned through the descent of `lower_bound` is a record of the
tree, or the one the climb from the path above the tree stops at. -/
theorem lower_bound_loop_mem (compare : T → T → Bool) (get : bimap_value_element L R → T)
    (val : T) (t : Tree L R) (path : List (Crumb L R)) (cur : Node L R)
    (x : bimap_value_element L R)
    (h : lower_bound_loop compare get val t path = some cur)
    (hx : lower_bound_result compare get val cur = .elem x) :
    x ∈ t.inorder ∨ next_climb path = .elem x := by
  induction t generalizing path with
  | nil => simp [lower_bound_loop] at h
  | node l e k r ihl ihr =>
    unfold lower_bound_loop at h
    by_cases hc : compare (get e) val = true
    · simp only [hc, if_true] at h
      cases r with
      | nil =>
        simp only [Option.some.injEq] at h
        subst h
        simp only [lower_bound_result, hc, if_true, next] at hx
        exact Or.inr hx
      | node rl re rk rr =>
        simp only [] at h
        rcases ihr _ h with hm | hm
        · left
          simp only [Tree.inorder, List.mem_append, List.mem_cons] at hm ⊢
          exact Or.inr (Or.inr hm)
        · right
          simpa [next_climb] using hm
    · have hc' : compare (get e) val = false := by simpa using hc
      simp only [hc', Bool.false_eq_true, if_false] at h
      cases l with
      | nil =>
        simp only [Option.some.injEq] at h
        subst h
        simp only [lower_bound_result, hc', Bool.false_eq_true, if_false,
          Ptr.elem.injEq] at hx
        left
        subst hx
        simp [Tree.inorder]
      | node ll le lk lr =>
        simp only [] at h
        rcases ihl _ h with hm | hm
        · left
          simp only [Tree.inorder, List.mem_append, List.mem_cons] at hm ⊢
          exact Or.inl hm
        · left
          simp only [next_climb, Ptr.elem.injEq] at hm
          subst hm
          simp [Tree.inorder]

/-- A record returned by `lower_bound` is a record of the tree, whatever the
comparator. -/
theorem lower_bound_mem (compare : T → T → Bool) (get : bimap_value_element L R → T)
    (root : Tree L R) (val : T) (x : bimap_value_element L R)
    (h : lower_bound compare get root val = .elem x) : x ∈ root.inorder := by
  cases root with
  | nil => simp [lower_bound] at h
  | node l e k r =>
    simp only [lower_bound] at h
    cases hloop : lower_bound_loop compare get val (.node l e k r) [] with
    | none => simp [hloop] at h
    | some cur =>
      simp only [hloop] at h
      rcases lower_bound_loop_mem compare get val _ [] cur x hloop h with hm | hm
      · exact hm
      · simp [next_climb] at hm

end details

namespace bimap

variable {L R : Type} [DecidableEq L] [DecidableEq R]

theorem find_left_node_mem (b : bimap L R) (left : L) (p : bimap_value_element L R)
    (h : b.find_left_node left = .elem p) : p ∈ b.left_root.inorder := by
  unfold find_left_node at h
  cases hlb : lower_bound b.compare_left bimap_value_element.left b.left_root left with
  | nullptr => simp [hlb] at h
  | sentinel => simp [hlb] at h
  | elem q =>
    simp only [hlb] at h
    split at h
    · cases h
    · simp only [Ptr.elem.injEq] at h
      subst h
      exact lower_bound_mem _ _ _ _ _ hlb

theorem find_right_node_mem (b : bimap L R) (right : R) (p : bimap_value_element L R)
    (h : b.find_right_node right = .elem p) : p ∈ b.right_root.inorder := by
  unfold find_right_node at h
  cases hlb : lower_bound b.compare_right bimap_value_element.right b.right_root right with
  | nullptr => simp [hlb] at h
  | sentinel => simp [hlb] at h
  | elem q =>
    simp only [hlb] at h
    split at h
    · cases h
    · simp only [Ptr.elem.injEq] at h
      subst h
      exact lower_bound_mem _ _ _ _ _ hlb

theorem WF.to_consistent {b : bimap L R} (hb : b.WF) : b.Consistent :=
  ⟨hb.same_records, hb.size_eq, hb.addr_nodup, hb.addr_lt⟩

theorem Consistent.right_addr_nodup {b : bimap L R} (hb : b.Consistent) :
    (b.right_root.inorder.map bimap_value_element.addr).Nodup :=
  (hb.same_records.map _).nodup_iff.mp hb.addr_nodup

theorem Consistent_empty (compare_left : L → L → Bool) (compare_right : R → R → Bool) :
    (empty compare_left compare_right).Consistent where
  same_records := List.Perm.refl _
  size_eq := rfl
  addr_nodup := List.nodup_nil
  addr_lt := fun e he => by cases he

theorem Consistent_inserted {b : bimap L R} (hb : b.Consistent) (left : L) (right : R)
    (hk_left hk_right : Nat) : (b.inserted left right hk_left hk_right).Consistent where
  same_records :=
    (inserted_left_perm b left right hk_left hk_right).trans
      ((List.Perm.cons _ hb.same_records).trans
        (inserted_right_perm b left right hk_left hk_right).symm)
  size_eq := by
    rw [(inserted_left_perm b left right hk_left hk_right).length_eq]
    simp [inserted, hb.size_eq]
  addr_nodup := by
    rw [((inserted_left_perm b left right hk_left hk_right).map _).nodup_iff]
    simp only [List.map_cons, List.nodup_cons]
    refine ⟨?_, hb.addr_nodup⟩
    intro hmem
    obtain ⟨e, he, hea⟩ := List.mem_map.mp hmem
    have := hb.addr_lt e he
    omega
  addr_lt := by
    intro e he
    rw [(inserted_left_perm b left right hk_left hk_right).mem_iff] at he
    simp only [List.mem_cons] at he
    rcases he with he | he
    · subst he
      simp [inserted]
    · have := hb.addr_lt e he
      simp only [inserted]
      omega

/-- Every call of `insert`, accepted or rejected, keeps both indices on the same
records. -/
theorem Consistent_insert {b : bimap L R} (hb : b.Consistent) (left : L) (right : R)
    (hk_left hk_right : Nat) : (b.insert left right hk_left hk_right).2.Consistent := by
  unfold insert insert_impl
  split
  · exact hb
  · exact Consistent_inserted hb left right hk_left hk_right

theorem Consistent_erase {b : bimap L R} (hb : b.Consistent) (p : bimap_value_element L R)
    (hp : p.addr ∈ b.left_root.inorder.map bimap_value_element.addr) :
    (b.erase p).Consistent := by
  have hl : (b.erase p).left_root.inorder =
      b.left_root.inorder.filter (fun e => decide (e.addr ≠ p.addr)) :=
    inorder_erase p.addr b.left_root hb.addr_nodup
  have hr : (b.erase p).right_root.inorder =
      b.right_root.inorder.filter (fun e => decide (e.addr ≠ p.addr)) :=
    inorder_erase p.addr b.right_root hb.right_addr_nodup
  refine ⟨?_, ?_, ?_, ?_⟩
  · rw [hl, hr]
    exact hb.same_records.filter _
  · rw [hl]
    have := length_filter_addr_ne p.addr _ hb.addr_nodup hp
    have hs := hb.size_eq
    simp only [erase]
    omega
  · rw [hl]
    exact (List.filter_sublist _).map _ |>.nodup hb.addr_nodup
  · intro e he
    rw [hl] at he
    exact hb.addr_lt e (List.mem_of_mem_filter he)

theorem Consistent_erase_left {b : bimap L R} (hb : b.Consistent) (left : L) :
    (b.erase_left left).2.Consistent := by
  unfold erase_left
  cases h : b.find_left_node left with
  | nullptr => exact hb
  | sentinel => exact hb
  | elem p =>
    exact Consistent_erase hb p (List.mem_map_of_mem _ (find_left_node_mem b left p h))

theorem Consistent_erase_right {b : bimap L R} (hb : b.Consistent) (right : R) :
    (b.erase_right right).2.Consistent := by
  unfold erase_right
  cases h : b.find_right_node right with
  | nullptr => exact hb
  | sentinel => exact hb
  | elem p =>
    exact Consistent_erase hb p (List.mem_map_of_mem _
      ((hb.same_records.mem_iff).mpr (find_right_node_mem b right p h)))

theorem Consistent_erase_left_it {b : bimap L R} (hb : b.Consistent) (it : left_iterator L R)
    (res : left_iterator L R × bimap L R) (h : b.erase_left_it it = .ok res) :
    res.2.Consistent := by
  unfold erase_left_it incr_left at h
  cases hn : it.node with
  | nullptr => simp [hn, Ptr.next, Except.map] at h
  | sentinel => simp [hn, Ptr.next, Except.map] at h
  | elem e =>
    simp only [hn, Ptr.next] at h
    cases hloc : locate e.addr b.left_root [] with
    | none => simp [hloc, Except.map] at h
    | some n =>
      simp only [hloc, Except.map, Except.ok.injEq] at h
      rw [← h]
      exact Consistent_erase hb e (locate_some_mem _ _ _ _ hloc)

theorem Consistent_erase_right_it {b : bimap L R} (hb : b.Consistent)
    (it : right_iterator L R) (res : right_iterator L R × bimap L R)
    (h : b.erase_right_it it = .ok res) : res.2.Consistent := by
  unfold erase_right_it incr_right at h
  cases hn : it.node with
  | nullptr => simp [hn, Ptr.next, Except.map] at h
  | sentinel => simp [hn, Ptr.next, Except.map] at h
  | elem e =>
    simp only [hn, Ptr.next] at h
    cases hloc : locate e.addr b.right_root [] with
    | none => simp [hloc, Except.map] at h
    | some n =>
      simp only [hloc, Except.map, Except.ok.injEq] at h
      rw [← h]
      refine Consistent_erase hb e ?_
      have := locate_some_mem _ _ _ _ hloc
      exact ((hb.same_records.map _).mem_iff).mpr this

theorem Consistent_erase_left_range (fuel : Nat) {b : bimap L R} (hb : b.Consistent)
    (first last : left_iterator L R) (res : left_iterator L R × bimap L R)
    (h : erase_left_range fuel b first last = .ok res) : res.2.Consistent := by
  induction fuel generalizing b first with
  | zero => simp [erase_left_range] at h
  | succ fuel ih =>
    simp only [erase_left_range] at h
    split at h
    · simp only [Except.ok.injEq] at h
      rw [← h]; exact hb
    · split at h
      · cases h
      · split at h
        · cases h
        · rename_i res1 hres1
          exact ih (Consistent_erase_left_it hb first res1 hres1) _ h

theorem Consistent_erase_right_range (fuel : Nat) {b : bimap L R} (hb : b.Consistent)
    (first last : right_iterator L R) (res : right_iterator L R × bimap L R)
    (h : erase_right_range fuel b first last = .ok res) : res.2.Consistent := by
  induction fuel generalizing b first with
  | zero => simp [erase_right_range] at h
  | succ fuel ih =>
    simp only [erase_right_range] at h
    split at h
    · simp only [Except.ok.injEq] at h
      rw [← h]; exact hb
    · split at h
      · cases h
      · split at h
        · cases h
        · rename_i res1 hres1
          exact ih (Consistent_erase_right_it hb first res1 hres1) _ h

theorem Consistent_at_left_or_default {b : bimap L R} (hb : b.Consistent) (to_left : R → L)
    (dflt : R) (key : L) (hk_left hk_right : Nat) (res : R × bimap L R)
    (h : at_left_or_default to_left dflt b key hk_left hk_right = .ok res) :
    res.2.Consistent := by
  rcases at_left_or_default_cases to_left dflt b key hk_left hk_right res h with
    h1 | h1 | ⟨def_it, res1, her, h1⟩
  · rw [h1]; exact hb
  · rw [h1]; exact Consistent_insert hb _ _ _ _
  · rw [h1]
    exact Consistent_insert
      (Consistent_erase_left (Consistent_erase_right_it hb def_it res1 her) _) _ _ _ _

theorem Consistent_at_right_or_default {b : bimap L R} (hb : b.Consistent) (to_right : L → R)
    (dflt : L) (key : R) (hk_left hk_right : Nat) (res : L × bimap L R)
    (h : at_right_or_default to_right dflt b key hk_left hk_right = .ok res) :
    res.2.Consistent := by
  rcases at_right_or_default_cases to_right dflt b key hk_left hk_right res h with
    h1 | h1 | ⟨def_it, res1, her, h1⟩
  · rw [h1]; exact hb
  · rw [h1]; exact Consistent_insert hb _ _ _ _
  · rw [h1]
    exact Consistent_insert
      (Consistent_erase_right (Consistent_erase_left_it hb def_it res1 her) _) _ _ _ _

/-- Every container built from the empty one, with any comparators, keeps both
indices on the same records, counted by `size_`. -/
theorem Reachable.consistent {compare_left : L → L → Bool} {compare_right : R → R → Bool}
    {b : bimap L R} (h : Reachable compare_left compare_right b) : b.Consistent := by
  induction h with
  | empty => exact Consistent_empty _ _
  | insert left right hk_left hk_right _ ih => exact Consistent_insert ih _ _ _ _
  | erase_left left _ ih => exact Consistent_erase_left ih _
  | erase_right right _ ih => exact Consistent_erase_right ih _
  | erase_left_it it res _ hres ih => exact Consistent_erase_left_it ih it res hres
  | erase_right_it it res _ hres ih => exact Consistent_erase_right_it ih it res hres
  | erase_left_range fuel first last res _ hres ih =>
    exact Consistent_erase_left_range fuel ih first last res hres
  | erase_right_range fuel first last res _ hres ih =>
    exact Consistent_erase_right_range fuel ih first last res hres
  | at_left_or_default to_left dflt key hk_left hk_right res _ hres ih =>
    exact Consistent_at_left_or_default ih to_left dflt key hk_left hk_right res hres
  | at_right_or_default to_right dflt key hk_left hk_right res _ hres ih =>
    exact Consistent_at_right_or_default ih to_right dflt key hk_left hk_right res hres

/-! ## The positions a loop over an index passes -/

theorem visit_left_from {b : bimap L R}
    (hnd : (b.left_root.inorder.map bimap_value_element.addr).Nodup)
    (post pre : List (bimap_value_element L R)) (x : bimap_value_element L R) (fuel : Nat)
    (hin : b.left_root.inorder = pre ++ x :: post) (hfuel : post.length + 2 ≤ fuel) :
    b.visit_left fuel ⟨.elem x⟩ =
      .ok ((x :: post).map (fun e => (⟨.elem e⟩ : left_iterator L R))) := by
  induction post generalizing pre x fuel with
  | nil =>
    obtain ⟨f, rfl⟩ : ∃ f, fuel = f + 1 := ⟨fuel - 1, by simp at hfuel; omega⟩
    obtain ⟨g, rfl⟩ : ∃ g, f = g + 1 := ⟨f - 1, by simp at hfuel; omega⟩
    have hnext := ptr_next_mid b.left_root pre x [] hin hnd
    simp [visit_left, left_iterator.eq, end_left, Ptr.same, incr_left, hnext, Except.map,
      head_or]
  | cons y post ih =>
    obtain ⟨f, rfl⟩ : ∃ f, fuel = f + 1 := ⟨fuel - 1, by simp at hfuel; omega⟩
    have hnext := ptr_next_mid b.left_root pre x (y :: post) hin hnd
    have hrec := ih (pre ++ [x]) y f (by simp [hin]) (by simp at hfuel ⊢; omega)
    simp only [visit_left, left_iterator.eq, end_left, Ptr.same, incr_left, hnext,
      Except.map, head_or]
    simp [hrec]

/-- The loop from `begin_left()` to `end_left()` ends within `size() + 1` steps and
passes the records of the left index, each at its own position, in order. -/
theorem visit_left_begin {b : bimap L R}
    (hnd : (b.left_root.inorder.map bimap_value_element.addr).Nodup) (fuel : Nat)
    (hfuel : b.left_root.inorder.length + 1 ≤ fuel) :
    b.visit_left fuel b.begin_left =
      .ok (b.left_root.inorder.map (fun e => (⟨.elem e⟩ : left_iterator L R))) := by
  unfold begin_left
  cases hroot : b.left_root with
  | nil =>
    obtain ⟨f, rfl⟩ : ∃ f, fuel = f + 1 := ⟨fuel - 1, by omega⟩
    simp [visit_left, left_iterator.eq, end_left, Ptr.same, Tree.inorder]
  | node l e k r =>
    obtain ⟨rest, hrest⟩ := inorder_node_eq_minimum_cons l e k r
    simp only []
    rw [hroot, hrest] at hfuel
    have := visit_left_from hnd rest [] (minimum e l) fuel (by rw [hroot, hrest]; rfl)
      (by simp at hfuel ⊢; omega)
    rw [this, hrest]

theorem visit_right_from {b : bimap L R}
    (hnd : (b.right_root.inorder.map bimap_value_element.addr).Nodup)
    (post pre : List (bimap_value_element L R)) (x : bimap_value_element L R) (fuel : Nat)
    (hin : b.right_root.inorder = pre ++ x :: post) (hfuel : post.length + 2 ≤ fuel) :
    b.visit_right fuel ⟨.elem x⟩ =
      .ok ((x :: post).map (fun e => (⟨.elem e⟩ : right_iterator L R))) := by
  induction post generalizing pre x fuel with
  | nil =>
    obtain ⟨f, rfl⟩ : ∃ f, fuel = f + 1 := ⟨fuel - 1, by simp at hfuel; omega⟩
    obtain ⟨g, rfl⟩ : ∃ g, f = g + 1 := ⟨f - 1, by simp at hfuel; omega⟩
    have hnext := ptr_next_mid b.right_root pre x [] hin hnd
    simp [visit_right, right_iterator.eq, end_right, Ptr.same, incr_right, hnext,
      Except.map, head_or]
  | cons y post ih =>
    obtain ⟨f, rfl⟩ : ∃ f, fuel = f + 1 := ⟨fuel - 1, by simp at hfuel; omega⟩
    have hnext := ptr_next_mid b.right_root pre x (y :: post) hin hnd
    have hrec := ih (pre ++ [x]) y f (by simp [hin]) (by simp at hfuel ⊢; omega)
    simp only [visit_right, right_iterator.eq, end_right, Ptr.same, incr_right, hnext,
      Except.map, head_or]
    simp [hrec]

theorem visit_right_begin {b : bimap L R}
    (hnd : (b.right_root.inorder.map bimap_value_element.addr).Nodup) (fuel : Nat)
    (hfuel : b.right_root.inorder.length + 1 ≤ fuel) :
    b.visit_right fuel b.begin_right =
      .ok (b.right_root.inorder.map (fun e => (⟨.elem e⟩ : right_iterator L R))) := by
  unfold begin_right
  cases hroot : b.right_root with
  | nil =>
    obtain ⟨f, rfl⟩ : ∃ f, fuel = f + 1 := ⟨fuel - 1, by omega⟩
    simp [visit_right, right_iterator.eq, end_right, Ptr.same, Tree.inorder]
  | node l e k r =>
    obtain ⟨rest, hrest⟩ := inorder_node_eq_minimum_cons l e k r
    simp only []
    rw [hroot, hrest] at hfuel
    have := visit_right_from hnd rest [] (minimum e l) fuel (by rw [hroot, hrest]; rfl)
      (by simp at hfuel ⊢; omega)
    rw [this, hrest]

theorem tens_thrice_reachable : Reachable tens_less tens_less tens_thrice.1 :=
  .insert 1 1 0 0 (.insert 2 2 0 0 (.insert 1 1 0 0 .empty))

end bimap

/-! ## Claims settled on keys that are equivalent without being equal

`find_left_node` and `find_right_node` accept the record that `lower_bound`
returns only when its key is `==` to the key asked for, whereas the trees are
ordered by the comparators and `operator==` of two containers compares keys
through the comparators.  With a strict weak ordering under which different keys
are equivalent, such as `tens_less`, the evaluations below show what the methods
return. -/

theorem tens_run_reachable : bimap.Reachable tens_less tens_less tens_run.1 :=
  .insert 2 2 0 0 (.insert 1 1 0 0 .empty)

/-- C1: with the comparator `tens_less`, a strict weak ordering, on both sides, the
container `{(1, 1)}` stores neither the left value `2` nor the right value `2`,
and `find_left(1)` and `find_right(1)` find its pair.  `insert(2, 2)` returns an
iterator at the new pair and `size()` becomes `2`, but afterwards `find_left(1)`
returns `end_left()` and `find_right(1)` returns `end_right()`: the pair stored
before is not found any more.  The same holds for a new pair whose values are
equivalent to no stored value: in the container of the run `insert(1, 1)`,
`insert(2, 2)`, after the accepted call `insert(15, 15)` the stored pair `(1, 1)`
is not found by `find_left(1)` and not by `find_right(1)`. -/
theorem insert_hides_stored_pair :
    StrictWeak tens_less ∧
    tens_one.left_pairs = [(1, 1)] ∧
    (∀ p ∈ tens_one.left_pairs, p.1 ≠ 2) ∧ (∀ p ∈ tens_one.left_pairs, p.2 ≠ 2) ∧
    tens_one.find_left 1 = .ok ⟨.elem ⟨0, 1, 1⟩⟩ ∧
    tens_one.find_right 1 = .ok ⟨.elem ⟨0, 1, 1⟩⟩ ∧
    (tens_one.insert 2 2 5 6).1 = ⟨.elem ⟨1, 2, 2⟩⟩ ∧
    (tens_one.insert 2 2 5 6).2.size = 2 ∧
    (tens_one.insert 2 2 5 6).2.left_pairs = [(2, 2), (1, 1)] ∧
    (tens_one.insert 2 2 5 6).2.find_left 1 = .ok (tens_one.insert 2 2 5 6).2.end_left ∧
    (tens_one.insert 2 2 5 6).2.find_right 1 = .ok (tens_one.insert 2 2 5 6).2.end_right ∧
    tens_run.1.left_pairs = [(2, 2), (1, 1)] ∧
    tens_less 1 15 = true ∧ tens_less 2 15 = true ∧
    (tens_run.1.insert 15 15 3 4).1 = ⟨.elem ⟨2, 15, 15⟩⟩ ∧
    (tens_run.1.insert 15 15 3 4).2.size = 3 ∧
    (tens_run.1.insert 15 15 3 4).2.left_pairs = [(2, 2), (1, 1), (15, 15)] ∧
    (tens_run.1.insert 15 15 3 4).2.find_left 1 =
      .ok (tens_run.1.insert 15 15 3 4).2.end_left ∧
    (tens_run.1.insert 15 15 3 4).2.find_right 1 =
      .ok (tens_run.1.insert 15 15 3 4).2.end_right :=
  ⟨tens_less_strict_weak, by decide, by decide, by decide, rfl, rfl, rfl, by decide,
    by decide, rfl, rfl, by decide, by decide, by decide, rfl, by decide, by decide, rfl,
    rfl⟩

/-- C2: with the comparator `tens_less`, a strict weak ordering, on both sides, the
container of the run `insert(1, 1)`, `insert(2, 2)` stores the left value `1`, and
yet `insert(1, 21)` is accepted: it returns an iterator at a new pair, not
`end_left()`, `size()` goes from `2` to `3`, and iterating the left index then
reads `(1, 21)`, `(2, 2)`, `(1, 1)`. -/
theorem insert_accepts_stored_left :
    StrictWeak tens_less ∧
    tens_run.1.left_pairs = [(2, 2), (1, 1)] ∧
    (∃ p ∈ tens_run.1.left_pairs, p.1 = 1) ∧
    tens_run.1.size = 2 ∧
    (tens_run.1.insert 1 21 3 4).1 = ⟨.elem ⟨2, 1, 21⟩⟩ ∧
    (tens_run.1.insert 1 21 3 4).1.eq tens_run.1.end_left = false ∧
    (tens_run.1.insert 1 21 3 4).2.size = 3 ∧
    (tens_run.1.insert 1 21 3 4).2.left_pairs = [(1, 21), (2, 2), (1, 1)] ∧
    (tens_run.1.insert 1 21 3 4).2.walk_left 4 (tens_run.1.insert 1 21 3 4).2.begin_left =
      .ok [(1, 21), (2, 2), (1, 1)] :=
  ⟨tens_less_strict_weak, by decide, ⟨(1, 1), by decide, rfl⟩, by decide, rfl, by decide,
    by decide, by decide, rfl⟩

/-- C4: with the comparator `tens_less`, a strict weak ordering, on both sides, both
calls of the run `insert(1, 1)`, `insert(2, 2)` on an empty container succeed, and
afterwards `find_left(1)` returns `end_left()` and `find_right(1)` returns
`end_right()` for the pair `(1, 1)` of the first call, while `find_left(2)` finds
the pair of the second. -/
theorem inserted_pair_not_found :
    StrictWeak tens_less ∧
    tens_run.2 = [(1, 1), (2, 2)] ∧
    (1, 1) ∈ tens_run.2 ∧
    tens_run.1.find_left 1 = .ok tens_run.1.end_left ∧
    tens_run.1.find_right 1 = .ok tens_run.1.end_right ∧
    tens_run.1.find_left 2 = .ok ⟨.elem ⟨1, 2, 2⟩⟩ :=
  ⟨tens_less_strict_weak, by decide, by decide, rfl, rfl, rfl⟩

/-- C5: with the comparator `tens_less`, a strict weak ordering, on both sides, the
container built by `insert(1, 1)`, `insert(2, 2)` is read by iterating from
`begin_left()` to `end_left()` as `(2, 2)`, `(1, 1)` and from `begin_right()` to
`end_right()` as `(2, 2)`, `(1, 1)`: the left values `2`, `1` are not strictly
increasing under the comparator, since `tens_less 2 1` is false, and neither are
the right values. -/
theorem iteration_not_increasing :
    StrictWeak tens_less ∧
    bimap.Reachable tens_less tens_less tens_run.1 ∧
    tens_run.1.walk_left (tens_run.1.size + 1) tens_run.1.begin_left =
      .ok [(2, 2), (1, 1)] ∧
    tens_run.1.walk_right (tens_run.1.size + 1) tens_run.1.begin_right =
      .ok [(2, 2), (1, 1)] ∧
    tens_less 2 1 = false ∧
    ¬ ([(2, 2), (1, 1)].map Prod.fst).Pairwise (fun x y => tens_less x y = true) ∧
    ¬ ([(2, 2), (1, 1)].map Prod.snd).Pairwise (fun x y => tens_less x y = true) :=
  ⟨tens_less_strict_weak, tens_run_reachable, rfl, rfl, by decide, by decide, by decide⟩

/-- C15: with the comparator `tens_less`, a strict weak ordering, on both sides, the
container built by `insert(1, 1)`, `insert(2, 2)` lists `(2, 2)`, `(1, 1)` in left
order and in right order, and its copy lists `(1, 1)`, `(2, 2)` in left order and
in right order, which is also what iterating the copy reads: the sequences of the
copy are not those of the source. -/
theorem copy_lists_other_sequence :
    StrictWeak tens_less ∧
    bimap.Reachable tens_less tens_less tens_run.1 ∧
    tens_run.1.left_pairs = [(2, 2), (1, 1)] ∧
    tens_run.1.right_pairs = [(2, 2), (1, 1)] ∧
    ∃ c, tens_run.1.copy (fun n => (n, 2 * n)) (tens_run.1.size + 1) = .ok c ∧
      c.size = 2 ∧
      c.left_pairs = [(1, 1), (2, 2)] ∧ c.right_pairs = [(1, 1), (2, 2)] ∧
      c.walk_left (c.size + 1) c.begin_left = .ok [(1, 1), (2, 2)] ∧
      c.walk_right (c.size + 1) c.begin_right = .ok [(1, 1), (2, 2)] :=
  ⟨tens_less_strict_weak, tens_run_reachable, by decide, by decide,
    _, rfl, by decide, by decide, by decide, rfl, rfl⟩

namespace bimap

variable {L R : Type} [DecidableEq L] [DecidableEq R]

/-- C19: for every container built from the empty one, with any comparators, by
calls of `insert`, of the `erase_left` / `erase_right` overloads (by key, by
iterator, by range) and of `at_left_or_default` / `at_right_or_default`: the loop
from `begin_left()` to `end_left()` and the loop from `begin_right()` to
`end_right()` both end within `size() + 1` steps; the first passes the positions
of the pair records of the left index and the second those of the right index,
and reading through the positions gives the pairs in left and in right order;
the records passed by the one loop are those passed by the other, rearranged; no
record is passed twice by either loop (the addresses are pairwise different, so
the iterators at two positions of one loop compare unequal); `size()` is the
number of records passed by each; and `empty()` holds exactly when
`begin_left() == end_left()`.  A pair here is a stored pair record: two records
can hold equal values when the comparators are coarser than equality. -/
theorem indices_hold_same_records (compare_left : L → L → Bool)
    (compare_right : R → R → Bool) (b : bimap L R)
    (h : Reachable compare_left compare_right b) :
    b.visit_left (b.size + 1) b.begin_left =
      .ok (b.left_root.inorder.map (fun e => (⟨.elem e⟩ : left_iterator L R))) ∧
    b.visit_right (b.size + 1) b.begin_right =
      .ok (b.right_root.inorder.map (fun e => (⟨.elem e⟩ : right_iterator L R))) ∧
    b.walk_left (b.size + 1) b.begin_left = .ok b.left_pairs ∧
    b.walk_right (b.size + 1) b.begin_right = .ok b.right_pairs ∧
    b.left_root.inorder.Perm b.right_root.inorder ∧
    b.left_pairs.Perm b.right_pairs ∧
    (b.left_root.inorder.map bimap_value_element.addr).Nodup ∧
    (b.right_root.inorder.map bimap_value_element.addr).Nodup ∧
    b.size = b.left_root.inorder.length ∧ b.size = b.right_root.inorder.length ∧
    (b.is_empty = true ↔ b.begin_left.eq b.end_left = true) := by
  have hc := h.consistent
  have hl : b.left_root.inorder.length + 1 ≤ b.size + 1 := by rw [size, hc.size_eq]
  have hr : b.right_root.inorder.length + 1 ≤ b.size + 1 := by
    rw [size, hc.size_eq, hc.same_records.length_eq]
  refine ⟨visit_left_begin hc.addr_nodup _ hl, visit_right_begin hc.right_addr_nodup _ hr,
    walk_left_begin hc.addr_nodup _ hl, walk_right_begin hc.right_addr_nodup _ hr,
    hc.same_records, hc.same_records.map _, hc.addr_nodup, hc.right_addr_nodup, ?_, ?_, ?_⟩
  · rw [size, hc.size_eq]
  · rw [size, hc.size_eq, hc.same_records.length_eq]
  · rw [begin_left_eq, is_empty, hc.size_eq]
    cases b.left_root.inorder with
    | nil => simp [left_iterator.eq, end_left, Ptr.same, head_or]
    | cons x rest => simp [left_iterator.eq, end_left, Ptr.same, head_or]

end bimap

/-- Witness of C19: the container of the run `insert(1, 1)`, `insert(2, 2)`,
`insert(1, 1)` with `tens_less` on both sides, in which all three calls are
accepted; it holds three records, two of them with the values `(1, 1)`. -/
theorem indices_hold_same_records_witness :
    bimap.Reachable tens_less tens_less tens_thrice.1 ∧
    tens_thrice.1.left_root.inorder = [⟨2, 1, 1⟩, ⟨1, 2, 2⟩, ⟨0, 1, 1⟩] ∧
    tens_thrice.1.visit_left (tens_thrice.1.size + 1) tens_thrice.1.begin_left =
      .ok (tens_thrice.1.left_root.inorder.map
        (fun e => (⟨.elem e⟩ : left_iterator Nat Nat))) ∧
    tens_thrice.1.left_root.inorder.Perm tens_thrice.1.right_root.inorder ∧
    (tens_thrice.1.left_root.inorder.map details.bimap_value_element.addr).Nodup ∧
    tens_thrice.1.size = tens_thrice.1.left_root.inorder.length :=
  have h := bimap.indices_hold_same_records tens_less tens_less tens_thrice.1
    bimap.tens_thrice_reachable
  ⟨bimap.tens_thrice_reachable, by decide, h.1, h.2.2.2.2.1, h.2.2.2.2.2.2.1,
    h.2.2.2.2.2.2.2.2.1⟩
